import Mathlib

/-!
# Token matcher combinators (`grammar.go`, `options.go`)

A shallow embedding of the matcher engine of the `context_free_grammar` package and
theorems about it.

Conventions of the embedding.

* Go slices of strings are Lean lists; a `nil` slice and an empty slice are both `[]`
  (the code only ever inspects a slice through `len`, indexing and slicing).
* A Go `map[AttributeID][]ValueID` that is not `nil` is a function
  `AttributeID → Option (List ValueID)` (`none`: the key is absent), so that two maps are
  equal exactly when they hold the same entries.  The `nil` map is kept apart, because
  writing to it faults.
* A `MemoryState` interface value may be `nil`; calling `GetStorage` on it faults.
* Dictionaries (`map[string][]ValueID`) and word sets are association lists / lists, since
  the constructors iterate over their keys.
* The only mutable matcher is `onceMatcher`.  Each instance is named by a reference
  (`ref`), and the `matched` flags of all instances live in a store `OnceFlags` that
  `Match` threads through the evaluation.
* `fullTextMatcher.Match` is an unbounded `for` loop.  `Match` takes a bound `fuel` on the
  number of iterations of each such loop and reports `Fault.outOfFuel` when it is exceeded.
  A result within the bound does not change when the bound is raised (`Match_fuel_mono`).
* The relations `AllFail`, `AllMatch`, `PassesTo`, `FirstMatch` and `AppliedSteps` describe
  runs of a child list in the words of the specification; the theorems relate the loops of
  the combinators to them.
* `MatchReads` lists, along the control flow of `Match`, the states that are passed to
  `Copy` or whose memory is read through `GetStorage`.
* A value list is a value.  This is exact when the lists of a memory do not share a backing
  array and a state is used along one derivation, as inside one call of `Match`; the memory
  of `NewInitialState` and every memory derived from it by `Match` is of this kind.  What
  `Copy` shares between a state and its copy, and what an `append` of a dictionary matcher
  overwrites in a memory whose lists share a backing array, is modelled apart, on a store
  of maps and arrays (`Heap`).
-/

namespace CFG

/-! ## Strings -/

/-- The pieces of a character sequence cut at every space: `strings.Split(s, " ")` on the
characters of `s`.  A sequence without a space gives one piece. -/
def splitSpaces : List Char → List (List Char)
  | [] => [[]]
  | c :: cs =>
    if c = ' ' then [] :: splitSpaces cs
    else
      match splitSpaces cs with
      | [] => [[c]]
      | w :: ws => (c :: w) :: ws

/-- Go `strings.Split(s, " ")`. -/
def Split (s : String) : List String :=
  (splitSpaces s.data).map String.mk

/-- Go `strings.Join(elems, sep)`. -/
def Join : List String → String → String
  | [], _ => ""
  | [a], _ => a
  | a :: b :: rest, sep => a ++ sep ++ Join (b :: rest) sep

/-- The function `countKeyTokens`: the number of pieces of `key` cut at spaces. -/
def countKeyTokens (key : String) : Nat :=
  (Split key).length

/-! ## Match state -/

/-- Modelled from the spec: the declaration of `ValueID` is not among the sources; the spec
calls it an opaque, integer-like identifier. -/
abbrev ValueID := Nat

/-- Modelled from the spec: the declaration of `AttributeID` is not among the sources; the
spec calls it an opaque, integer-like identifier. -/
abbrev AttributeID := Nat

/-- Modelled from the spec: the declaration of `AttrValues` is not among the sources; it is
a mapping from `AttributeID` to an ordered list of `ValueID`.  This is a map that is not
`nil`. -/
abbrev AttrValues := AttributeID → Option (List ValueID)

/-- What stops an evaluation short of a returned state. -/
inductive Fault where
  /-- A call of `GetStorage` on a `nil` `MemoryState`. -/
  | nilDereference
  /-- Assignment to an entry of a `nil` map. -/
  | nilMapWrite
  /-- A `for` loop of `fullTextMatcher.Match` ran for more iterations than the bound. -/
  | outOfFuel
  deriving DecidableEq, Repr

/-- The struct `memoryState`; `dict = none` is the `nil` map. -/
structure memoryState where
  dict : Option AttrValues

/-- The interface `MemoryState`; `none` is the `nil` interface value. -/
abbrev MemoryState := Option memoryState

/-- The method `GetStorage`, called through the interface. -/
def GetStorage : MemoryState → Except Fault (Option AttrValues)
  | none => .error .nilDereference
  | some m => .ok m.dict

/-- The function `NewMemoryState`. -/
def NewMemoryState (memory : Option AttrValues) : MemoryState :=
  some ⟨memory⟩

/-- The struct `matchState`. -/
structure matchState where
  hasMatch : Bool
  remainingTokens : List String
  matchedTokens : List String
  memory : MemoryState

/-- The function `NewMatchState`. -/
def NewMatchState (hasMatch : Bool) (remainTokens matchedTokens : List String)
    (memory : MemoryState) : matchState :=
  { hasMatch := hasMatch, remainingTokens := remainTokens, memory := memory,
    matchedTokens := matchedTokens }

/-- The function `NewInitialState`. -/
def NewInitialState (tokens : List String) : matchState :=
  { hasMatch := false, remainingTokens := tokens, matchedTokens := [],
    memory := NewMemoryState (some (fun _ => none)) }

/-- The function `Copy`: a state with the same flag and tokens and a fresh map holding the
entries of the storage of `state`. -/
def Copy (state : matchState) : Except Fault matchState :=
  match GetStorage state.memory with
  | .error e => .error e
  | .ok storage =>
    let newMemory : AttrValues := fun k =>
      match storage with
      | none => none
      | some d => d k
    .ok ⟨state.hasMatch, state.remainingTokens, state.matchedTokens,
      NewMemoryState (some newMemory)⟩

/-- The statement `memory[k] = append(memory[k], valueIds...)`. -/
def appendValues (memory : Option AttrValues) (k : AttributeID) (valueIds : List ValueID) :
    Except Fault (Option AttrValues) :=
  match memory with
  | none => .error .nilMapWrite
  | some d => .ok (some (fun j => if j = k then some ((d k).getD [] ++ valueIds) else d j))

/-! ## Options -/

/-- The struct `options`. -/
structure options where
  keepMatchedTokens : Bool := false
  calculateNeedleLength : Bool := false
  deriving DecidableEq, Repr

/-- The type `Option` of `options.go`: a function that sets fields of `options`. -/
abbrev MatcherOption := options → options

/-- The function `KeepMatchedTokens`. -/
def KeepMatchedTokens : MatcherOption :=
  fun opt => { opt with keepMatchedTokens := true }

/-- The function `CalculateNeedleLength`. -/
def CalculateNeedleLength : MatcherOption :=
  fun opt => { opt with calculateNeedleLength := true }

/-- The loop `for _, opt := range opts { opt(o) }` from `o := &options{}`. -/
def applyOptions (opts : List MatcherOption) : options :=
  opts.foldl (fun o opt => opt o) {}

/-! ## Matchers -/

/-- A dictionary `map[string][]ValueID`; the first entry of a key is the one looked up. -/
abbrev Dict := List (String × List ValueID)

/-- The `matched` flag of every `onceMatcher` instance, by reference. -/
abbrev OnceFlags := Nat → Bool

/-- The nine implementations of the interface `Matcher`, with the fields of their structs.
An `onceMatcher` carries the reference of its instance in place of its flag. -/
inductive Matcher where
  | allowedWordMatcher (word : String)
  | allowedWordsMatcher (words : List String) (maxKeyLength : Nat) (o : options)
  | sequenceMatcher (words : List Matcher) (o : options)
  | dictMatcher (dict : Dict) (attributeId : AttributeID) (o : options) (maxKeyLength : Nat)
  | fullTextMatcher (nodes : List Matcher)
  | oneOfMatcher (words : List Matcher)
  | onceMatcher (ref : Nat) (matcher : Matcher)
  | anyOrderDictMatcher (dict : Dict) (attributeId : AttributeID) (maxKeyLength : Nat)
      (o : options)
  | tryAllMatcher (nodes : List Matcher)

/-- The loop `maxKeyLength := 0; for key := range keys { ... }` of the constructors. -/
def maxKeyLengthOf (keys : List String) : Nat :=
  keys.foldl (fun maxKeyLength key =>
    if countKeyTokens key > maxKeyLength then countKeyTokens key else maxKeyLength) 0

/-- The function `NewAllowedWordMatcher`. -/
def NewAllowedWordMatcher (word : String) : Matcher :=
  .allowedWordMatcher word

/-- The function `NewAllowedWordsMatcher`. -/
def NewAllowedWordsMatcher (words : List String) (opts : List MatcherOption) : Matcher :=
  .allowedWordsMatcher words (maxKeyLengthOf words) (applyOptions opts)

/-- The function `NewSequenceMatcher`. -/
def NewSequenceMatcher (matchers : List Matcher) (opts : List MatcherOption) : Matcher :=
  .sequenceMatcher matchers (applyOptions opts)

/-- The function `NewDictMatcher`. -/
def NewDictMatcher (srcDictionary : Dict) (attributeId : AttributeID)
    (opts : List MatcherOption) : Matcher :=
  let o := applyOptions opts
  if !o.calculateNeedleLength then .dictMatcher srcDictionary attributeId o 0
  else .dictMatcher srcDictionary attributeId o (maxKeyLengthOf (srcDictionary.map Prod.fst))

/-- The function `NewFullTextMatcher`; its options are ignored. -/
def NewFullTextMatcher (matchers : List Matcher) (_opts : List MatcherOption) : Matcher :=
  .fullTextMatcher matchers

/-- The function `NewOneOfMatcher`. -/
def NewOneOfMatcher (nodes : List Matcher) : Matcher :=
  .oneOfMatcher nodes

/-- The function `NewOnceMatcher`: a new instance, at reference `ref`, whose flag is unset
when `ref` is fresh in the store. -/
def NewOnceMatcher (ref : Nat) (matcher : Matcher) : Matcher :=
  .onceMatcher ref matcher

/-- The function `NewAnyOrderDictMatcher`. -/
def NewAnyOrderDictMatcher (srcDictionary : Dict) (attributeId : AttributeID)
    (opts : List MatcherOption) : Matcher :=
  .anyOrderDictMatcher srcDictionary attributeId
    (maxKeyLengthOf (srcDictionary.map Prod.fst)) (applyOptions opts)

/-- The function `NewTryAllMatcher`. -/
def NewTryAllMatcher (nodes : List Matcher) : Matcher :=
  .tryAllMatcher nodes

/-! ## Leaf matchers -/

/-- The method `allowedWordMatcher.Match`. -/
def allowedWordMatch (word : String) (input : matchState) : matchState :=
  let tokens := input.remainingTokens
  if tokens.length = 0 then NewMatchState false tokens [] none
  else if tokens.head? = some word then NewMatchState true (tokens.drop 1) [] input.memory
  else NewMatchState false tokens [] none

/-- The loop `for i := needleBorder; i > 0; i--` of `allowedWordsMatcher.Match`, entered
with counter `i`, followed by the return after it. -/
def allowedWordsLoop (words : List String) (o : options) (input : matchState)
    (tokens : List String) : Nat → matchState
  | 0 => NewMatchState false tokens [] input.memory
  | i + 1 =>
    let lookup := Join (tokens.take (i + 1)) " "
    if words.contains lookup then
      NewMatchState true (tokens.drop (i + 1))
        (if o.keepMatchedTokens then [lookup] else []) input.memory
    else allowedWordsLoop words o input tokens i

/-- The method `allowedWordsMatcher.Match`. -/
def allowedWordsMatch (words : List String) (maxKeyLength : Nat) (o : options)
    (input : matchState) : matchState :=
  let tokens := input.remainingTokens
  if tokens.length = 0 then NewMatchState false tokens [] none
  else
    let needleBorder := min maxKeyLength tokens.length
    allowedWordsLoop words o input tokens needleBorder

/-- The loop `for i := needleBorder; i > 0; i--` of `dictMatcher.Match`, entered with
counter `i`, followed by the return after it. -/
def dictLoop (dict : Dict) (attributeId : AttributeID) (o : options)
    (tokens : List String) (memory : Option AttrValues) : Nat → Except Fault matchState
  | 0 => .ok (NewMatchState false tokens [] none)
  | i + 1 =>
    let needle := Join (tokens.take (i + 1)) " "
    match dict.lookup needle with
    | some valueIds =>
      match appendValues memory attributeId valueIds with
      | .error e => .error e
      | .ok memory1 =>
        .ok (NewMatchState true (tokens.drop (i + 1))
          (if o.keepMatchedTokens then tokens.take (i + 1) else []) (NewMemoryState memory1))
    | none => dictLoop dict attributeId o tokens memory i

/-- The method `dictMatcher.Match`. -/
def dictMatch (dict : Dict) (attributeId : AttributeID) (o : options) (maxKeyLength : Nat)
    (state : matchState) : Except Fault matchState :=
  let tokens := state.remainingTokens
  if tokens.length = 0 then .ok (NewMatchState false tokens [] none)
  else
    match GetStorage state.memory with
    | .error e => .error e
    | .ok memory =>
      let needleBorder :=
        if o.calculateNeedleLength then min maxKeyLength tokens.length else tokens.length
      dictLoop dict attributeId o tokens memory needleBorder

/-- The function `calculateRemainingTokens`. -/
def calculateRemainingTokens (tokens : List String) (matchedOffset matchedLen : Nat) :
    List String :=
  if matchedLen = tokens.length then []
  else
    let leftPartEndIndex := matchedOffset
    let result := if leftPartEndIndex > 0 then tokens.take leftPartEndIndex else []
    let rightPartStartIndex := matchedOffset + matchedLen
    if rightPartStartIndex < tokens.length then result ++ tokens.drop rightPartStartIndex
    else result

/-- The inner loop `for offset := 0; offset+length <= len(tokens); offset++` of
`anyOrderDictMatcher.Match` with `n` iterations left and counter `offset`; `none` when it
ends without returning. -/
def anyOrderOffsets (dict : Dict) (attributeId : AttributeID) (o : options)
    (tokens : List String) (memory : Option AttrValues) (length : Nat) :
    Nat → Nat → Option (Except Fault matchState)
  | 0, _ => none
  | n + 1, offset =>
    let needleTokens := (tokens.drop offset).take length
    let needle := Join needleTokens " "
    match dict.lookup needle with
    | none => anyOrderOffsets dict attributeId o tokens memory length n (offset + 1)
    | some valueIds =>
      match appendValues memory attributeId valueIds with
      | .error e => some (.error e)
      | .ok memory1 =>
        let remainingTokens := calculateRemainingTokens tokens offset length
        some (.ok (NewMatchState true remainingTokens
          (if o.keepMatchedTokens then needleTokens else []) (NewMemoryState memory1)))

/-- The outer loop `for length := maxNeedleLen; length >= 1; length--` of
`anyOrderDictMatcher.Match`, entered with counter `length`, followed by the return after
it.  The inner loop runs for the `len(tokens) + 1 - length` offsets that satisfy its
condition. -/
def anyOrderLoop (dict : Dict) (attributeId : AttributeID) (o : options)
    (tokens : List String) (memory : Option AttrValues) : Nat → Except Fault matchState
  | 0 => .ok (NewMatchState false tokens [] none)
  | length + 1 =>
    match anyOrderOffsets dict attributeId o tokens memory (length + 1)
        (tokens.length + 1 - (length + 1)) 0 with
    | some r => r
    | none => anyOrderLoop dict attributeId o tokens memory length

/-- The method `anyOrderDictMatcher.Match`. -/
def anyOrderDictMatch (dict : Dict) (attributeId : AttributeID) (maxKeyLength : Nat)
    (o : options) (state : matchState) : Except Fault matchState :=
  let tokens := state.remainingTokens
  if tokens.length = 0 then .ok (NewMatchState false tokens [] none)
  else
    match GetStorage state.memory with
    | .error e => .error e
    | .ok memory =>
      let maxNeedleLen := min tokens.length maxKeyLength
      anyOrderLoop dict attributeId o tokens memory maxNeedleLen

/-! ## Combinators -/

/-- The outer loop `for { ... }` of `fullTextMatcher.Match` with `fuel` iterations allowed,
followed by the return after it.  `pass` is the inner loop over the nodes: it gives the new
`state` when a node matched (`hasMatch` is then `true`) and `none` when no node did. -/
def fullTextLoop
    (pass : OnceFlags → matchState → Except Fault (OnceFlags × Option matchState)) :
    Nat → OnceFlags → matchState → Except Fault (OnceFlags × matchState)
  | 0, _, _ => .error .outOfFuel
  | fuel + 1, flags, state =>
    match pass flags state with
    | .error e => .error e
    | .ok (flags1, none) => .ok (flags1, NewMatchState false state.remainingTokens [] none)
    | .ok (flags1, some state1) =>
      if state1.remainingTokens.length = 0 then .ok (flags1, state1)
      else fullTextLoop pass fuel flags1 state1

mutual

/-- The method `Match` of the interface `Matcher`, on the flags of the `onceMatcher`
instances and a state; it returns the flags and the state after the call. -/
def Match : Matcher → Nat → OnceFlags → matchState → Except Fault (OnceFlags × matchState)
  | .allowedWordMatcher word, _, flags, input => .ok (flags, allowedWordMatch word input)
  | .allowedWordsMatcher words maxKeyLength o, _, flags, input =>
    .ok (flags, allowedWordsMatch words maxKeyLength o input)
  | .sequenceMatcher words o, fuel, flags, state =>
    let tokens := state.remainingTokens
    if tokens.length = 0 then .ok (flags, NewMatchState false tokens [] none)
    else sequenceLoop words fuel o tokens flags state []
  | .dictMatcher dict attributeId o maxKeyLength, _, flags, state =>
    match dictMatch dict attributeId o maxKeyLength state with
    | .error e => .error e
    | .ok res => .ok (flags, res)
  | .fullTextMatcher nodes, fuel, flags, state =>
    fullTextLoop (fun flags1 state1 => fullTextPass nodes fuel flags1 state1) fuel flags state
  | .oneOfMatcher words, fuel, flags, state => oneOfLoop words fuel flags state
  | .onceMatcher ref matcher, fuel, flags, state =>
    if flags ref then
      .ok (flags, NewMatchState false state.remainingTokens state.matchedTokens none)
    else
      match Copy state with
      | .error e => .error e
      | .ok copy =>
        match Match matcher fuel flags copy with
        | .error e => .error e
        | .ok (flags1, res) =>
          if res.hasMatch then .ok (fun r => if r = ref then true else flags1 r, res)
          else .ok (flags1, NewMatchState false state.remainingTokens state.matchedTokens none)
  | .anyOrderDictMatcher dict attributeId maxKeyLength o, _, flags, state =>
    match anyOrderDictMatch dict attributeId maxKeyLength o state with
    | .error e => .error e
    | .ok res => .ok (flags, res)
  | .tryAllMatcher nodes, fuel, flags, state => tryAllLoop nodes fuel flags state false

/-- The loop `for _, matcher := range s.words` of `sequenceMatcher.Match` over the matchers
still to run, followed by the returns after it. -/
def sequenceLoop : List Matcher → Nat → options → List String → OnceFlags → matchState →
    List String → Except Fault (OnceFlags × matchState)
  | [], _, _, _, flags, state, matchedTokens =>
    if matchedTokens.length > 0 then
      .ok (flags, NewMatchState state.hasMatch state.remainingTokens matchedTokens state.memory)
    else .ok (flags, state)
  | matcher :: rest, fuel, o, tokens, flags, state, matchedTokens =>
    match Copy state with
    | .error e => .error e
    | .ok copy =>
      match Match matcher fuel flags copy with
      | .error e => .error e
      | .ok (flags1, state1) =>
        if !state1.hasMatch then .ok (flags1, NewMatchState false tokens [] none)
        else if !o.keepMatchedTokens then
          sequenceLoop rest fuel o tokens flags1 state1 matchedTokens
        else
          sequenceLoop rest fuel o tokens flags1 state1 (matchedTokens ++ state1.matchedTokens)

/-- The inner loop `for _, node := range or.nodes` of `fullTextMatcher.Match` over the
nodes still to try: the new `state` when a node matches, `none` when the loop ends with
`hasMatch` false. -/
def fullTextPass : List Matcher → Nat → OnceFlags → matchState →
    Except Fault (OnceFlags × Option matchState)
  | [], _, flags, _ => .ok (flags, none)
  | node :: rest, fuel, flags, state =>
    match Copy state with
    | .error e => .error e
    | .ok copy =>
      match Match node fuel flags copy with
      | .error e => .error e
      | .ok (flags1, newState) =>
        if newState.hasMatch then
          .ok (flags1, some (NewMatchState true newState.remainingTokens
            (state.matchedTokens ++ newState.matchedTokens) newState.memory))
        else fullTextPass rest fuel flags1 state

/-- The loop `for _, matcher := range o.words` of `oneOfMatcher.Match` over the matchers
still to try, followed by the return after it. -/
def oneOfLoop : List Matcher → Nat → OnceFlags → matchState →
    Except Fault (OnceFlags × matchState)
  | [], _, flags, state =>
    .ok (flags, NewMatchState false state.remainingTokens state.matchedTokens none)
  | matcher :: rest, fuel, flags, state =>
    match Copy state with
    | .error e => .error e
    | .ok copy =>
      match Match matcher fuel flags copy with
      | .error e => .error e
      | .ok (flags1, newState) =>
        if newState.hasMatch then .ok (flags1, newState)
        else oneOfLoop rest fuel flags1 state

/-- The loop `for _, node := range rr.nodes` of `tryAllMatcher.Match` over the nodes still
to try, with the current `state` and `hasAnyMatch`, followed by the returns after it. -/
def tryAllLoop : List Matcher → Nat → OnceFlags → matchState → Bool →
    Except Fault (OnceFlags × matchState)
  | [], _, flags, state, hasAnyMatch =>
    if hasAnyMatch then .ok (flags, state)
    else .ok (flags, NewMatchState false state.remainingTokens [] state.memory)
  | node :: rest, fuel, flags, state, hasAnyMatch =>
    match Copy state with
    | .error e => .error e
    | .ok copy =>
      match Match node fuel flags copy with
      | .error e => .error e
      | .ok (flags1, newState) =>
        if newState.hasMatch then tryAllLoop rest fuel flags1 newState true
        else tryAllLoop rest fuel flags1 state hasAnyMatch

end

/-! ## Observing results -/

/-- The parts of a result that can be compared by evaluation: the flag, the remaining
tokens, the matched tokens, and the entries of the memory at the attributes `attrs`
(`none` when the memory or its map is `nil`); `none` when the evaluation faulted. -/
def observe (attrs : List AttributeID) (r : Except Fault (OnceFlags × matchState)) :
    Option (Bool × List String × List String × Option (List (Option (List ValueID)))) :=
  match r with
  | .error _ => none
  | .ok (_, s) =>
    some (s.hasMatch, s.remainingTokens, s.matchedTokens,
      match s.memory with
      | some ⟨some d⟩ => some (attrs.map d)
      | _ => none)

/-! ## Runs of a child list, in the words of the specification -/

/-- The matchers `ms`, tried in list order on the same copy `copy` of a state, all return
`hasMatch = false`; the flags go from `flags` to `flags1` along the way. -/
inductive AllFail (fuel : Nat) (copy : matchState) :
    List Matcher → OnceFlags → OnceFlags → Prop where
  | nil (flags : OnceFlags) : AllFail fuel copy [] flags flags
  | cons (m : Matcher) (ms : List Matcher) (flags flags1 flags2 : OnceFlags) (r : matchState) :
      Match m fuel flags copy = .ok (flags1, r) → r.hasMatch = false →
      AllFail fuel copy ms flags1 flags2 → AllFail fuel copy (m :: ms) flags flags2

/-- The chain `s_i = m_i.Match(Copy(s_{i-1}))` over the matchers `ms` from the state `s`
in which every `s_i` has `hasMatch = true`; it ends in the state `sn` (which is `s` for an
empty list), and the flags go from `flags` to `flagsn`. -/
inductive AllMatch (fuel : Nat) :
    List Matcher → OnceFlags → matchState → OnceFlags → matchState → Prop where
  | nil (flags : OnceFlags) (s : matchState) : AllMatch fuel [] flags s flags s
  | cons (m : Matcher) (ms : List Matcher) (flags flags1 flagsn : OnceFlags)
      (s copy s1 sn : matchState) :
      Copy s = .ok copy → Match m fuel flags copy = .ok (flags1, s1) → s1.hasMatch = true →
      AllMatch fuel ms flags1 s1 flagsn sn → AllMatch fuel (m :: ms) flags s flagsn sn

/-- The outer loop of `fullTextMatcher.Match` over `nodes` makes `k` iterations from the
state `s` to the state `sk`, in each of which a node matches and tokens remain after it;
the flags go from `flags` to `flagsk`. -/
inductive PassesTo (nodes : List Matcher) (fuel : Nat) :
    Nat → OnceFlags → matchState → OnceFlags → matchState → Prop where
  | refl (flags : OnceFlags) (s : matchState) : PassesTo nodes fuel 0 flags s flags s
  | step (k : Nat) (flags flags1 flagsk : OnceFlags) (s s1 sk : matchState) :
      fullTextPass nodes fuel flags s = .ok (flags1, some s1) → s1.remainingTokens ≠ [] →
      PassesTo nodes fuel k flags1 s1 flagsk sk → PassesTo nodes fuel (k + 1) flags s flagsk sk

mutual

/-- Every `sequenceMatcher` of the tree has at least one child. -/
def Matcher.sequencesNonEmpty : Matcher → Bool
  | .allowedWordMatcher _ => true
  | .allowedWordsMatcher _ _ _ => true
  | .sequenceMatcher words _ => !words.isEmpty && allSequencesNonEmpty words
  | .dictMatcher _ _ _ _ => true
  | .fullTextMatcher nodes => allSequencesNonEmpty nodes
  | .oneOfMatcher words => allSequencesNonEmpty words
  | .onceMatcher _ matcher => matcher.sequencesNonEmpty
  | .anyOrderDictMatcher _ _ _ _ => true
  | .tryAllMatcher nodes => allSequencesNonEmpty nodes

/-- Every `sequenceMatcher` of every tree of the list has at least one child. -/
def allSequencesNonEmpty : List Matcher → Bool
  | [] => true
  | m :: ms => m.sequencesNonEmpty && allSequencesNonEmpty ms

end


mutual

/-- The references of the `onceMatcher` instances of a tree. -/
def Matcher.onceRefs : Matcher → List Nat
  | .allowedWordMatcher _ => []
  | .allowedWordsMatcher _ _ _ => []
  | .sequenceMatcher words _ => allOnceRefs words
  | .dictMatcher _ _ _ _ => []
  | .fullTextMatcher nodes => allOnceRefs nodes
  | .oneOfMatcher words => allOnceRefs words
  | .onceMatcher ref matcher => ref :: matcher.onceRefs
  | .anyOrderDictMatcher _ _ _ _ => []
  | .tryAllMatcher nodes => allOnceRefs nodes

/-- The references of the `onceMatcher` instances of the trees of a list. -/
def allOnceRefs : List Matcher → List Nat
  | [] => []
  | m :: ms => m.onceRefs ++ allOnceRefs ms

end

/-! ## The left fold of the Try-All matcher, in the words of the specification -/

/-- One step of the fold: `child` is matched on a copy of `current`, and `current` is
replaced by the state the child returns exactly when that child matched; the third
component tells whether a child has matched so far. -/
def tryAllStep (fuel : Nat) (acc : Except Fault (OnceFlags × matchState × Bool))
    (child : Matcher) : Except Fault (OnceFlags × matchState × Bool) :=
  match acc with
  | .error e => .error e
  | .ok (flags, current, anyMatched) =>
    match Copy current with
    | .error e => .error e
    | .ok copy =>
      match Match child fuel flags copy with
      | .error e => .error e
      | .ok (flags1, r) =>
        if r.hasMatch then .ok (flags1, r, true) else .ok (flags1, current, anyMatched)

/-- The left fold over the children, starting with `current = input`. -/
def tryAllFold (children : List Matcher) (fuel : Nat) (flags : OnceFlags)
    (input : matchState) : Except Fault (OnceFlags × matchState × Bool) :=
  children.foldl (tryAllStep fuel) (.ok (flags, input, false))

/-- Whether a matcher is a `fullTextMatcher` (at its root). -/
def Matcher.isFullText : Matcher → Bool
  | .fullTextMatcher _ => true
  | _ => false

/-! ## What a match keeps of its input -/

/-- Values are only appended from `M` to `M1`: every attribute of `M` is an attribute of
`M1`, and its list in `M1` is its list in `M` followed by further values. -/
def Extends (M M1 : AttrValues) : Prop :=
  ∀ a l, M a = some l → ∃ more, M1 a = some (l ++ more)

mutual

/-- The tree contains no `anyOrderDictMatcher`. -/
def Matcher.noAnyOrder : Matcher → Bool
  | .allowedWordMatcher _ => true
  | .allowedWordsMatcher _ _ _ => true
  | .sequenceMatcher words _ => allNoAnyOrder words
  | .dictMatcher _ _ _ _ => true
  | .fullTextMatcher nodes => allNoAnyOrder nodes
  | .oneOfMatcher words => allNoAnyOrder words
  | .onceMatcher _ matcher => matcher.noAnyOrder
  | .anyOrderDictMatcher _ _ _ _ => false
  | .tryAllMatcher nodes => allNoAnyOrder nodes

/-- No tree of the list contains an `anyOrderDictMatcher`. -/
def allNoAnyOrder : List Matcher → Bool
  | [] => true
  | m :: ms => m.noAnyOrder && allNoAnyOrder ms

end

/-- The state `res` keeps of the state `s`: both memories are present and the memory of
`res` extends that of `s`; the remaining tokens of `res` are a sublist of those of `s`, and
a suffix of them when `suffixOnly` is set. -/
def Keeps (suffixOnly : Bool) (s res : matchState) : Prop :=
  (∃ M M1, s.memory = some ⟨some M⟩ ∧ res.memory = some ⟨some M1⟩ ∧ Extends M M1) ∧
    res.remainingTokens.Sublist s.remainingTokens ∧
    (suffixOnly = true → res.remainingTokens <:+ s.remainingTokens)

/-- The chain of `AllMatch`, together with the concatenation `toks`, in child order, of the
matched tokens returned by each child. -/
inductive AllMatchTokens (fuel : Nat) :
    List Matcher → OnceFlags → matchState → OnceFlags → matchState → List String → Prop where
  | nil (flags : OnceFlags) (s : matchState) : AllMatchTokens fuel [] flags s flags s []
  | cons (m : Matcher) (ms : List Matcher) (flags flags1 flagsn : OnceFlags)
      (s copy s1 sn : matchState) (toks : List String) :
      Copy s = .ok copy → Match m fuel flags copy = .ok (flags1, s1) → s1.hasMatch = true →
      AllMatchTokens fuel ms flags1 s1 flagsn sn toks →
      AllMatchTokens fuel (m :: ms) flags s flagsn sn (s1.matchedTokens ++ toks)

/-! ## Storage: maps and the backing arrays of value lists

The definitions above take a value list as a value.  That is exact as long as the lists of
a memory do not share a backing array and a state is used along one derivation.  What
`Copy` shares is a matter of storage, which this section models: a map and an array are
reached by address, and a list is a slice of an array. -/

/-- A Go slice value: the window of `len` elements, with room for `cap`, that starts at
index `off` of the backing array at address `arr`.  The `nil` slice has `len = cap = 0`. -/
structure SliceHeader where
  arr : Nat
  off : Nat
  len : Nat
  cap : Nat
  deriving DecidableEq, Repr

/-- The store: the backing arrays by address and the entries of the `AttrValues` maps by
address (the first entry of a key is the one looked up). -/
structure Heap where
  arrays : List (List ValueID)
  maps : List (List (AttributeID × SliceHeader))
  deriving DecidableEq, Repr

/-- The slice stored at key `k` of the map at `mapAddr`. -/
def Heap.lookup (h : Heap) (mapAddr : Nat) (k : AttributeID) : Option SliceHeader :=
  (h.maps.getD mapAddr []).lookup k

/-- The elements seen through a slice. -/
def Heap.elems (h : Heap) (sl : SliceHeader) : List ValueID :=
  ((h.arrays.getD sl.arr []).drop sl.off).take sl.len

/-- The value list read at key `k` of the map at `mapAddr`. -/
def Heap.read (h : Heap) (mapAddr : Nat) (k : AttributeID) : Option (List ValueID) :=
  (h.lookup mapAddr k).map h.elems

/-- The storage part of `Copy`: `newMemory := make(AttrValues, len(storage))` followed by
the loop `for k, v := range storage` with the body `newMemory[k] = v`, on the map at
`mapAddr`.  It gives the store with the new map and the address of that map; every slice
is copied as a slice value, no array is copied. -/
def Heap.copyStorage (h : Heap) (mapAddr : Nat) : Heap × Nat :=
  ({ h with maps := h.maps ++ [h.maps.getD mapAddr []] }, h.maps.length)

/-- The cells `i, i+1, ...` of an array overwritten by `vals`. -/
def writeAt (xs : List ValueID) (i : Nat) (vals : List ValueID) : List ValueID :=
  xs.take i ++ vals ++ xs.drop (i + vals.length)

/-- The statement `memory[k] = append(memory[k], valueIds...)` of the dictionary matchers
on the map at `mapAddr`.  As Go defines `append`, the values are written into the backing
array of the slice when its capacity is large enough, and into a new array holding the old
elements otherwise (taken here with just the capacity needed). -/
def Heap.appendStorage (h : Heap) (mapAddr : Nat) (k : AttributeID)
    (valueIds : List ValueID) : Heap :=
  let old : SliceHeader := (h.lookup mapAddr k).getD ⟨0, 0, 0, 0⟩
  let entries := h.maps.getD mapAddr []
  if old.len + valueIds.length ≤ old.cap then
    let new : SliceHeader := { old with len := old.len + valueIds.length }
    { arrays := h.arrays.set old.arr
        (writeAt (h.arrays.getD old.arr []) (old.off + old.len) valueIds),
      maps := h.maps.set mapAddr ((k, new) :: entries) }
  else
    let new : SliceHeader :=
      ⟨h.arrays.length, 0, old.len + valueIds.length, old.len + valueIds.length⟩
    { arrays := h.arrays ++ [h.elems old ++ valueIds],
      maps := h.maps.set mapAddr ((k, new) :: entries) }

/-! ## The states whose memory is read

`Copy(state)` reads `state.Memory().GetStorage()`, and the two dictionary matchers read
`state.Memory().GetStorage()` of their argument.  The functions below follow the control
flow of `Match` and list, in call order, the states on which these reads happen: the
arguments of the calls of `Copy` in the sequence, full-text, one-of, once and try-all
matchers and the arguments of the dictionary matchers that get past the test for empty
tokens. -/

/-- The states read by the outer loop `for { ... }` of `fullTextMatcher.Match` with `fuel`
iterations allowed; `pass` is the inner loop and `passReads` lists the states it reads. -/
def fullTextLoopReads
    (pass : OnceFlags → matchState → Except Fault (OnceFlags × Option matchState))
    (passReads : OnceFlags → matchState → List matchState) :
    Nat → OnceFlags → matchState → List matchState
  | 0, _, _ => []
  | fuel + 1, flags, state =>
    passReads flags state ++
      match pass flags state with
      | .error _ => []
      | .ok (_, none) => []
      | .ok (flags1, some state1) =>
        if state1.remainingTokens.length = 0 then []
        else fullTextLoopReads pass passReads fuel flags1 state1

mutual

/-- The states read during `Match`, in call order. -/
def MatchReads : Matcher → Nat → OnceFlags → matchState → List matchState
  | .allowedWordMatcher _, _, _, _ => []
  | .allowedWordsMatcher _ _ _, _, _, _ => []
  | .sequenceMatcher words _, fuel, flags, state =>
    if state.remainingTokens.length = 0 then []
    else sequenceLoopReads words fuel flags state
  | .dictMatcher _ _ _ _, _, _, state =>
    if state.remainingTokens.length = 0 then [] else [state]
  | .fullTextMatcher nodes, fuel, flags, state =>
    fullTextLoopReads (fun flags1 state1 => fullTextPass nodes fuel flags1 state1)
      (fun flags1 state1 => fullTextPassReads nodes fuel flags1 state1) fuel flags state
  | .oneOfMatcher words, fuel, flags, state => oneOfLoopReads words fuel flags state
  | .onceMatcher ref matcher, fuel, flags, state =>
    if flags ref then []
    else
      state ::
        match Copy state with
        | .error _ => []
        | .ok copy => MatchReads matcher fuel flags copy
  | .anyOrderDictMatcher _ _ _ _, _, _, state =>
    if state.remainingTokens.length = 0 then [] else [state]
  | .tryAllMatcher nodes, fuel, flags, state => tryAllLoopReads nodes fuel flags state

/-- The states read by the loop of `sequenceMatcher.Match` over the matchers still to
run. -/
def sequenceLoopReads : List Matcher → Nat → OnceFlags → matchState → List matchState
  | [], _, _, _ => []
  | matcher :: rest, fuel, flags, state =>
    state ::
      match Copy state with
      | .error _ => []
      | .ok copy =>
        MatchReads matcher fuel flags copy ++
          match Match matcher fuel flags copy with
          | .error _ => []
          | .ok (flags1, state1) =>
            if !state1.hasMatch then [] else sequenceLoopReads rest fuel flags1 state1

/-- The states read by the inner loop of `fullTextMatcher.Match` over the nodes still to
try. -/
def fullTextPassReads : List Matcher → Nat → OnceFlags → matchState → List matchState
  | [], _, _, _ => []
  | node :: rest, fuel, flags, state =>
    state ::
      match Copy state with
      | .error _ => []
      | .ok copy =>
        MatchReads node fuel flags copy ++
          match Match node fuel flags copy with
          | .error _ => []
          | .ok (flags1, newState) =>
            if newState.hasMatch then [] else fullTextPassReads rest fuel flags1 state

/-- The states read by the loop of `oneOfMatcher.Match` over the matchers still to try. -/
def oneOfLoopReads : List Matcher → Nat → OnceFlags → matchState → List matchState
  | [], _, _, _ => []
  | matcher :: rest, fuel, flags, state =>
    state ::
      match Copy state with
      | .error _ => []
      | .ok copy =>
        MatchReads matcher fuel flags copy ++
          match Match matcher fuel flags copy with
          | .error _ => []
          | .ok (flags1, newState) =>
            if newState.hasMatch then [] else oneOfLoopReads rest fuel flags1 state

/-- The states read by the loop of `tryAllMatcher.Match` over the nodes still to try. -/
def tryAllLoopReads : List Matcher → Nat → OnceFlags → matchState → List matchState
  | [], _, _, _ => []
  | node :: rest, fuel, flags, state =>
    state ::
      match Copy state with
      | .error _ => []
      | .ok copy =>
        MatchReads node fuel flags copy ++
          match Match node fuel flags copy with
          | .error _ => []
          | .ok (flags1, newState) =>
            if newState.hasMatch then tryAllLoopReads rest fuel flags1 newState
            else tryAllLoopReads rest fuel flags1 state

end

/-! ## The steps of the full-text matcher, in the words of the specification -/

/-- The first node of `nodes`, in list order, that matches a copy of the state `s` returns
`r`: the nodes before it all return `hasMatch = false` on the copy, and it returns `r` with
`hasMatch = true`; the flags go from `flags` to `flags1`. -/
def FirstMatch (fuel : Nat) (nodes : List Matcher) (flags : OnceFlags) (s : matchState)
    (flags1 : OnceFlags) (r : matchState) : Prop :=
  ∃ pre m post copy flagsm, nodes = pre ++ m :: post ∧ Copy s = .ok copy ∧
    AllFail fuel copy pre flags flagsm ∧ Match m fuel flagsm copy = .ok (flags1, r) ∧
    r.hasMatch = true

/-- The state the full-text matcher goes on with after the node applied to the state `s`
returned `r`. -/
def applyStep (s r : matchState) : matchState :=
  NewMatchState true r.remainingTokens (s.matchedTokens ++ r.matchedTokens) r.memory

/-- The steps applied by the full-text matcher over `nodes` from the state `s` to the state
`res` in which no tokens remain: each step applies the first node that matches the current
state; `toks` is the concatenation, in the order of the steps, of the matched tokens
returned by the applied nodes. -/
inductive AppliedSteps (fuel : Nat) (nodes : List Matcher) :
    OnceFlags → matchState → OnceFlags → matchState → List String → Prop where
  | last (flags flags1 : OnceFlags) (s r : matchState) :
      FirstMatch fuel nodes flags s flags1 r → r.remainingTokens = [] →
      AppliedSteps fuel nodes flags s flags1 (applyStep s r) r.matchedTokens
  | step (flags flags1 flagsn : OnceFlags) (s r res : matchState) (toks : List String) :
      FirstMatch fuel nodes flags s flags1 r → r.remainingTokens ≠ [] →
      AppliedSteps fuel nodes flags1 (applyStep s r) flagsn res toks →
      AppliedSteps fuel nodes flags s flagsn res (r.matchedTokens ++ toks)
/-! ## Strings: counting the words of a joined window -/

theorem splitSpaces_length (l : List Char) : (splitSpaces l).length = l.count ' ' + 1 := by
  induction l with
  | nil => simp [splitSpaces]
  | cons c cs ih =>
    by_cases hc : c = ' '
    · subst hc
      simp [splitSpaces, ih]
    · have hne : (c == ' ') = false := by simpa using hc
      simp only [splitSpaces, if_neg hc, List.count_cons, hne]
      cases hs : splitSpaces cs with
      | nil => rw [hs] at ih; simp at ih
      | cons w ws => rw [hs] at ih; simpa using ih

theorem countKeyTokens_eq (key : String) : countKeyTokens key = key.data.count ' ' + 1 := by
  simp [countKeyTokens, Split, splitSpaces_length]

theorem Join_count_spaces (l : List String) :
    l.length ≤ (Join l " ").data.count ' ' + 1 := by
  induction l with
  | nil => simp
  | cons a rest ih =>
    cases rest with
    | nil => simp [Join]
    | cons b rest2 =>
      have h1 : (Join (a :: b :: rest2) " ").data
          = a.data ++ (' ' :: (Join (b :: rest2) " ").data) := by
        simp [Join, String.data_append]
      rw [h1, List.count_append, List.count_cons_self]
      simp only [List.length_cons] at ih ⊢
      omega

theorem length_le_countKeyTokens_Join (l : List String) :
    l.length ≤ countKeyTokens (Join l " ") := by
  rw [countKeyTokens_eq]
  exact Join_count_spaces l

theorem foldl_maxKey_ge_init (keys : List String) (init : Nat) :
    init ≤ keys.foldl (fun maxKeyLength key =>
      if countKeyTokens key > maxKeyLength then countKeyTokens key else maxKeyLength) init := by
  induction keys generalizing init with
  | nil => simp
  | cons k ks ih =>
    simp only [List.foldl_cons]
    refine le_trans ?_ (ih _)
    split <;> omega

theorem foldl_maxKey_ge_mem (keys : List String) (init : Nat) (key : String)
    (h : key ∈ keys) :
    countKeyTokens key ≤ keys.foldl (fun maxKeyLength key =>
      if countKeyTokens key > maxKeyLength then countKeyTokens key else maxKeyLength) init := by
  induction keys generalizing init with
  | nil => simp at h
  | cons k ks ih =>
    simp only [List.foldl_cons]
    rcases List.mem_cons.mp h with rfl | hmem
    · refine le_trans ?_ (foldl_maxKey_ge_init ks _)
      split <;> omega
    · exact ih _ hmem

theorem countKeyTokens_le_maxKeyLengthOf (keys : List String) (key : String)
    (h : key ∈ keys) : countKeyTokens key ≤ maxKeyLengthOf keys :=
  foldl_maxKey_ge_mem keys 0 key h

theorem lookup_mem_keys (d : Dict) (key : String) (vals : List ValueID)
    (h : d.lookup key = some vals) : key ∈ d.map Prod.fst := by
  induction d with
  | nil => simp at h
  | cons e es ih =>
    obtain ⟨k, v⟩ := e
    by_cases hk : key = k
    · simp [hk]
    · have hb : (key == k) = false := by simpa using hk
      simp only [List.lookup_cons, hb] at h
      simp only [List.map_cons, List.mem_cons]
      exact Or.inr (ih h)

/-- A window of tokens whose join is a key of the dictionary is no longer than the
longest key counted in words. -/
theorem window_le_maxKeyLength (d : Dict) (w : List String) (vals : List ValueID)
    (h : d.lookup (Join w " ") = some vals) :
    w.length ≤ maxKeyLengthOf (d.map Prod.fst) :=
  le_trans (length_le_countKeyTokens_Join w)
    (countKeyTokens_le_maxKeyLengthOf _ _ (lookup_mem_keys d _ vals h))

/-! ## The phrase-dictionary matcher -/

/-- The memory after `appendValues` on a map that is not `nil`. -/
theorem appendValues_some (M : AttrValues) (a : AttributeID) (vals : List ValueID) :
    appendValues (some M) a vals
      = .ok (some (fun j => if j = a then some ((M a).getD [] ++ vals) else M j)) := rfl

/-- The loop of `dictMatcher.Match` reads only `keepMatchedTokens` among the options. -/
theorem dictLoop_options (d : Dict) (a : AttributeID) (o o' : options) (t : List String)
    (mem : Option AttrValues) (h : o.keepMatchedTokens = o'.keepMatchedTokens) (n : Nat) :
    dictLoop d a o t mem n = dictLoop d a o' t mem n := by
  induction n with
  | zero => rfl
  | succ i ih => simp only [dictLoop, ih, h]

/-- Lengths at which no prefix is a key can be skipped by the loop. -/
theorem dictLoop_skip (d : Dict) (a : AttributeID) (o : options) (t : List String)
    (mem : Option AttrValues) (n extra : Nat)
    (h : ∀ j, n < j → j ≤ n + extra → d.lookup (Join (t.take j) " ") = none) :
    dictLoop d a o t mem (n + extra) = dictLoop d a o t mem n := by
  induction extra with
  | zero => rfl
  | succ e ih =>
    have hnone : d.lookup (Join (t.take (n + e + 1)) " ") = none :=
      h (n + e + 1) (by omega) (by omega)
    have hrest : ∀ j, n < j → j ≤ n + e → d.lookup (Join (t.take j) " ") = none :=
      fun j h1 h2 => h j h1 (by omega)
    rw [← ih hrest]
    show dictLoop d a o t mem (n + e + 1) = _
    simp only [dictLoop, hnone]

/-- What the loop of `dictMatcher.Match` returns on a map that is not `nil`: failure when
no prefix of length `1..n` is a key, and otherwise the state built from the longest such
prefix. -/
theorem dictLoop_spec (d : Dict) (a : AttributeID) (o : options) (t : List String)
    (M : AttrValues) (n : Nat) :
    ((∀ j, 1 ≤ j → j ≤ n → d.lookup (Join (t.take j) " ") = none) ∧
      dictLoop d a o t (some M) n = .ok (NewMatchState false t [] none)) ∨
    (∃ k vals, 1 ≤ k ∧ k ≤ n ∧ d.lookup (Join (t.take k) " ") = some vals ∧
      (∀ j, k < j → j ≤ n → d.lookup (Join (t.take j) " ") = none) ∧
      dictLoop d a o t (some M) n = .ok (NewMatchState true (t.drop k)
        (if o.keepMatchedTokens then t.take k else [])
        (NewMemoryState (some (fun j => if j = a then some ((M a).getD [] ++ vals) else M j))))) := by
  induction n with
  | zero =>
    left
    exact ⟨fun j h1 h2 => by omega, rfl⟩
  | succ i ih =>
    cases hl : d.lookup (Join (t.take (i + 1)) " ") with
    | some vals =>
      right
      refine ⟨i + 1, vals, by omega, le_refl _, hl, fun j h1 h2 => by omega, ?_⟩
      simp only [dictLoop, hl, appendValues_some]
    | none =>
      have hstep : dictLoop d a o t (some M) (i + 1) = dictLoop d a o t (some M) i := by
        simp only [dictLoop, hl]
      rcases ih with ⟨hnone, hres⟩ | ⟨k, vals, hk1, hk2, hkey, hmax, hres⟩
      · left
        refine ⟨fun j h1 h2 => ?_, by rw [hstep, hres]⟩
        by_cases hj : j = i + 1
        · rw [hj]; exact hl
        · exact hnone j h1 (by omega)
      · right
        refine ⟨k, vals, hk1, by omega, hkey, fun j h1 h2 => ?_, by rw [hstep, hres]⟩
        by_cases hj : j = i + 1
        · rw [hj]; exact hl
        · exact hmax j h1 (by omega)

/-- The search window of `dictMatcher.Match` may be bounded by the longest key: no longer
prefix of the tokens is a key. -/
theorem dictLoop_bounded (d : Dict) (a : AttributeID) (o : options) (t : List String)
    (mem : Option AttrValues) :
    dictLoop d a o t mem (min (maxKeyLengthOf (d.map Prod.fst)) t.length)
      = dictLoop d a o t mem t.length := by
  have hle : min (maxKeyLengthOf (d.map Prod.fst)) t.length ≤ t.length := Nat.min_le_right _ _
  obtain ⟨extra, hex⟩ := Nat.exists_eq_add_of_le hle
  have hskip := dictLoop_skip d a o t mem (min (maxKeyLengthOf (d.map Prod.fst)) t.length) extra
  rw [← hex] at hskip
  symm
  apply hskip
  intro j h1 h2
  cases hl : d.lookup (Join (t.take j) " ") with
  | none => rfl
  | some vals =>
    exfalso
    have hw := window_le_maxKeyLength d (t.take j) vals hl
    rw [List.length_take, Nat.min_eq_left h2] at hw
    have : j ≤ min (maxKeyLengthOf (d.map Prod.fst)) t.length := Nat.le_min.mpr ⟨hw, h2⟩
    omega

/-- Evaluation of `dictMatcher.Match` built by `NewDictMatcher`, whatever its options: the
loop runs from the number of remaining tokens. -/
theorem Match_NewDictMatcher (d : Dict) (a : AttributeID) (opts : List MatcherOption)
    (fuel : Nat) (flags : OnceFlags) (state : matchState) :
    Match (NewDictMatcher d a opts) fuel flags state =
      if state.remainingTokens.length = 0 then
        .ok (flags, NewMatchState false state.remainingTokens [] none)
      else
        match GetStorage state.memory with
        | .error e => .error e
        | .ok memory =>
          match dictLoop d a (applyOptions opts) state.remainingTokens memory
              state.remainingTokens.length with
          | .error e => .error e
          | .ok res => .ok (flags, res) := by
  unfold NewDictMatcher
  by_cases ht : state.remainingTokens.length = 0
  · by_cases hc : (applyOptions opts).calculateNeedleLength = true <;>
      simp [hc, Match, dictMatch, ht]
  · cases hg : GetStorage state.memory with
    | error e =>
      by_cases hc : (applyOptions opts).calculateNeedleLength = true <;>
        simp [hc, Match, dictMatch, ht, hg]
    | ok memory =>
      by_cases hc : (applyOptions opts).calculateNeedleLength = true <;>
        simp [hc, Match, dictMatch, ht, hg, dictLoop_bounded]

/-! ## The any-order dictionary matcher -/

/-- What the inner loop of `anyOrderDictMatcher.Match` returns on a map that is not `nil`,
run over the offsets `off, ..., off + n - 1` at window length `L`: nothing when no window
is a key, and otherwise the state built from the leftmost window that is one. -/
theorem anyOrderOffsets_spec (d : Dict) (a : AttributeID) (o : options) (t : List String)
    (M : AttrValues) (L n off : Nat) :
    ((∀ p, off ≤ p → p < off + n → d.lookup (Join ((t.drop p).take L) " ") = none) ∧
      anyOrderOffsets d a o t (some M) L n off = none) ∨
    (∃ p vals, off ≤ p ∧ p < off + n ∧ d.lookup (Join ((t.drop p).take L) " ") = some vals ∧
      (∀ q, off ≤ q → q < p → d.lookup (Join ((t.drop q).take L) " ") = none) ∧
      anyOrderOffsets d a o t (some M) L n off = some (.ok (NewMatchState true
        (calculateRemainingTokens t p L)
        (if o.keepMatchedTokens then (t.drop p).take L else [])
        (NewMemoryState (some (fun j => if j = a then some ((M a).getD [] ++ vals) else M j)))))) := by
  induction n generalizing off with
  | zero =>
    left
    exact ⟨fun p h1 h2 => by omega, rfl⟩
  | succ i ih =>
    cases hl : d.lookup (Join ((t.drop off).take L) " ") with
    | some vals =>
      right
      refine ⟨off, vals, le_refl _, by omega, hl, fun q h1 h2 => by omega, ?_⟩
      simp only [anyOrderOffsets, hl, appendValues_some]
    | none =>
      have hstep : anyOrderOffsets d a o t (some M) L (i + 1) off
          = anyOrderOffsets d a o t (some M) L i (off + 1) := by
        simp only [anyOrderOffsets, hl]
      rcases ih (off + 1) with ⟨hnone, hres⟩ | ⟨p, vals, hp1, hp2, hkey, hmin, hres⟩
      · left
        refine ⟨fun p h1 h2 => ?_, by rw [hstep, hres]⟩
        by_cases hp : p = off
        · rw [hp]; exact hl
        · exact hnone p (by omega) (by omega)
      · right
        refine ⟨p, vals, by omega, by omega, hkey, fun q h1 h2 => ?_, by rw [hstep, hres]⟩
        by_cases hq : q = off
        · rw [hq]; exact hl
        · exact hmin q (by omega) h2

/-- What the loops of `anyOrderDictMatcher.Match` return on a map that is not `nil`, entered
at window length `n`: failure when no window of length `1..n` is a key, and otherwise the
state built from the longest, then leftmost, window that is one. -/
theorem anyOrderLoop_spec (d : Dict) (a : AttributeID) (o : options) (t : List String)
    (M : AttrValues) (n : Nat) (hn : n ≤ t.length) :
    ((∀ L p, 1 ≤ L → L ≤ n → p + L ≤ t.length →
        d.lookup (Join ((t.drop p).take L) " ") = none) ∧
      anyOrderLoop d a o t (some M) n = .ok (NewMatchState false t [] none)) ∨
    (∃ L p vals, 1 ≤ L ∧ L ≤ n ∧ p + L ≤ t.length ∧
      d.lookup (Join ((t.drop p).take L) " ") = some vals ∧
      (∀ L' q, L < L' → L' ≤ n → q + L' ≤ t.length →
        d.lookup (Join ((t.drop q).take L') " ") = none) ∧
      (∀ q, q < p → d.lookup (Join ((t.drop q).take L) " ") = none) ∧
      anyOrderLoop d a o t (some M) n = .ok (NewMatchState true
        (calculateRemainingTokens t p L)
        (if o.keepMatchedTokens then (t.drop p).take L else [])
        (NewMemoryState (some (fun j => if j = a then some ((M a).getD [] ++ vals) else M j))))) := by
  induction n with
  | zero =>
    left
    exact ⟨fun L p h1 h2 => by omega, rfl⟩
  | succ i ih =>
    rcases anyOrderOffsets_spec d a o t M (i + 1) (t.length + 1 - (i + 1)) 0 with
      ⟨hnone, hres⟩ | ⟨p, vals, _, hp2, hkey, hmin, hres⟩
    · have hstep : anyOrderLoop d a o t (some M) (i + 1) = anyOrderLoop d a o t (some M) i := by
        simp only [anyOrderLoop, hres]
      rcases ih (by omega) with ⟨hnone2, hres2⟩ | ⟨L, p, vals, hL1, hL2, hp, hkey, hmax, hmin, hres2⟩
      · left
        refine ⟨fun L p h1 h2 h3 => ?_, by rw [hstep, hres2]⟩
        by_cases hL : L = i + 1
        · rw [hL]; exact hnone p (Nat.zero_le _) (by omega)
        · exact hnone2 L p h1 (by omega) h3
      · right
        refine ⟨L, p, vals, hL1, by omega, hp, hkey, fun L' q h1 h2 h3 => ?_, hmin,
          by rw [hstep, hres2]⟩
        by_cases hL : L' = i + 1
        · rw [hL]; exact hnone q (Nat.zero_le _) (by omega)
        · exact hmax L' q h1 (by omega) h3
    · right
      refine ⟨i + 1, p, vals, by omega, le_refl _, by omega, hkey,
        fun L' q h1 h2 h3 => by omega, fun q hq => hmin q (Nat.zero_le _) hq, ?_⟩
      simp only [anyOrderLoop, hres]

/-- The length of a window that lies inside the tokens. -/
theorem window_length (t : List String) (p L : Nat) (h : p + L ≤ t.length) :
    ((t.drop p).take L).length = L := by
  rw [List.length_take, List.length_drop]
  omega

/-- The function `calculateRemainingTokens` cuts the window out of the tokens. -/
theorem calculateRemainingTokens_eq (t : List String) (p L : Nat) (h : p + L ≤ t.length) :
    calculateRemainingTokens t p L = t.take p ++ t.drop (p + L) := by
  unfold calculateRemainingTokens
  by_cases hL : L = t.length
  · have hp : p = 0 := by omega
    subst hp
    simp [hL]
  · simp only [hL, if_false]
    by_cases hp : p > 0
    · by_cases hr : p + L < t.length
      · simp [hp, hr]
      · have : t.length ≤ p + L := by omega
        simp [hp, hr, List.drop_eq_nil_of_le this]
    · have hp0 : p = 0 := by omega
      subst hp0
      by_cases hr : 0 + L < t.length
      · simp [hr]
      · omega

/-- Evaluation of `dictMatcher.Match` on a state whose memory is present and whose tokens
are not exhausted. -/
theorem Match_dictMatcher_present (d : Dict) (a : AttributeID) (o : options) (mk : Nat)
    (fuel : Nat) (flags : OnceFlags) (state : matchState) (M : AttrValues)
    (hmem : state.memory = some ⟨some M⟩) (htok : state.remainingTokens ≠ []) :
    Match (.dictMatcher d a o mk) fuel flags state =
      match dictLoop d a o state.remainingTokens (some M)
          (if o.calculateNeedleLength then min mk state.remainingTokens.length
            else state.remainingTokens.length) with
      | .error e => .error e
      | .ok res => .ok (flags, res) := by
  have ht : state.remainingTokens.length ≠ 0 := by
    intro h; exact htok (List.length_eq_zero.mp h)
  simp [Match, dictMatch, ht, hmem, GetStorage]

/-- Evaluation of `anyOrderDictMatcher.Match` on a state whose memory is present and whose
tokens are not exhausted. -/
theorem Match_anyOrderDictMatcher_present (d : Dict) (a : AttributeID) (mk : Nat)
    (o : options) (fuel : Nat) (flags : OnceFlags) (state : matchState) (M : AttrValues)
    (hmem : state.memory = some ⟨some M⟩) (htok : state.remainingTokens ≠ []) :
    Match (.anyOrderDictMatcher d a mk o) fuel flags state =
      match anyOrderLoop d a o state.remainingTokens (some M)
          (min state.remainingTokens.length mk) with
      | .error e => .error e
      | .ok res => .ok (flags, res) := by
  have ht : state.remainingTokens.length ≠ 0 := by
    intro h; exact htok (List.length_eq_zero.mp h)
  simp [Match, anyOrderDictMatch, ht, hmem, GetStorage]

/-- C1: on a state with present memory and remaining tokens `t ≠ []`, the matcher built by
`NewDictMatcher d a` (with any options) returns a state; it matches iff for some `k` in
`1..len t` the first `k` tokens joined by single spaces are a key of `d`; and when it
matches, it does so at the largest such `k`: no longer prefix is a key, the remaining
tokens are `t[k:]`, and the memory is the input memory with the values of that longest key
appended at attribute `a`. -/
theorem dictMatcher_matches_longest_prefix (d : Dict) (a : AttributeID)
    (opts : List MatcherOption) (fuel : Nat) (flags : OnceFlags) (state : matchState)
    (M : AttrValues) (hmem : state.memory = some ⟨some M⟩)
    (htok : state.remainingTokens ≠ []) :
    ∃ res, Match (NewDictMatcher d a opts) fuel flags state = .ok (flags, res) ∧
      (res.hasMatch = true ↔
        ∃ k, 1 ≤ k ∧ k ≤ state.remainingTokens.length ∧
          ∃ vals, d.lookup (Join (state.remainingTokens.take k) " ") = some vals) ∧
      (res.hasMatch = true →
        ∃ k vals, 1 ≤ k ∧ k ≤ state.remainingTokens.length ∧
          d.lookup (Join (state.remainingTokens.take k) " ") = some vals ∧
          (∀ j, k < j → j ≤ state.remainingTokens.length →
            d.lookup (Join (state.remainingTokens.take j) " ") = none) ∧
          res.remainingTokens = state.remainingTokens.drop k ∧
          res.memory = some ⟨some (fun j =>
            if j = a then some ((M a).getD [] ++ vals) else M j)⟩) := by
  have ht : state.remainingTokens.length ≠ 0 := by
    intro h; exact htok (List.length_eq_zero.mp h)
  rw [Match_NewDictMatcher]
  simp only [ht, if_false, hmem, GetStorage]
  rcases dictLoop_spec d a (applyOptions opts) state.remainingTokens M
      state.remainingTokens.length with ⟨hnone, hres⟩ | ⟨k, vals, hk1, hk2, hkey, hmax, hres⟩
  · refine ⟨_, by rw [hres], ?_, ?_⟩
    · constructor
      · intro h; simp [NewMatchState] at h
      · rintro ⟨k, hk1, hk2, vals, hkey⟩
        rw [hnone k hk1 hk2] at hkey
        cases hkey
    · intro h; simp [NewMatchState] at h
  · refine ⟨_, by rw [hres], ?_, ?_⟩
    · constructor
      · intro _; exact ⟨k, hk1, hk2, vals, hkey⟩
      · intro _; rfl
    · intro _
      exact ⟨k, vals, hk1, hk2, hkey, hmax, rfl, rfl⟩

/-- C1 at the dictionary with keys "word" and "another word" on the tokens
another, word, x: both leading tokens are consumed and the values of the longer key are
stored. -/
theorem dictMatcher_matches_longest_prefix_witness :
    (NewInitialState ["another", "word", "x"]).memory = some ⟨some (fun _ => none)⟩ ∧
    (NewInitialState ["another", "word", "x"]).remainingTokens ≠ [] ∧
    (∃ res, Match (NewDictMatcher [("word", [1]), ("another word", [2])] 7 []) 0
        (fun _ => false) (NewInitialState ["another", "word", "x"])
          = .ok (fun _ => false, res) ∧
      (res.hasMatch = true ↔
        ∃ k, 1 ≤ k ∧ k ≤ (NewInitialState ["another", "word", "x"]).remainingTokens.length ∧
          ∃ vals, List.lookup
            (Join ((NewInitialState ["another", "word", "x"]).remainingTokens.take k) " ")
            [("word", [1]), ("another word", [2])] = some vals) ∧
      (res.hasMatch = true →
        ∃ k vals, 1 ≤ k ∧
          k ≤ (NewInitialState ["another", "word", "x"]).remainingTokens.length ∧
          List.lookup
            (Join ((NewInitialState ["another", "word", "x"]).remainingTokens.take k) " ")
            [("word", [1]), ("another word", [2])] = some vals ∧
          (∀ j, k < j → j ≤ (NewInitialState ["another", "word", "x"]).remainingTokens.length →
            List.lookup
              (Join ((NewInitialState ["another", "word", "x"]).remainingTokens.take j) " ")
              [("word", [1]), ("another word", [2])] = none) ∧
          res.remainingTokens = (NewInitialState ["another", "word", "x"]).remainingTokens.drop k ∧
          res.memory = some ⟨some (fun j =>
            if j = 7 then some (((fun _ => none : AttrValues) 7).getD [] ++ vals)
            else (fun _ => none : AttrValues) j)⟩)) ∧
    observe [7] (Match (NewDictMatcher [("word", [1]), ("another word", [2])] 7 []) 0
        (fun _ => false) (NewInitialState ["another", "word", "x"]))
      = some (true, ["x"], [], some [some [2]]) :=
  ⟨rfl, by decide,
    dictMatcher_matches_longest_prefix [("word", [1]), ("another word", [2])] 7 [] 0
      (fun _ => false) (NewInitialState ["another", "word", "x"]) (fun _ => none) rfl
      (by decide),
    rfl⟩

/-- On value lists, that is for a memory in which no two lists share a backing array: when
`dictMatcher.Match` or `anyOrderDictMatcher.Match` for attribute `a` matches on a state
whose memory holds the map `M`, the window it consumed is a key `p` of `d`, and the returned
memory holds a map `M'` with `M' a = M a ++ d[p]` (just `d[p]` when `a` is absent from `M`)
and `M' b = M b` for every other attribute `b`.  With lists that share a backing array the
last part fails, as the section on appending to such a list shows. -/
theorem dict_matchers_append_values (d : Dict) (a : AttributeID) (o : options) (mk : Nat)
    (fuel : Nat) (flags : OnceFlags) (state : matchState) (M : AttrValues)
    (hmem : state.memory = some ⟨some M⟩) :
    (∃ res, Match (.dictMatcher d a o mk) fuel flags state = .ok (flags, res) ∧
      (res.hasMatch = true →
        ∃ k vals M', d.lookup (Join (state.remainingTokens.take k) " ") = some vals ∧
          res.remainingTokens = state.remainingTokens.drop k ∧
          res.memory = some ⟨some M'⟩ ∧
          M' a = some ((M a).getD [] ++ vals) ∧
          (M a = none → M' a = some vals) ∧
          ∀ b, b ≠ a → M' b = M b)) ∧
    (∃ res, Match (.anyOrderDictMatcher d a mk o) fuel flags state = .ok (flags, res) ∧
      (res.hasMatch = true →
        ∃ p L vals M',
          d.lookup (Join ((state.remainingTokens.drop p).take L) " ") = some vals ∧
          res.remainingTokens = calculateRemainingTokens state.remainingTokens p L ∧
          res.memory = some ⟨some M'⟩ ∧
          M' a = some ((M a).getD [] ++ vals) ∧
          (M a = none → M' a = some vals) ∧
          ∀ b, b ≠ a → M' b = M b)) := by
  by_cases htok : state.remainingTokens = []
  · constructor
    · refine ⟨NewMatchState false state.remainingTokens [] none, ?_, ?_⟩
      · simp [Match, dictMatch, htok]
      · intro h; simp [NewMatchState] at h
    · refine ⟨NewMatchState false state.remainingTokens [] none, ?_, ?_⟩
      · simp [Match, anyOrderDictMatch, htok]
      · intro h; simp [NewMatchState] at h
  · constructor
    · rw [Match_dictMatcher_present d a o mk fuel flags state M hmem htok]
      rcases dictLoop_spec d a o state.remainingTokens M
          (if o.calculateNeedleLength then min mk state.remainingTokens.length
            else state.remainingTokens.length) with
        ⟨_, hres⟩ | ⟨k, vals, _, _, hkey, _, hres⟩
      · refine ⟨_, by rw [hres], ?_⟩
        intro h; simp [NewMatchState] at h
      · refine ⟨_, by rw [hres], ?_⟩
        intro _
        refine ⟨k, vals, _, hkey, rfl, rfl, by simp, ?_, ?_⟩
        · intro hnone; simp [hnone]
        · intro b hb; simp [hb]
    · rw [Match_anyOrderDictMatcher_present d a mk o fuel flags state M hmem htok]
      rcases anyOrderLoop_spec d a o state.remainingTokens M
          (min state.remainingTokens.length mk) (Nat.min_le_left _ _) with
        ⟨_, hres⟩ | ⟨L, p, vals, _, _, _, hkey, _, _, hres⟩
      · refine ⟨_, by rw [hres], ?_⟩
        intro h; simp [NewMatchState] at h
      · refine ⟨_, by rw [hres], ?_⟩
        intro _
        refine ⟨p, L, vals, _, hkey, rfl, rfl, by simp, ?_, ?_⟩
        · intro hnone; simp [hnone]
        · intro b hb; simp [hb]

/-- The appended values at the state of the test "Should save already matched attributes
when matched", whose lists share no storage: memory 100 -> 1000 and 200 -> 2000, 2001,
tokens снять, 1к, квартиру; the any-order matcher for attribute 1 adds 1 -> 1 and keeps
both earlier attributes. -/
theorem dict_matchers_append_values_witness :
    (NewMatchState true ["снять", "1к", "квартиру"] []
        (NewMemoryState (some (fun k =>
          if k = 100 then some [1000] else if k = 200 then some [2000, 2001] else none)))).memory
      = some ⟨some (fun k =>
          if k = 100 then some [1000] else if k = 200 then some [2000, 2001] else none)⟩ ∧
    observe [1, 100, 200, 3]
      (Match (.anyOrderDictMatcher [("1к", [1]), ("2к", [2])] 1 1 {}) 0 (fun _ => false)
        (NewMatchState true ["снять", "1к", "квартиру"] []
          (NewMemoryState (some (fun k =>
            if k = 100 then some [1000] else if k = 200 then some [2000, 2001] else none)))))
      = some (true, ["снять", "квартиру"], [],
          some [some [1], some [1000], some [2000, 2001], none]) ∧
    observe [1, 100, 200, 3]
      (Match (.dictMatcher [("снять", [7])] 100 {} 0) 0 (fun _ => false)
        (NewMatchState true ["снять", "1к", "квартиру"] []
          (NewMemoryState (some (fun k =>
            if k = 100 then some [1000] else if k = 200 then some [2000, 2001] else none)))))
      = some (true, ["1к", "квартиру"], [],
          some [none, some [1000, 7], some [2000, 2001], none]) ∧
    (∃ res, Match (.anyOrderDictMatcher [("1к", [1]), ("2к", [2])] 1 1 {}) 0 (fun _ => false)
        (NewMatchState true ["снять", "1к", "квартиру"] []
          (NewMemoryState (some (fun k =>
            if k = 100 then some [1000] else if k = 200 then some [2000, 2001] else none))))
        = .ok (fun _ => false, res) ∧
      (res.hasMatch = true →
        ∃ p L vals M',
          List.lookup (Join ((["снять", "1к", "квартиру"].drop p).take L) " ")
            [("1к", [1]), ("2к", [2])] = some vals ∧
          res.remainingTokens = calculateRemainingTokens ["снять", "1к", "квартиру"] p L ∧
          res.memory = some ⟨some M'⟩ ∧
          M' 1 = some ((none : Option (List ValueID)).getD [] ++ vals) ∧
          ((none : Option (List ValueID)) = none → M' 1 = some vals) ∧
          ∀ b, b ≠ 1 → M' b =
            if b = 100 then some [1000] else if b = 200 then some [2000, 2001] else none)) :=
  ⟨rfl, rfl, rfl,
    (dict_matchers_append_values [("1к", [1]), ("2к", [2])] 1 {} 1 0 (fun _ => false)
      (NewMatchState true ["снять", "1к", "квартиру"] []
        (NewMemoryState (some (fun k =>
          if k = 100 then some [1000] else if k = 200 then some [2000, 2001] else none))))
      (fun k => if k = 100 then some [1000] else if k = 200 then some [2000, 2001] else none)
      rfl).2⟩

/-- The options after `CalculateNeedleLength` is applied last keep `keepMatchedTokens`. -/
theorem applyOptions_append_calculate (opts : List MatcherOption) :
    (applyOptions (opts ++ [CalculateNeedleLength])).keepMatchedTokens
      = (applyOptions opts).keepMatchedTokens := by
  simp [applyOptions, List.foldl_append, CalculateNeedleLength]

/-- C3: the matcher built by `NewDictMatcher` with `CalculateNeedleLength` added to its
options returns, on every state and in particular on every state with present memory, the
same result (flag, remaining tokens, matched tokens, memory) as the matcher built from the
same dictionary and attribute without it. -/
theorem dictMatcher_needle_bound_same_result (d : Dict) (a : AttributeID)
    (opts : List MatcherOption) (fuel : Nat) (flags : OnceFlags) (state : matchState) :
    Match (NewDictMatcher d a (opts ++ [CalculateNeedleLength])) fuel flags state
      = Match (NewDictMatcher d a opts) fuel flags state := by
  rw [Match_NewDictMatcher, Match_NewDictMatcher]
  split
  · rfl
  · cases GetStorage state.memory with
    | error e => rfl
    | ok memory =>
      simp only
      rw [dictLoop_options d a (applyOptions (opts ++ [CalculateNeedleLength]))
        (applyOptions opts) state.remainingTokens memory (applyOptions_append_calculate opts)]

/-- C4: on a state with present memory and remaining tokens `t ≠ []`, the matcher built by
`NewAnyOrderDictMatcher d a` returns a state; it matches iff some non-empty contiguous
window of `t` (offset `p`, length `L`), joined by single spaces, is a key of `d`; and when
it matches, the state is the one built from a window `(p, L)` that is a key such that every
window that is a key has length at most `L` and, when of length `L`, offset at least
`p`. -/
theorem anyOrderDictMatcher_longest_then_leftmost (d : Dict) (a : AttributeID)
    (opts : List MatcherOption) (fuel : Nat) (flags : OnceFlags) (state : matchState)
    (M : AttrValues) (hmem : state.memory = some ⟨some M⟩)
    (htok : state.remainingTokens ≠ []) :
    ∃ res, Match (NewAnyOrderDictMatcher d a opts) fuel flags state = .ok (flags, res) ∧
      (res.hasMatch = true ↔
        ∃ p L, 1 ≤ L ∧ p + L ≤ state.remainingTokens.length ∧
          ∃ vals, d.lookup (Join ((state.remainingTokens.drop p).take L) " ") = some vals) ∧
      (res.hasMatch = true →
        ∃ p L vals, 1 ≤ L ∧ p + L ≤ state.remainingTokens.length ∧
          d.lookup (Join ((state.remainingTokens.drop p).take L) " ") = some vals ∧
          (∀ q L', 1 ≤ L' → q + L' ≤ state.remainingTokens.length →
            (∃ v, d.lookup (Join ((state.remainingTokens.drop q).take L') " ") = some v) →
            L' ≤ L ∧ (L' = L → p ≤ q)) ∧
          res.remainingTokens = calculateRemainingTokens state.remainingTokens p L ∧
          res.matchedTokens = (if (applyOptions opts).keepMatchedTokens
            then (state.remainingTokens.drop p).take L else []) ∧
          res.memory = some ⟨some (fun j =>
            if j = a then some ((M a).getD [] ++ vals) else M j)⟩) := by
  unfold NewAnyOrderDictMatcher
  rw [Match_anyOrderDictMatcher_present d a _ _ fuel flags state M hmem htok]
  have hlong : ∀ q L', q + L' ≤ state.remainingTokens.length →
      (∃ v, d.lookup (Join ((state.remainingTokens.drop q).take L') " ") = some v) →
      L' ≤ min state.remainingTokens.length (maxKeyLengthOf (d.map Prod.fst)) := by
    rintro q L' hq ⟨v, hv⟩
    have hw := window_le_maxKeyLength d _ v hv
    rw [window_length _ q L' hq] at hw
    exact Nat.le_min.mpr ⟨by omega, hw⟩
  rcases anyOrderLoop_spec d a (applyOptions opts) state.remainingTokens M
      (min state.remainingTokens.length (maxKeyLengthOf (d.map Prod.fst)))
      (Nat.min_le_left _ _) with
    ⟨hnone, hres⟩ | ⟨L, p, vals, hL1, hL2, hp, hkey, hmax, hmin, hres⟩
  · refine ⟨_, by rw [hres], ?_, ?_⟩
    · constructor
      · intro h; simp [NewMatchState] at h
      · rintro ⟨p, L, hL1, hp, vals, hkey⟩
        rw [hnone L p hL1 (hlong p L hp ⟨vals, hkey⟩) hp] at hkey
        cases hkey
    · intro h; simp [NewMatchState] at h
  · refine ⟨_, by rw [hres], ?_, ?_⟩
    · constructor
      · intro _; exact ⟨p, L, hL1, hp, vals, hkey⟩
      · intro _; rfl
    · intro _
      refine ⟨p, L, vals, hL1, hp, hkey, ?_, rfl, rfl, rfl⟩
      rintro q L' hL'1 hq ⟨v, hv⟩
      have hle : L' ≤ L := by
        by_contra hcon
        rw [hmax L' q (by omega) (hlong q L' hq ⟨v, hv⟩) hq] at hv
        cases hv
      refine ⟨hle, ?_⟩
      intro heq
      subst heq
      by_contra hcon
      rw [hmin q (by omega)] at hv
      cases hv

/-- C4 at the dictionary and tokens of the test "Should firstly match long token keys": the
four-word key in the middle wins over the one-word key at the end. -/
theorem anyOrderDictMatcher_longest_then_leftmost_witness :
    (NewInitialState ["снять", "2", "или", "3", "комнатная", "у", "моря", "2к"]).memory
      = some ⟨some (fun _ => none)⟩ ∧
    (NewInitialState ["снять", "2", "или", "3", "комнатная", "у", "моря", "2к"]).remainingTokens
      ≠ [] ∧
    observe [1]
      (Match (NewAnyOrderDictMatcher
          [("1к", [1]), ("однокомнатная", [1]), ("2к", [2]), ("двухкомнатная", [2]),
            ("3 комнатная", [3]), ("2 или 3 комнатная", [2, 3])] 1 [KeepMatchedTokens])
        0 (fun _ => false)
        (NewInitialState ["снять", "2", "или", "3", "комнатная", "у", "моря", "2к"]))
      = some (true, ["снять", "у", "моря", "2к"], ["2", "или", "3", "комнатная"],
          some [some [2, 3]]) ∧
    (∃ res, Match (NewAnyOrderDictMatcher
          [("1к", [1]), ("однокомнатная", [1]), ("2к", [2]), ("двухкомнатная", [2]),
            ("3 комнатная", [3]), ("2 или 3 комнатная", [2, 3])] 1 [KeepMatchedTokens])
        0 (fun _ => false)
        (NewInitialState ["снять", "2", "или", "3", "комнатная", "у", "моря", "2к"])
        = .ok (fun _ => false, res) ∧ res.hasMatch = true) :=
  ⟨rfl, by decide, rfl,
    (anyOrderDictMatcher_longest_then_leftmost
      [("1к", [1]), ("однокомнатная", [1]), ("2к", [2]), ("двухкомнатная", [2]),
        ("3 комнатная", [3]), ("2 или 3 комнатная", [2, 3])] 1 [KeepMatchedTokens]
      0 (fun _ => false)
      (NewInitialState ["снять", "2", "или", "3", "комнатная", "у", "моря", "2к"])
      (fun _ => none) rfl (by decide)).elim
      (fun res h => ⟨res, h.1, h.2.1.mpr ⟨1, 4, by decide, by decide, [2, 3], rfl⟩⟩)⟩

/-- C5: when `anyOrderDictMatcher.Match` matches on a state with present memory and
remaining tokens `t`, the state is the one built from a window of `t` at offset `p` of
length `L` that is a key (the longest within the search bound, then leftmost), and its
remaining tokens are `t[0..p)` followed by `t[p+L..)`: there are `len t - L` of them, and
none when the window is all of `t`. -/
theorem anyOrderDictMatcher_remaining_tokens (d : Dict) (a : AttributeID) (mk : Nat)
    (o : options) (fuel : Nat) (flags : OnceFlags) (state : matchState) (M : AttrValues)
    (hmem : state.memory = some ⟨some M⟩) :
    ∃ res, Match (.anyOrderDictMatcher d a mk o) fuel flags state = .ok (flags, res) ∧
      (res.hasMatch = true →
        ∃ p L vals, 1 ≤ L ∧ p + L ≤ state.remainingTokens.length ∧
          d.lookup (Join ((state.remainingTokens.drop p).take L) " ") = some vals ∧
          (∀ L' q, L < L' → L' ≤ min state.remainingTokens.length mk →
            q + L' ≤ state.remainingTokens.length →
            d.lookup (Join ((state.remainingTokens.drop q).take L') " ") = none) ∧
          (∀ q, q < p → d.lookup (Join ((state.remainingTokens.drop q).take L) " ") = none) ∧
          res.matchedTokens =
            (if o.keepMatchedTokens then (state.remainingTokens.drop p).take L else []) ∧
          res.memory = some ⟨some (fun j =>
            if j = a then some ((M a).getD [] ++ vals) else M j)⟩ ∧
          res.remainingTokens
            = state.remainingTokens.take p ++ state.remainingTokens.drop (p + L) ∧
          res.remainingTokens.length = state.remainingTokens.length - L ∧
          (L = state.remainingTokens.length → res.remainingTokens = [])) := by
  by_cases htok : state.remainingTokens = []
  · refine ⟨NewMatchState false state.remainingTokens [] none, ?_, ?_⟩
    · simp [Match, anyOrderDictMatch, htok]
    · intro h; simp [NewMatchState] at h
  · rw [Match_anyOrderDictMatcher_present d a mk o fuel flags state M hmem htok]
    rcases anyOrderLoop_spec d a o state.remainingTokens M
        (min state.remainingTokens.length mk) (Nat.min_le_left _ _) with
      ⟨_, hres⟩ | ⟨L, p, vals, hL1, hL2, hp, hkey, hmax, hmin, hres⟩
    · refine ⟨_, by rw [hres], ?_⟩
      intro h; simp [NewMatchState] at h
    · refine ⟨_, by rw [hres], ?_⟩
      intro _
      have hrem := calculateRemainingTokens_eq state.remainingTokens p L hp
      refine ⟨p, L, vals, hL1, hp, hkey, hmax, hmin, rfl, rfl, hrem, ?_, ?_⟩
      · show (calculateRemainingTokens state.remainingTokens p L).length = _
        rw [hrem, List.length_append, List.length_take, List.length_drop]
        omega
      · intro hL
        show calculateRemainingTokens state.remainingTokens p L = []
        simp [calculateRemainingTokens, hL]

/-- C5 at the tokens снять, 2, или, 3, комнатная, у, моря with the key
"2 или 3 комнатная": the remaining tokens are снять, у, моря. -/
theorem anyOrderDictMatcher_remaining_tokens_witness :
    (NewInitialState ["снять", "2", "или", "3", "комнатная", "у", "моря"]).memory
      = some ⟨some (fun _ => none)⟩ ∧
    observe [1]
      (Match (.anyOrderDictMatcher [("2 или 3 комнатная", [2, 3])] 1 4 {}) 0 (fun _ => false)
        (NewInitialState ["снять", "2", "или", "3", "комнатная", "у", "моря"]))
      = some (true, ["снять", "у", "моря"], [], some [some [2, 3]]) ∧
    (∃ res, Match (.anyOrderDictMatcher [("2 или 3 комнатная", [2, 3])] 1 4 {}) 0
        (fun _ => false)
        (NewInitialState ["снять", "2", "или", "3", "комнатная", "у", "моря"])
        = .ok (fun _ => false, res) ∧
      (res.hasMatch = true →
        ∃ p L, 1 ≤ L ∧ p + L ≤ 7 ∧
          res.remainingTokens
            = ["снять", "2", "или", "3", "комнатная", "у", "моря"].take p
              ++ ["снять", "2", "или", "3", "комнатная", "у", "моря"].drop (p + L) ∧
          res.remainingTokens.length = 7 - L)) :=
  ⟨rfl, rfl,
    (anyOrderDictMatcher_remaining_tokens [("2 или 3 комнатная", [2, 3])] 1 4 {} 0
      (fun _ => false)
      (NewInitialState ["снять", "2", "или", "3", "комнатная", "у", "моря"])
      (fun _ => none) rfl).elim
      (fun res h => ⟨res, h.1, fun hm =>
        (h.2 hm).elim (fun p hp => hp.elim (fun L hL => hL.elim (fun _ hv =>
          ⟨p, L, hv.1, hv.2.1, hv.2.2.2.2.2.2.2.1, hv.2.2.2.2.2.2.2.2.1⟩)))⟩)⟩

/-! ## The sequence matcher -/

/-- The loop of `sequenceMatcher.Match` over matchers that all match ends in the last state
of the chain, with its flag, remaining tokens and memory. -/
theorem sequenceLoop_allMatch (ms : List Matcher) (fuel : Nat) (o : options)
    (tokens : List String) (flags flagsn : OnceFlags) (s sn : matchState) (acc : List String)
    (h : AllMatch fuel ms flags s flagsn sn) :
    ∃ res, sequenceLoop ms fuel o tokens flags s acc = .ok (flagsn, res) ∧
      res.hasMatch = sn.hasMatch ∧ res.remainingTokens = sn.remainingTokens ∧
      res.memory = sn.memory := by
  induction h generalizing acc with
  | nil flags s =>
    by_cases hacc : acc.length > 0
    · exact ⟨NewMatchState s.hasMatch s.remainingTokens acc s.memory,
        by simp only [sequenceLoop, hacc, if_true], rfl, rfl, rfl⟩
    · exact ⟨s, by simp only [sequenceLoop, hacc, if_false], rfl, rfl, rfl⟩
  | cons m ms flags flags1 flagsn s copy s1 sn hcopy hm hs1 _ ih =>
    by_cases hk : o.keepMatchedTokens = true
    · obtain ⟨res, hres, hprops⟩ := ih (acc ++ s1.matchedTokens)
      refine ⟨res, ?_, hprops⟩
      simp [sequenceLoop, hcopy, hm, hs1, hk, hres]
    · obtain ⟨res, hres, hprops⟩ := ih acc
      refine ⟨res, ?_, hprops⟩
      simp [sequenceLoop, hcopy, hm, hs1, hk, hres]

/-- The loop of `sequenceMatcher.Match` stops at the first matcher that fails, whatever
matchers come after it. -/
theorem sequenceLoop_fail (pre : List Matcher) (m : Matcher) (post : List Matcher)
    (fuel : Nat) (o : options) (tokens : List String) (flags flagsp flags1 : OnceFlags)
    (s sp copy sf : matchState) (acc : List String)
    (h : AllMatch fuel pre flags s flagsp sp) (hcopy : Copy sp = .ok copy)
    (hm : Match m fuel flagsp copy = .ok (flags1, sf)) (hsf : sf.hasMatch = false) :
    sequenceLoop (pre ++ m :: post) fuel o tokens flags s acc
      = .ok (flags1, NewMatchState false tokens [] none) := by
  induction h generalizing acc with
  | nil flags s => simp [sequenceLoop, hcopy, hm, hsf]
  | cons m0 ms flags flags1 flagsn s copy0 s1 sn hcopy0 hm0 hs1 _ ih =>
    by_cases hk : o.keepMatchedTokens = true
    · simp [sequenceLoop, hcopy0, hm0, hs1, hk, ih _ hcopy hm]
    · simp [sequenceLoop, hcopy0, hm0, hs1, hk, ih _ hcopy hm]

/-- When the loop of `sequenceMatcher.Match` returns a matched state from a non-empty list,
every matcher of the list matched in turn. -/
theorem sequenceLoop_matched (ms : List Matcher) (hne : ms ≠ []) (fuel : Nat) (o : options)
    (tokens : List String) (flags flagsn : OnceFlags) (s res : matchState) (acc : List String)
    (h : sequenceLoop ms fuel o tokens flags s acc = .ok (flagsn, res))
    (hres : res.hasMatch = true) :
    ∃ sn, AllMatch fuel ms flags s flagsn sn := by
  induction ms generalizing flags s acc with
  | nil => exact absurd rfl hne
  | cons m ms ih =>
    cases hcopy : Copy s with
    | error e => simp [sequenceLoop, hcopy] at h
    | ok copy =>
      cases hm : Match m fuel flags copy with
      | error e => simp [sequenceLoop, hcopy, hm] at h
      | ok p =>
        obtain ⟨flags1, s1⟩ := p
        simp only [sequenceLoop, hcopy, hm] at h
        by_cases hs1 : s1.hasMatch = true
        · cases ms with
          | nil =>
            refine ⟨s1, AllMatch.cons m [] flags flags1 flagsn s copy s1 s1 hcopy hm hs1 ?_⟩
            by_cases hk : o.keepMatchedTokens = true
            · by_cases hacc : (acc ++ s1.matchedTokens).length > 0
              · simp only [hs1, hk, sequenceLoop, hacc] at h
                simp at h
                rw [h.1]; exact AllMatch.nil _ _
              · simp only [hs1, hk, sequenceLoop, hacc] at h
                simp at h
                rw [h.1]; exact AllMatch.nil _ _
            · by_cases hacc : acc.length > 0
              · simp only [hs1, hk, sequenceLoop, hacc] at h
                simp at h
                rw [h.1]; exact AllMatch.nil _ _
              · simp only [hs1, hk, sequenceLoop, hacc] at h
                simp at h
                rw [h.1]; exact AllMatch.nil _ _
          | cons m2 ms2 =>
            by_cases hk : o.keepMatchedTokens = true
            · simp only [hs1, hk] at h
              simp at h
              obtain ⟨sn, hsn⟩ := ih (by simp) flags1 s1 _ h
              exact ⟨sn, AllMatch.cons m _ flags flags1 flagsn s copy s1 sn hcopy hm hs1 hsn⟩
            · simp only [hs1, hk] at h
              simp at h
              obtain ⟨sn, hsn⟩ := ih (by simp) flags1 s1 _ h
              exact ⟨sn, AllMatch.cons m _ flags flags1 flagsn s copy s1 sn hcopy hm hs1 hsn⟩
        · simp [hs1] at h
          rw [← h.2] at hres
          simp [NewMatchState] at hres

/-- A chain of matches over a non-empty list ends in a matched state. -/
theorem AllMatch_last_hasMatch (fuel : Nat) (ms : List Matcher) (flags flagsn : OnceFlags)
    (s sn : matchState) (h : AllMatch fuel ms flags s flagsn sn) (hne : ms ≠ []) :
    sn.hasMatch = true := by
  induction h with
  | nil flags s => exact absurd rfl hne
  | cons m ms flags flags1 flagsn s copy s1 sn hcopy hm hs1 hrest ih =>
    cases hrest with
    | nil => exact hs1
    | cons m2 ms2 _ _ _ _ _ _ _ h1 h2 h3 h4 => exact ih (by simp)

/-- C6: for a non-empty child list `ms` and a state `s0` whose remaining tokens are not
exhausted, with `s_i = m_i.Match(Copy(s_{i-1}))`:
(1) if every `s_i` has `hasMatch = true`, the sequence matches and returns the remaining
tokens and memory of the last state `s_n`;
(2) if the sequence returns a matched state, every `s_i` had `hasMatch = true` and the
remaining tokens and memory are those of `s_n`;
(3) if the children before `m` all match and `m` returns `hasMatch = false`, the sequence
returns `hasMatch = false` with the remaining tokens of `s0`, right after `m` (with the
flags `m` left) and whatever children `post'` stand after `m`: none of them is invoked. -/
theorem sequenceMatcher_all_or_nothing (ms : List Matcher) (hne : ms ≠ []) (o : options)
    (fuel : Nat) (flags : OnceFlags) (s0 : matchState) (htok : s0.remainingTokens ≠ []) :
    (∀ flagsn sn, AllMatch fuel ms flags s0 flagsn sn →
      ∃ res, Match (.sequenceMatcher ms o) fuel flags s0 = .ok (flagsn, res) ∧
        res.hasMatch = true ∧ res.remainingTokens = sn.remainingTokens ∧
        res.memory = sn.memory) ∧
    (∀ flagsn res, Match (.sequenceMatcher ms o) fuel flags s0 = .ok (flagsn, res) →
      res.hasMatch = true →
      ∃ sn, AllMatch fuel ms flags s0 flagsn sn ∧
        res.remainingTokens = sn.remainingTokens ∧ res.memory = sn.memory) ∧
    (∀ pre m post flagsp sp copy flags1 sf, ms = pre ++ m :: post →
      AllMatch fuel pre flags s0 flagsp sp → Copy sp = .ok copy →
      Match m fuel flagsp copy = .ok (flags1, sf) → sf.hasMatch = false →
      ∀ post', ∃ res, Match (.sequenceMatcher (pre ++ m :: post') o) fuel flags s0
          = .ok (flags1, res) ∧
        res.hasMatch = false ∧ res.remainingTokens = s0.remainingTokens) := by
  have ht : s0.remainingTokens.length ≠ 0 := by
    intro h; exact htok (List.length_eq_zero.mp h)
  have hunfold : ∀ l, Match (.sequenceMatcher l o) fuel flags s0
      = sequenceLoop l fuel o s0.remainingTokens flags s0 [] := by
    intro l; simp [Match, ht]
  refine ⟨?_, ?_, ?_⟩
  · intro flagsn sn h
    obtain ⟨res, hres, h1, h2, h3⟩ :=
      sequenceLoop_allMatch ms fuel o s0.remainingTokens flags flagsn s0 sn [] h
    refine ⟨res, by rw [hunfold, hres], ?_, h2, h3⟩
    rw [h1]; exact AllMatch_last_hasMatch fuel ms flags flagsn s0 sn h hne
  · intro flagsn res h hres
    rw [hunfold] at h
    obtain ⟨sn, hsn⟩ :=
      sequenceLoop_matched ms hne fuel o s0.remainingTokens flags flagsn s0 res [] h hres
    obtain ⟨res', hres', _, h2, h3⟩ :=
      sequenceLoop_allMatch ms fuel o s0.remainingTokens flags flagsn s0 sn [] hsn
    rw [h] at hres'
    have heq : res = res' := by
      injection hres' with h4
      exact (Prod.mk.inj h4).2
    subst heq
    exact ⟨sn, hsn, h2, h3⟩
  · intro pre m post flagsp sp copy flags1 sf _ hpre hcopy hm hsf post'
    refine ⟨NewMatchState false s0.remainingTokens [] none, ?_, rfl, rfl⟩
    rw [hunfold]
    exact sequenceLoop_fail pre m post' fuel o s0.remainingTokens flags flagsp flags1 s0 sp
      copy sf [] hpre hcopy hm hsf

/-- C6 on the sequence lorem, ipsum, dolor of the tests: it matches the tokens
lorem ipsum dolor, consuming all of them, and on lorem dolor negative it fails at the
second child and returns the three input tokens. -/
theorem sequenceMatcher_all_or_nothing_witness :
    [Matcher.allowedWordMatcher "lorem", .allowedWordMatcher "ipsum",
      .allowedWordMatcher "dolor"] ≠ [] ∧
    (NewInitialState ["lorem", "ipsum", "dolor"]).remainingTokens ≠ [] ∧
    observe []
      (Match (.sequenceMatcher [.allowedWordMatcher "lorem", .allowedWordMatcher "ipsum",
        .allowedWordMatcher "dolor"] {}) 0 (fun _ => false)
        (NewInitialState ["lorem", "dolor", "negative"]))
      = some (false, ["lorem", "dolor", "negative"], [], none) ∧
    (∃ res, Match (.sequenceMatcher [.allowedWordMatcher "lorem", .allowedWordMatcher "ipsum",
        .allowedWordMatcher "dolor"] {}) 0 (fun _ => false)
        (NewInitialState ["lorem", "ipsum", "dolor"]) = .ok (fun _ => false, res) ∧
      res.hasMatch = true ∧ res.remainingTokens = [] ∧
      res.memory = some ⟨some (fun _ => none)⟩) :=
  ⟨by simp, by decide, rfl,
    (sequenceMatcher_all_or_nothing
      [.allowedWordMatcher "lorem", .allowedWordMatcher "ipsum", .allowedWordMatcher "dolor"]
      (by simp) {} 0 (fun _ => false) (NewInitialState ["lorem", "ipsum", "dolor"])
      (by decide)).1 (fun _ => false)
      ⟨true, [], [], some ⟨some (fun _ => none)⟩⟩
      (AllMatch.cons _ _ _ (fun _ => false) _ _
        (NewInitialState ["lorem", "ipsum", "dolor"])
        ⟨true, ["ipsum", "dolor"], [], some ⟨some (fun _ => none)⟩⟩ _ rfl rfl rfl
        (AllMatch.cons _ _ _ (fun _ => false) _ _
          ⟨true, ["ipsum", "dolor"], [], some ⟨some (fun _ => none)⟩⟩
          ⟨true, ["dolor"], [], some ⟨some (fun _ => none)⟩⟩ _ rfl rfl rfl
          (AllMatch.cons _ _ _ (fun _ => false) _ _
            ⟨true, ["dolor"], [], some ⟨some (fun _ => none)⟩⟩
            ⟨true, [], [], some ⟨some (fun _ => none)⟩⟩ _ rfl rfl rfl
            (AllMatch.nil _ _))))⟩

/-- C7, as amended: when `A` and `B` match in turn and `C` then returns `hasMatch = false`,
`Sequence(A, B, C)` on a state `s` with remaining tokens returns `hasMatch = false`, the
remaining tokens of `s`, no matched tokens and no memory at all (`nil`), so that no value
written by `A` or `B` is visible in the returned state. -/
theorem sequenceMatcher_failure_returns_no_memory (A B C : Matcher) (o : options)
    (fuel : Nat) (flags flags2 flags3 : OnceFlags) (s s2 copy sf : matchState)
    (htok : s.remainingTokens ≠ [])
    (hAB : AllMatch fuel [A, B] flags s flags2 s2) (hcopy : Copy s2 = .ok copy)
    (hC : Match C fuel flags2 copy = .ok (flags3, sf)) (hsf : sf.hasMatch = false) :
    ∃ res, Match (.sequenceMatcher [A, B, C] o) fuel flags s = .ok (flags3, res) ∧
      res.hasMatch = false ∧ res.remainingTokens = s.remainingTokens ∧
      res.matchedTokens = [] ∧ res.memory = none := by
  have ht : s.remainingTokens.length ≠ 0 := by
    intro h; exact htok (List.length_eq_zero.mp h)
  refine ⟨NewMatchState false s.remainingTokens [] none, ?_, rfl, rfl, rfl, rfl⟩
  have h := sequenceLoop_fail [A, B] C [] fuel o s.remainingTokens flags flags2 flags3 s s2
    copy sf [] hAB hcopy hC hsf
  simpa [Match, ht] using h

/-- C7 applied to `Sequence(A, B, C)` with `A` the dictionary a -> 1 for attribute 1, `B`
the dictionary b -> 2 for attribute 2 and `C` the word c, on the tokens a, b, x with memory
5 -> 50. -/
theorem sequenceMatcher_failure_returns_no_memory_witness :
    (NewMatchState false ["a", "b", "x"] []
      (NewMemoryState (some (fun k => if k = 5 then some [50] else none)))).remainingTokens
      ≠ [] ∧
    (∃ res, Match (.sequenceMatcher [.dictMatcher [("a", [1])] 1 {} 0,
          .dictMatcher [("b", [2])] 2 {} 0, .allowedWordMatcher "c"] {}) 0 (fun _ => false)
        (NewMatchState false ["a", "b", "x"] []
          (NewMemoryState (some (fun k => if k = 5 then some [50] else none))))
        = .ok (fun _ => false, res) ∧
      res.hasMatch = false ∧ res.remainingTokens = ["a", "b", "x"] ∧
      res.matchedTokens = [] ∧ res.memory = none) :=
  ⟨by decide,
    sequenceMatcher_failure_returns_no_memory
      (.dictMatcher [("a", [1])] 1 {} 0) (.dictMatcher [("b", [2])] 2 {} 0)
      (.allowedWordMatcher "c") {} 0 (fun _ => false) (fun _ => false) (fun _ => false)
      (NewMatchState false ["a", "b", "x"] []
        (NewMemoryState (some (fun k => if k = 5 then some [50] else none))))
      _ _ (NewMatchState false ["x"] [] none) (by decide)
      (AllMatch.cons _ _ _ (fun _ => false) _ _ _ _ _ rfl rfl rfl
        (AllMatch.cons _ _ _ (fun _ => false) _ _ _ _ _ rfl rfl rfl (AllMatch.nil _ _)))
      rfl rfl rfl⟩

/-- C7 as stated fails: with `A` the dictionary a -> 1 for attribute 1, `B` the dictionary
b -> 2 for attribute 2 and `C` the word c, on the tokens a, b, x with memory 5 -> 50, `A`
matches, then `B` matches, then `C` fails, and `Sequence(A, B, C)` returns a state whose
memory is `nil`, not the memory 5 -> 50 the sequence started from. -/
theorem sequenceMatcher_failure_memory_counterexample :
    observe [1, 2, 5] (Match (.dictMatcher [("a", [1])] 1 {} 0) 0 (fun _ => false)
        (NewMatchState false ["a", "b", "x"] []
          (NewMemoryState (some (fun k => if k = 5 then some [50] else none)))))
      = some (true, ["b", "x"], [], some [some [1], none, some [50]]) ∧
    observe [1, 2, 5] (Match (.dictMatcher [("b", [2])] 2 {} 0) 0 (fun _ => false)
        (NewMatchState true ["b", "x"] []
          (NewMemoryState (some (fun k =>
            if k = 1 then some [1] else if k = 5 then some [50] else none)))))
      = some (true, ["x"], [], some [some [1], some [2], some [50]]) ∧
    observe [1, 2, 5] (Match (.allowedWordMatcher "c") 0 (fun _ => false)
        (NewMatchState true ["x"] []
          (NewMemoryState (some (fun k =>
            if k = 2 then some [2] else if k = 1 then some [1]
            else if k = 5 then some [50] else none)))))
      = some (false, ["x"], [], none) ∧
    Match (.sequenceMatcher [.dictMatcher [("a", [1])] 1 {} 0,
          .dictMatcher [("b", [2])] 2 {} 0, .allowedWordMatcher "c"] {}) 0 (fun _ => false)
        (NewMatchState false ["a", "b", "x"] []
          (NewMemoryState (some (fun k => if k = 5 then some [50] else none))))
      = .ok (fun _ => false, NewMatchState false ["a", "b", "x"] [] none) ∧
    (NewMatchState false ["a", "b", "x"] [] none).memory
      ≠ (NewMatchState false ["a", "b", "x"] []
          (NewMemoryState (some (fun k => if k = 5 then some [50] else none)))).memory :=
  ⟨rfl, rfl, rfl, rfl, by simp [NewMatchState, NewMemoryState]⟩

/-! ## The one-of matcher -/

/-- The loop of `oneOfMatcher.Match` returns the state of the first matcher that matches,
whatever matchers come after it. -/
theorem oneOfLoop_first_match (pre : List Matcher) (m : Matcher) (post : List Matcher)
    (fuel : Nat) (flags flags1 flags2 : OnceFlags) (s copy r : matchState)
    (hcopy : Copy s = .ok copy) (hpre : AllFail fuel copy pre flags flags1)
    (hm : Match m fuel flags1 copy = .ok (flags2, r)) (hr : r.hasMatch = true) :
    oneOfLoop (pre ++ m :: post) fuel flags s = .ok (flags2, r) := by
  induction hpre with
  | nil flags => simp [oneOfLoop, hcopy, hm, hr]
  | cons m0 ms flags flags1 flags2 r0 hm0 hr0 _ ih =>
    simp [oneOfLoop, hcopy, hm0, hr0, ih hm]

/-- The loop of `oneOfMatcher.Match` over matchers that all fail returns the failure
state. -/
theorem oneOfLoop_all_fail (ms : List Matcher) (fuel : Nat) (flags flags1 : OnceFlags)
    (s copy : matchState) (hcopy : Copy s = .ok copy)
    (h : AllFail fuel copy ms flags flags1) :
    oneOfLoop ms fuel flags s
      = .ok (flags1, NewMatchState false s.remainingTokens s.matchedTokens none) := by
  induction h with
  | nil flags => simp [oneOfLoop]
  | cons m0 ms flags flags1 flags2 r0 hm0 hr0 _ ih =>
    simp [oneOfLoop, hcopy, hm0, hr0, ih]

/-- C10: on a state `s` that `Copy` accepts (its memory is present), with `copy` the copy
each child is tried on:
(1) if the children `pre` all return `hasMatch = false` in list order and the next child
`m` returns `r` with `hasMatch = true`, the one-of matcher returns exactly `r` (and the
flags `m` left), whatever children `post` stand after `m`: none of them is tried;
(2) if all children return `hasMatch = false`, it returns `hasMatch = false` with the
remaining tokens of `s` and no memory. -/
theorem oneOfMatcher_first_match (fuel : Nat) (flags : OnceFlags) (s copy : matchState)
    (hcopy : Copy s = .ok copy) :
    (∀ pre m post flags1 flags2 r, AllFail fuel copy pre flags flags1 →
      Match m fuel flags1 copy = .ok (flags2, r) → r.hasMatch = true →
      Match (.oneOfMatcher (pre ++ m :: post)) fuel flags s = .ok (flags2, r)) ∧
    (∀ ms flags1, AllFail fuel copy ms flags flags1 →
      ∃ res, Match (.oneOfMatcher ms) fuel flags s = .ok (flags1, res) ∧
        res.hasMatch = false ∧ res.remainingTokens = s.remainingTokens ∧
        res.memory = none) := by
  constructor
  · intro pre m post flags1 flags2 r hpre hm hr
    simp only [Match]
    exact oneOfLoop_first_match pre m post fuel flags flags1 flags2 s copy r hcopy hpre hm hr
  · intro ms flags1 h
    refine ⟨NewMatchState false s.remainingTokens s.matchedTokens none, ?_, rfl, rfl, rfl⟩
    simp only [Match]
    exact oneOfLoop_all_fail ms fuel flags flags1 s copy hcopy h

/-- C10 on the one-of matcher over the sequence lorem, ipsum, dolor, then the word lorem,
then the word ipsum, with the tokens lorem, x: the sequence fails, the word lorem matches
and its state is returned; on the token x every child fails. -/
theorem oneOfMatcher_first_match_witness :
    Copy (NewInitialState ["lorem", "x"]) = .ok (NewInitialState ["lorem", "x"]) ∧
    Match (.oneOfMatcher ([.sequenceMatcher [.allowedWordMatcher "lorem",
        .allowedWordMatcher "ipsum", .allowedWordMatcher "dolor"] {}]
        ++ .allowedWordMatcher "lorem" :: [.allowedWordMatcher "ipsum"])) 0 (fun _ => false)
        (NewInitialState ["lorem", "x"])
      = .ok (fun _ => false, NewMatchState true ["x"] [] (NewInitialState ["lorem", "x"]).memory) ∧
    observe [] (Match (.oneOfMatcher [.allowedWordMatcher "lorem",
        .allowedWordMatcher "ipsum"]) 0 (fun _ => false) (NewInitialState ["x"]))
      = some (false, ["x"], [], none) :=
  ⟨rfl,
    (oneOfMatcher_first_match 0 (fun _ => false) (NewInitialState ["lorem", "x"])
      (NewInitialState ["lorem", "x"]) rfl).1
      [.sequenceMatcher [.allowedWordMatcher "lorem", .allowedWordMatcher "ipsum",
        .allowedWordMatcher "dolor"] {}]
      (.allowedWordMatcher "lorem") [.allowedWordMatcher "ipsum"]
      (fun _ => false) (fun _ => false)
      (NewMatchState true ["x"] [] (NewInitialState ["lorem", "x"]).memory)
      (AllFail.cons _ _ _ (fun _ => false) _ (NewMatchState false ["lorem", "x"] [] none)
        rfl rfl (AllFail.nil _))
      rfl rfl,
    rfl⟩

/-! ## The full-text matcher -/

/-- A state that the outer loop of `fullTextMatcher.Match` returns with `hasMatch = true`
has no remaining tokens, whatever the inner loop does. -/
theorem fullTextLoop_matched_empty
    (pass : OnceFlags → matchState → Except Fault (OnceFlags × Option matchState))
    (n : Nat) (flags flags1 : OnceFlags) (s res : matchState)
    (h : fullTextLoop pass n flags s = .ok (flags1, res)) (hres : res.hasMatch = true) :
    res.remainingTokens = [] := by
  induction n generalizing flags s with
  | zero => simp [fullTextLoop] at h
  | succ n ih =>
    cases hp : pass flags s with
    | error e => simp [fullTextLoop, hp] at h
    | ok p =>
      obtain ⟨flags2, r⟩ := p
      cases r with
      | none =>
        simp [fullTextLoop, hp] at h
        rw [← h.2] at hres
        simp [NewMatchState] at hres
      | some s1 =>
        by_cases hlen : s1.remainingTokens.length = 0
        · simp [fullTextLoop, hp, hlen] at h
          rw [← h.2]
          exact List.length_eq_zero.mp hlen
        · simp only [fullTextLoop, hp, hlen, if_false] at h
          exact ih flags2 s1 h

/-- The inner loop of `fullTextMatcher.Match` finds no match when every node fails. -/
theorem fullTextPass_all_fail (nodes : List Matcher) (fuel : Nat) (flags flags1 : OnceFlags)
    (s copy : matchState) (hcopy : Copy s = .ok copy)
    (h : AllFail fuel copy nodes flags flags1) :
    fullTextPass nodes fuel flags s = .ok (flags1, none) := by
  induction h with
  | nil flags => simp [fullTextPass]
  | cons m0 ms flags flags1 flags2 r0 hm0 hr0 _ ih =>
    simp [fullTextPass, hcopy, hm0, hr0, ih]

/-- After `k` iterations that match and leave tokens, the outer loop of
`fullTextMatcher.Match` goes on from the state reached, with `k` iterations fewer. -/
theorem fullTextLoop_passes (nodes : List Matcher) (fuel k n : Nat)
    (flags flagsk : OnceFlags) (s sk : matchState)
    (h : PassesTo nodes fuel k flags s flagsk sk) :
    fullTextLoop (fun f st => fullTextPass nodes fuel f st) (k + n) flags s
      = fullTextLoop (fun f st => fullTextPass nodes fuel f st) n flagsk sk := by
  induction h with
  | refl flags s => simp
  | step k flags flags1 flagsk s s1 sk hpass hrem _ ih =>
    have hlen : s1.remainingTokens.length ≠ 0 := by
      intro h0; exact hrem (List.length_eq_zero.mp h0)
    have hk : k + 1 + n = (k + n) + 1 := by omega
    rw [hk]
    simp only [fullTextLoop, hpass, hlen, if_false]
    exact ih

/-- C8: (1) a state that the full-text matcher returns with `hasMatch = true` has no
remaining tokens; (2) if, after `k` iterations of its loop in each of which a child
matched and tokens remained, the loop is at a state `sk` on whose copy every child returns
`hasMatch = false`, the matcher returns `hasMatch = false` (with the remaining tokens of
`sk`), however many iterations matched before; the loop needs `k + 1` iterations for
that. -/
theorem fullTextMatcher_matches_only_when_exhausted (nodes : List Matcher) (fuel : Nat)
    (flags : OnceFlags) (s : matchState) :
    (∀ flags1 res, Match (.fullTextMatcher nodes) fuel flags s = .ok (flags1, res) →
      res.hasMatch = true → res.remainingTokens = []) ∧
    (∀ k flagsk sk copy flags1, PassesTo nodes fuel k flags s flagsk sk →
      Copy sk = .ok copy → AllFail fuel copy nodes flagsk flags1 → k < fuel →
      ∃ res, Match (.fullTextMatcher nodes) fuel flags s = .ok (flags1, res) ∧
        res.hasMatch = false ∧ res.remainingTokens = sk.remainingTokens) := by
  constructor
  · intro flags1 res h hres
    simp only [Match] at h
    exact fullTextLoop_matched_empty _ fuel flags flags1 s res h hres
  · intro k flagsk sk copy flags1 hpasses hcopy hfail hk
    obtain ⟨n, hn⟩ : ∃ n, fuel = k + (n + 1) := ⟨fuel - k - 1, by omega⟩
    refine ⟨NewMatchState false sk.remainingTokens [] none, ?_, rfl, rfl⟩
    simp only [Match]
    have hloop := fullTextLoop_passes nodes fuel k (n + 1) flags flagsk s sk hpasses
    rw [← hn] at hloop
    rw [hloop]
    simp only [fullTextLoop, fullTextPass_all_fail nodes fuel flagsk flags1 sk copy hcopy hfail]

/-- C8 on the full-text matcher over the words lorem, ipsum, dolor of the tests: on the
tokens lorem ipsum dolor it matches with nothing remaining, and on lorem unknown dolor the
first iteration matches lorem and the second finds no child for unknown, so that it returns
`hasMatch = false`. -/
theorem fullTextMatcher_matches_only_when_exhausted_witness :
    ((Match (.fullTextMatcher [.allowedWordMatcher "lorem", .allowedWordMatcher "ipsum",
          .allowedWordMatcher "dolor"]) 5 (fun _ => false)
          (NewInitialState ["lorem", "ipsum", "dolor"])
        = .ok (fun _ => false, NewMatchState true [] [] (NewMemoryState (some (fun _ => none))))) ∧
      (NewMatchState true [] [] (NewMemoryState (some (fun _ => none)))).remainingTokens = []) ∧
    (∃ res, Match (.fullTextMatcher [.allowedWordMatcher "lorem", .allowedWordMatcher "ipsum",
          .allowedWordMatcher "dolor"]) 5 (fun _ => false)
          (NewInitialState ["lorem", "unknown", "dolor"]) = .ok (fun _ => false, res) ∧
      res.hasMatch = false ∧ res.remainingTokens = ["unknown", "dolor"]) :=
  ⟨⟨rfl,
      (fullTextMatcher_matches_only_when_exhausted
        [.allowedWordMatcher "lorem", .allowedWordMatcher "ipsum", .allowedWordMatcher "dolor"]
        5 (fun _ => false) (NewInitialState ["lorem", "ipsum", "dolor"])).1 (fun _ => false)
        (NewMatchState true [] [] (NewMemoryState (some (fun _ => none)))) rfl rfl⟩,
    (fullTextMatcher_matches_only_when_exhausted
      [.allowedWordMatcher "lorem", .allowedWordMatcher "ipsum", .allowedWordMatcher "dolor"]
      5 (fun _ => false) (NewInitialState ["lorem", "unknown", "dolor"])).2 1 (fun _ => false)
      (NewMatchState true ["unknown", "dolor"] [] (NewMemoryState (some (fun _ => none))))
      (NewMatchState true ["unknown", "dolor"] [] (NewMemoryState (some (fun _ => none))))
      (fun _ => false)
      (PassesTo.step 0 _ (fun _ => false) _ _
        (NewMatchState true ["unknown", "dolor"] [] (NewMemoryState (some (fun _ => none)))) _
        rfl (by decide) (PassesTo.refl _ _))
      rfl
      (AllFail.cons _ _ _ (fun _ => false) _ (NewMatchState false ["unknown", "dolor"] [] none)
        rfl rfl
        (AllFail.cons _ _ _ (fun _ => false) _ (NewMatchState false ["unknown", "dolor"] [] none)
          rfl rfl
          (AllFail.cons _ _ _ (fun _ => false) _
            (NewMatchState false ["unknown", "dolor"] [] none) rfl rfl (AllFail.nil _))))
      (by decide)⟩

/-- The inner loop of `fullTextMatcher.Match` over the word a and an empty sequence, on the
state reached after a was consumed from a, b: the empty sequence returns its input, whose
`hasMatch` is `true`, and the state is unchanged. -/
theorem fullTextPass_empty_sequence_stuck (fuel : Nat) :
    fullTextPass [.allowedWordMatcher "a", .sequenceMatcher [] {}] fuel (fun _ => false)
        (NewMatchState true ["b"] [] (NewMemoryState (some (fun _ => none))))
      = .ok (fun _ => false,
          some (NewMatchState true ["b"] [] (NewMemoryState (some (fun _ => none))))) := rfl

/-- The outer loop of `fullTextMatcher.Match` over the word a and an empty sequence never
leaves the state reached after a was consumed from a, b. -/
theorem fullTextLoop_empty_sequence_stuck (fuel n : Nat) :
    fullTextLoop (fun f st =>
        fullTextPass [.allowedWordMatcher "a", .sequenceMatcher [] {}] fuel f st) n
        (fun _ => false) (NewMatchState true ["b"] [] (NewMemoryState (some (fun _ => none))))
      = .error .outOfFuel := by
  induction n with
  | zero => rfl
  | succ n ih =>
    simp only [fullTextLoop, fullTextPass_empty_sequence_stuck]
    exact ih

/-- C9 fails on the code: the full-text matcher over the word a and a sequence with no
children, on the initial state of the tokens a, b, exceeds every bound on the iterations of
its loop. After the first iteration consumed a, every iteration finds the empty sequence
matching (it returns its input, whose `hasMatch` is `true`) with the token b left. -/
theorem fullTextMatcher_empty_sequence_never_returns (fuel : Nat) :
    Match (.fullTextMatcher [.allowedWordMatcher "a", .sequenceMatcher [] {}]) fuel
      (fun _ => false) (NewInitialState ["a", "b"]) = .error .outOfFuel := by
  cases fuel with
  | zero => rfl
  | succ n =>
    have hfirst : fullTextPass [.allowedWordMatcher "a", .sequenceMatcher [] {}] (n + 1)
        (fun _ => false) (NewInitialState ["a", "b"])
        = .ok (fun _ => false,
            some (NewMatchState true ["b"] [] (NewMemoryState (some (fun _ => none))))) := rfl
    simp only [Match, fullTextLoop, hfirst]
    exact fullTextLoop_empty_sequence_stuck (n + 1) n

/-! ## The bound on the loop iterations -/

/-- Raising the bound of the outer loop of `fullTextMatcher.Match`, and passing to an inner
loop that agrees with the old one wherever that one stays within its bound, keeps every
result that stayed within the bound. -/
theorem fullTextLoop_fuel_mono
    (pass pass1 : OnceFlags → matchState → Except Fault (OnceFlags × Option matchState))
    (hpass : ∀ f st, pass f st ≠ .error .outOfFuel → pass1 f st = pass f st)
    (n : Nat) (flags : OnceFlags) (s : matchState)
    (h : fullTextLoop pass n flags s ≠ .error .outOfFuel) :
    fullTextLoop pass1 (n + 1) flags s = fullTextLoop pass n flags s := by
  induction n generalizing flags s with
  | zero => simp [fullTextLoop] at h
  | succ n ih =>
    cases hp : pass flags s with
    | error e =>
      have hne : pass flags s ≠ .error .outOfFuel := by
        intro hcon
        apply h
        simp [fullTextLoop, hcon]
      have h1 := hpass flags s hne
      rw [hp] at h1
      conv_lhs => unfold fullTextLoop
      conv_rhs => unfold fullTextLoop
      simp only [h1, hp]
    | ok p =>
      obtain ⟨flags2, r⟩ := p
      have h1 := hpass flags s (by rw [hp]; simp)
      rw [hp] at h1
      cases r with
      | none =>
        conv_lhs => unfold fullTextLoop
        conv_rhs => unfold fullTextLoop
        simp only [h1, hp]
      | some s1 =>
        by_cases hlen : s1.remainingTokens.length = 0
        · conv_lhs => unfold fullTextLoop
          conv_rhs => unfold fullTextLoop
          simp only [h1, hp, hlen, if_true]
        · have hrec : fullTextLoop pass n flags2 s1 ≠ .error .outOfFuel := by
            intro hcon
            apply h
            simp [fullTextLoop, hp, hlen, hcon]
          have := ih flags2 s1 hrec
          conv_lhs => unfold fullTextLoop
          conv_rhs => unfold fullTextLoop
          simp only [h1, hp, hlen, if_false]
          exact this

mutual

/-- A result of `Match` that stayed within the bound on the loop iterations is not changed
by raising the bound. -/
theorem Match_fuel_mono : ∀ (m : Matcher) (fuel : Nat) (flags : OnceFlags) (s : matchState),
    Match m fuel flags s ≠ .error .outOfFuel →
    Match m (fuel + 1) flags s = Match m fuel flags s
  | .allowedWordMatcher _, _, _, _, _ => by simp [Match]
  | .allowedWordsMatcher _ _ _, _, _, _, _ => by simp [Match]
  | .dictMatcher _ _ _ _, _, _, _, _ => by simp [Match]
  | .anyOrderDictMatcher _ _ _ _, _, _, _, _ => by simp [Match]
  | .sequenceMatcher words o, fuel, flags, s, h => by
    by_cases ht : s.remainingTokens.length = 0
    · simp [Match, ht]
    · simp only [Match, ht, if_false] at h ⊢
      exact sequenceLoop_fuel_mono words fuel o s.remainingTokens flags s [] h
  | .fullTextMatcher nodes, fuel, flags, s, h => by
    simp only [Match] at h ⊢
    exact fullTextLoop_fuel_mono _ _
      (fun f st hne => fullTextPass_fuel_mono nodes fuel f st hne) fuel flags s h
  | .oneOfMatcher words, fuel, flags, s, h => by
    simp only [Match] at h ⊢
    exact oneOfLoop_fuel_mono words fuel flags s h
  | .onceMatcher ref matcher, fuel, flags, s, h => by
    by_cases hf : flags ref = true
    · simp [Match, hf]
    · cases hcopy : Copy s with
      | error e => simp [Match, hf, hcopy]
      | ok copy =>
        have hne : Match matcher fuel flags copy ≠ .error .outOfFuel := by
          intro hcon
          apply h
          simp [Match, hf, hcopy, hcon]
        have := Match_fuel_mono matcher fuel flags copy hne
        simp only [Match, hf, hcopy, this]
  | .tryAllMatcher nodes, fuel, flags, s, h => by
    simp only [Match] at h ⊢
    exact tryAllLoop_fuel_mono nodes fuel flags s false h

/-- The loop of `sequenceMatcher.Match` under a raised bound. -/
theorem sequenceLoop_fuel_mono : ∀ (ms : List Matcher) (fuel : Nat) (o : options)
    (tokens : List String) (flags : OnceFlags) (s : matchState) (acc : List String),
    sequenceLoop ms fuel o tokens flags s acc ≠ .error .outOfFuel →
    sequenceLoop ms (fuel + 1) o tokens flags s acc = sequenceLoop ms fuel o tokens flags s acc
  | [], _, _, _, _, _, _, _ => by simp [sequenceLoop]
  | m :: ms, fuel, o, tokens, flags, s, acc, h => by
    cases hcopy : Copy s with
    | error e => simp [sequenceLoop, hcopy]
    | ok copy =>
      have hne : Match m fuel flags copy ≠ .error .outOfFuel := by
        intro hcon
        apply h
        simp [sequenceLoop, hcopy, hcon]
      have hm := Match_fuel_mono m fuel flags copy hne
      cases hr : Match m fuel flags copy with
      | error e => simp [sequenceLoop, hcopy, hm, hr]
      | ok p =>
        obtain ⟨flags1, s1⟩ := p
        simp only [sequenceLoop, hcopy, hm, hr] at h ⊢
        by_cases hs1 : s1.hasMatch = true
        · by_cases hk : o.keepMatchedTokens = true
          · simp only [hs1, hk, Bool.not_true, Bool.false_eq_true, if_false] at h ⊢
            exact sequenceLoop_fuel_mono ms fuel o tokens flags1 s1 _ h
          · simp only [hs1, hk, Bool.not_true, Bool.false_eq_true, if_false] at h ⊢
            simp only [Bool.not_eq_true] at hk
            simp only [hk, Bool.not_false, if_true] at h ⊢
            exact sequenceLoop_fuel_mono ms fuel o tokens flags1 s1 _ h
        · simp [hs1]

/-- The inner loop of `fullTextMatcher.Match` under a raised bound. -/
theorem fullTextPass_fuel_mono : ∀ (ms : List Matcher) (fuel : Nat) (flags : OnceFlags)
    (s : matchState),
    fullTextPass ms fuel flags s ≠ .error .outOfFuel →
    fullTextPass ms (fuel + 1) flags s = fullTextPass ms fuel flags s
  | [], _, _, _, _ => by simp [fullTextPass]
  | m :: ms, fuel, flags, s, h => by
    cases hcopy : Copy s with
    | error e => simp [fullTextPass, hcopy]
    | ok copy =>
      have hne : Match m fuel flags copy ≠ .error .outOfFuel := by
        intro hcon
        apply h
        simp [fullTextPass, hcopy, hcon]
      have hm := Match_fuel_mono m fuel flags copy hne
      cases hr : Match m fuel flags copy with
      | error e => simp [fullTextPass, hcopy, hm, hr]
      | ok p =>
        obtain ⟨flags1, s1⟩ := p
        simp only [fullTextPass, hcopy, hm, hr] at h ⊢
        by_cases hs1 : s1.hasMatch = true
        · simp [hs1]
        · simp only [hs1, if_false] at h ⊢
          exact fullTextPass_fuel_mono ms fuel flags1 s h

/-- The loop of `oneOfMatcher.Match` under a raised bound. -/
theorem oneOfLoop_fuel_mono : ∀ (ms : List Matcher) (fuel : Nat) (flags : OnceFlags)
    (s : matchState),
    oneOfLoop ms fuel flags s ≠ .error .outOfFuel →
    oneOfLoop ms (fuel + 1) flags s = oneOfLoop ms fuel flags s
  | [], _, _, _, _ => by simp [oneOfLoop]
  | m :: ms, fuel, flags, s, h => by
    cases hcopy : Copy s with
    | error e => simp [oneOfLoop, hcopy]
    | ok copy =>
      have hne : Match m fuel flags copy ≠ .error .outOfFuel := by
        intro hcon
        apply h
        simp [oneOfLoop, hcopy, hcon]
      have hm := Match_fuel_mono m fuel flags copy hne
      cases hr : Match m fuel flags copy with
      | error e => simp [oneOfLoop, hcopy, hm, hr]
      | ok p =>
        obtain ⟨flags1, s1⟩ := p
        simp only [oneOfLoop, hcopy, hm, hr] at h ⊢
        by_cases hs1 : s1.hasMatch = true
        · simp [hs1]
        · simp only [hs1, if_false] at h ⊢
          exact oneOfLoop_fuel_mono ms fuel flags1 s h

/-- The loop of `tryAllMatcher.Match` under a raised bound. -/
theorem tryAllLoop_fuel_mono : ∀ (ms : List Matcher) (fuel : Nat) (flags : OnceFlags)
    (s : matchState) (b : Bool),
    tryAllLoop ms fuel flags s b ≠ .error .outOfFuel →
    tryAllLoop ms (fuel + 1) flags s b = tryAllLoop ms fuel flags s b
  | [], _, _, _, _, _ => by simp [tryAllLoop]
  | m :: ms, fuel, flags, s, b, h => by
    cases hcopy : Copy s with
    | error e => simp [tryAllLoop, hcopy]
    | ok copy =>
      have hne : Match m fuel flags copy ≠ .error .outOfFuel := by
        intro hcon
        apply h
        simp [tryAllLoop, hcopy, hcon]
      have hm := Match_fuel_mono m fuel flags copy hne
      cases hr : Match m fuel flags copy with
      | error e => simp [tryAllLoop, hcopy, hm, hr]
      | ok p =>
        obtain ⟨flags1, s1⟩ := p
        simp only [tryAllLoop, hcopy, hm, hr] at h ⊢
        by_cases hs1 : s1.hasMatch = true
        · simp only [hs1, if_true] at h ⊢
          exact tryAllLoop_fuel_mono ms fuel flags1 s1 true h
        · simp only [hs1, if_false] at h ⊢
          exact tryAllLoop_fuel_mono ms fuel flags1 s b h

end

/-! ## Progress: a match consumes a token -/

/-- The copy of a state with present memory is the state itself. -/
theorem Copy_present (s : matchState) (M : AttrValues) (hmem : s.memory = some ⟨some M⟩) :
    Copy s = .ok s := by
  obtain ⟨hm, rt, mt, mem⟩ := s
  simp only at hmem
  subst hmem
  rfl

/-- A match of `allowedWordMatcher` consumes a token and keeps the memory. -/
theorem allowedWordMatch_progress (word : String) (s : matchState)
    (h : (allowedWordMatch word s).hasMatch = true) :
    (allowedWordMatch word s).remainingTokens.length < s.remainingTokens.length ∧
      (allowedWordMatch word s).memory = s.memory := by
  unfold allowedWordMatch at h ⊢
  by_cases ht : s.remainingTokens.length = 0
  · simp [ht, NewMatchState] at h
  · by_cases hw : s.remainingTokens.head? = some word
    · simp only [ht, hw, if_false, if_true, NewMatchState, List.length_drop]
      exact ⟨by omega, trivial⟩
    · simp [ht, hw, NewMatchState] at h

/-- A match of the loop of `allowedWordsMatcher.Match` consumes a token and keeps the
memory. -/
theorem allowedWordsLoop_progress (words : List String) (o : options) (s : matchState)
    (t : List String) (ht : t ≠ []) (n : Nat)
    (h : (allowedWordsLoop words o s t n).hasMatch = true) :
    (allowedWordsLoop words o s t n).remainingTokens.length < t.length ∧
      (allowedWordsLoop words o s t n).memory = s.memory := by
  have hlen : 0 < t.length := List.length_pos.mpr ht
  induction n with
  | zero => simp [allowedWordsLoop, NewMatchState] at h
  | succ i ih =>
    by_cases hc : words.contains (Join (t.take (i + 1)) " ") = true
    · simp only [allowedWordsLoop, hc, if_true, NewMatchState, List.length_drop]
      exact ⟨by omega, trivial⟩
    · simp only [allowedWordsLoop, hc, if_false] at h ⊢
      exact ih h

/-- A match of `allowedWordsMatcher.Match` consumes a token and keeps the memory. -/
theorem allowedWordsMatch_progress (words : List String) (mk : Nat) (o : options)
    (s : matchState) (h : (allowedWordsMatch words mk o s).hasMatch = true) :
    (allowedWordsMatch words mk o s).remainingTokens.length < s.remainingTokens.length ∧
      (allowedWordsMatch words mk o s).memory = s.memory := by
  unfold allowedWordsMatch at h ⊢
  by_cases ht : s.remainingTokens.length = 0
  · simp [ht, NewMatchState] at h
  · simp only [ht, if_false] at h ⊢
    exact allowedWordsLoop_progress words o s s.remainingTokens
      (fun h0 => ht (by simp [h0])) _ h

/-- On present memory `dictMatcher.Match` returns a state, and a match consumes a token
and leaves the memory present. -/
theorem dictMatch_progress (d : Dict) (a : AttributeID) (o : options) (mk : Nat)
    (s : matchState) (M : AttrValues) (hmem : s.memory = some ⟨some M⟩) :
    ∃ res, dictMatch d a o mk s = .ok res ∧
      (res.hasMatch = true →
        res.remainingTokens.length < s.remainingTokens.length ∧
          ∃ M1, res.memory = some ⟨some M1⟩) := by
  unfold dictMatch
  by_cases ht : s.remainingTokens.length = 0
  · exact ⟨NewMatchState false s.remainingTokens [] none, by simp only [ht, if_true],
      fun h => by simp [NewMatchState] at h⟩
  · simp only [ht, if_false, hmem, GetStorage]
    rcases dictLoop_spec d a o s.remainingTokens M
        (if o.calculateNeedleLength then min mk s.remainingTokens.length
          else s.remainingTokens.length) with
      ⟨_, hres⟩ | ⟨k, vals, hk1, _, _, _, hres⟩
    · exact ⟨_, hres, fun h => by simp [NewMatchState] at h⟩
    · refine ⟨_, hres, fun _ => ⟨?_, _, rfl⟩⟩
      simp only [NewMatchState, List.length_drop]
      omega

/-- On present memory `anyOrderDictMatcher.Match` returns a state, and a match consumes a
token and leaves the memory present. -/
theorem anyOrderDictMatch_progress (d : Dict) (a : AttributeID) (mk : Nat) (o : options)
    (s : matchState) (M : AttrValues) (hmem : s.memory = some ⟨some M⟩) :
    ∃ res, anyOrderDictMatch d a mk o s = .ok res ∧
      (res.hasMatch = true →
        res.remainingTokens.length < s.remainingTokens.length ∧
          ∃ M1, res.memory = some ⟨some M1⟩) := by
  unfold anyOrderDictMatch
  by_cases ht : s.remainingTokens.length = 0
  · exact ⟨NewMatchState false s.remainingTokens [] none, by simp only [ht, if_true],
      fun h => by simp [NewMatchState] at h⟩
  · simp only [ht, if_false, hmem, GetStorage]
    rcases anyOrderLoop_spec d a o s.remainingTokens M
        (min s.remainingTokens.length mk) (Nat.min_le_left _ _) with
      ⟨_, hres⟩ | ⟨L, p, vals, hL1, _, hp, _, _, _, hres⟩
    · exact ⟨_, hres, fun h => by simp [NewMatchState] at h⟩
    · refine ⟨_, hres, fun _ => ⟨?_, _, rfl⟩⟩
      simp only [NewMatchState]
      rw [calculateRemainingTokens_eq _ p L hp, List.length_append, List.length_take,
        List.length_drop]
      omega

/-- With an inner loop whose matches consume a token and leave the memory present, the
outer loop of `fullTextMatcher.Match` returns a state within `len(tokens) + 1`
iterations. -/
theorem fullTextLoop_progress
    (pass : OnceFlags → matchState → Except Fault (OnceFlags × Option matchState))
    (fuel : Nat)
    (hpass : ∀ f st M, st.memory = some ⟨some M⟩ → st.remainingTokens.length < fuel →
      ∃ f1 r, pass f st = .ok (f1, r) ∧
        ∀ s1, r = some s1 → s1.hasMatch = true ∧
          s1.remainingTokens.length < st.remainingTokens.length ∧
          ∃ M1, s1.memory = some ⟨some M1⟩)
    (n : Nat) (flags : OnceFlags) (s : matchState) (M : AttrValues)
    (hmem : s.memory = some ⟨some M⟩) (hn : s.remainingTokens.length < n)
    (hfuel : s.remainingTokens.length < fuel) :
    ∃ flags1 res, fullTextLoop pass n flags s = .ok (flags1, res) ∧
      (res.hasMatch = true →
        res.remainingTokens.length < s.remainingTokens.length ∧
          ∃ M1, res.memory = some ⟨some M1⟩) := by
  induction n generalizing flags s M with
  | zero => omega
  | succ n ih =>
    obtain ⟨f1, r, hp, hr⟩ := hpass flags s M hmem hfuel
    cases r with
    | none =>
      exact ⟨f1, NewMatchState false s.remainingTokens [] none,
        by simp only [fullTextLoop, hp], fun h => by simp [NewMatchState] at h⟩
    | some s1 =>
      obtain ⟨hs1, hlt, M1, hM1⟩ := hr s1 rfl
      by_cases hlen : s1.remainingTokens.length = 0
      · exact ⟨f1, s1, by simp only [fullTextLoop, hp, hlen, if_true],
          fun _ => ⟨hlt, M1, hM1⟩⟩
      · obtain ⟨f2, res, hres, hprop⟩ := ih f1 s1 M1 hM1 (by omega) (by omega)
        refine ⟨f2, res, by simp only [fullTextLoop, hp, hlen, if_false, hres], ?_⟩
        intro h
        obtain ⟨h1, h2⟩ := hprop h
        exact ⟨by omega, h2⟩

mutual

/-- On a tree in which every sequence has a child, a state with present memory and a bound
on the loop iterations above the number of remaining tokens, `Match` returns a state; when
it has `hasMatch = true` it has fewer remaining tokens than the input and present
memory. -/
theorem Match_progress : ∀ (m : Matcher), m.sequencesNonEmpty = true →
    ∀ (fuel : Nat) (flags : OnceFlags) (s : matchState) (M : AttrValues),
    s.memory = some ⟨some M⟩ → s.remainingTokens.length < fuel →
    ∃ flags1 res, Match m fuel flags s = .ok (flags1, res) ∧
      (res.hasMatch = true →
        res.remainingTokens.length < s.remainingTokens.length ∧
          ∃ M1, res.memory = some ⟨some M1⟩)
  | .allowedWordMatcher word, _, _, flags, s, M, hmem, _ =>
    ⟨flags, allowedWordMatch word s, by simp only [Match], fun h =>
      ⟨(allowedWordMatch_progress word s h).1, M,
        by rw [(allowedWordMatch_progress word s h).2, hmem]⟩⟩
  | .allowedWordsMatcher words mk o, _, _, flags, s, M, hmem, _ =>
    ⟨flags, allowedWordsMatch words mk o s, by simp only [Match], fun h =>
      ⟨(allowedWordsMatch_progress words mk o s h).1, M,
        by rw [(allowedWordsMatch_progress words mk o s h).2, hmem]⟩⟩
  | .dictMatcher d a o mk, _, _, flags, s, M, hmem, _ => by
    obtain ⟨res, hres, hprop⟩ := dictMatch_progress d a o mk s M hmem
    exact ⟨flags, res, by simp only [Match, hres], hprop⟩
  | .anyOrderDictMatcher d a mk o, _, _, flags, s, M, hmem, _ => by
    obtain ⟨res, hres, hprop⟩ := anyOrderDictMatch_progress d a mk o s M hmem
    exact ⟨flags, res, by simp only [Match, hres], hprop⟩
  | .sequenceMatcher words o, hwf, fuel, flags, s, M, hmem, hfuel => by
    simp only [Matcher.sequencesNonEmpty, Bool.and_eq_true, Bool.not_eq_true',
      List.isEmpty_eq_false] at hwf
    by_cases ht : s.remainingTokens.length = 0
    · exact ⟨flags, NewMatchState false s.remainingTokens [] none,
        by simp only [Match, ht, if_true], fun h => by simp [NewMatchState] at h⟩
    · obtain ⟨f1, res, hres, hprop⟩ :=
        sequenceLoop_progress words hwf.2 fuel o s.remainingTokens flags s [] M hmem hfuel
      refine ⟨f1, res, by simp only [Match, ht, if_false, hres], fun h => ?_⟩
      obtain ⟨_, h2, h3⟩ := hprop h
      exact ⟨h2 hwf.1, h3⟩
  | .fullTextMatcher nodes, hwf, fuel, flags, s, M, hmem, hfuel => by
    simp only [Matcher.sequencesNonEmpty] at hwf
    simp only [Match]
    exact fullTextLoop_progress _ fuel
      (fun f st M1 hM1 hlt => fullTextPass_progress nodes hwf fuel f st M1 hM1 hlt)
      fuel flags s M hmem hfuel hfuel
  | .oneOfMatcher words, hwf, fuel, flags, s, M, hmem, hfuel => by
    simp only [Matcher.sequencesNonEmpty] at hwf
    simp only [Match]
    exact oneOfLoop_progress words hwf fuel flags s M hmem hfuel
  | .onceMatcher ref matcher, hwf, fuel, flags, s, M, hmem, hfuel => by
    simp only [Matcher.sequencesNonEmpty] at hwf
    by_cases hf : flags ref = true
    · exact ⟨flags, NewMatchState false s.remainingTokens s.matchedTokens none,
        by simp only [Match, hf, if_true], fun h => by simp [NewMatchState] at h⟩
    · obtain ⟨f1, res, hres, hprop⟩ := Match_progress matcher hwf fuel flags s M hmem hfuel
      by_cases hr : res.hasMatch = true
      · exact ⟨fun r => if r = ref then true else f1 r, res,
          by simp [Match, hf, Copy_present s M hmem, hres, hr], hprop⟩
      · exact ⟨f1, NewMatchState false s.remainingTokens s.matchedTokens none,
          by simp [Match, hf, Copy_present s M hmem, hres, hr],
          fun h => by simp [NewMatchState] at h⟩
  | .tryAllMatcher nodes, hwf, fuel, flags, s, M, hmem, hfuel => by
    simp only [Matcher.sequencesNonEmpty] at hwf
    obtain ⟨f1, res, hres, hprop⟩ :=
      tryAllLoop_progress nodes hwf fuel flags s false M hmem hfuel
    refine ⟨f1, res, by simp only [Match, hres], fun h => ?_⟩
    obtain ⟨_, h2, h3⟩ := hprop h
    exact ⟨h2 rfl, h3⟩

/-- The loop of `sequenceMatcher.Match` returns a state; a matched one has no more tokens
than the state it ran from, fewer when the loop ran a child, and present memory. -/
theorem sequenceLoop_progress : ∀ (ms : List Matcher), allSequencesNonEmpty ms = true →
    ∀ (fuel : Nat) (o : options) (tokens : List String) (flags : OnceFlags) (s : matchState)
      (acc : List String) (M : AttrValues),
    s.memory = some ⟨some M⟩ → s.remainingTokens.length < fuel →
    ∃ flags1 res, sequenceLoop ms fuel o tokens flags s acc = .ok (flags1, res) ∧
      (res.hasMatch = true →
        res.remainingTokens.length ≤ s.remainingTokens.length ∧
          (ms ≠ [] → res.remainingTokens.length < s.remainingTokens.length) ∧
          ∃ M1, res.memory = some ⟨some M1⟩)
  | [], _, _, _, _, flags, s, acc, M, hmem, _ => by
    by_cases hacc : acc.length > 0
    · exact ⟨flags, NewMatchState s.hasMatch s.remainingTokens acc s.memory,
        by simp only [sequenceLoop, hacc, if_true],
        fun _ => ⟨le_refl _, fun h => absurd rfl h, M, hmem⟩⟩
    · exact ⟨flags, s, by simp only [sequenceLoop, hacc, if_false],
        fun _ => ⟨le_refl _, fun h => absurd rfl h, M, hmem⟩⟩
  | m :: ms, hwf, fuel, o, tokens, flags, s, acc, M, hmem, hfuel => by
    simp only [allSequencesNonEmpty, Bool.and_eq_true] at hwf
    obtain ⟨f1, s1, hm, hprop⟩ := Match_progress m hwf.1 fuel flags s M hmem hfuel
    by_cases hs1 : s1.hasMatch = true
    · obtain ⟨hlt, M1, hM1⟩ := hprop hs1
      by_cases hk : o.keepMatchedTokens = true
      · obtain ⟨f2, res, hres, hp2⟩ := sequenceLoop_progress ms hwf.2 fuel o tokens f1 s1
          (acc ++ s1.matchedTokens) M1 hM1 (by omega)
        refine ⟨f2, res, by simp [sequenceLoop, Copy_present s M hmem, hm, hs1, hk, hres], ?_⟩
        intro h
        obtain ⟨h1, _, h3⟩ := hp2 h
        exact ⟨by omega, fun _ => by omega, h3⟩
      · obtain ⟨f2, res, hres, hp2⟩ := sequenceLoop_progress ms hwf.2 fuel o tokens f1 s1
          acc M1 hM1 (by omega)
        refine ⟨f2, res, by simp [sequenceLoop, Copy_present s M hmem, hm, hs1, hk, hres], ?_⟩
        intro h
        obtain ⟨h1, _, h3⟩ := hp2 h
        exact ⟨by omega, fun _ => by omega, h3⟩
    · exact ⟨f1, NewMatchState false tokens [] none,
        by simp [sequenceLoop, Copy_present s M hmem, hm, hs1],
        fun h => by simp [NewMatchState] at h⟩

/-- The inner loop of `fullTextMatcher.Match` returns; the state it gives when a node
matched has `hasMatch = true`, fewer tokens and present memory. -/
theorem fullTextPass_progress : ∀ (ms : List Matcher), allSequencesNonEmpty ms = true →
    ∀ (fuel : Nat) (flags : OnceFlags) (s : matchState) (M : AttrValues),
    s.memory = some ⟨some M⟩ → s.remainingTokens.length < fuel →
    ∃ flags1 r, fullTextPass ms fuel flags s = .ok (flags1, r) ∧
      ∀ s1, r = some s1 → s1.hasMatch = true ∧
        s1.remainingTokens.length < s.remainingTokens.length ∧
        ∃ M1, s1.memory = some ⟨some M1⟩
  | [], _, _, flags, _, _, _, _ =>
    ⟨flags, none, by simp only [fullTextPass], fun _ h => by cases h⟩
  | m :: ms, hwf, fuel, flags, s, M, hmem, hfuel => by
    simp only [allSequencesNonEmpty, Bool.and_eq_true] at hwf
    obtain ⟨f1, s1, hm, hprop⟩ := Match_progress m hwf.1 fuel flags s M hmem hfuel
    by_cases hs1 : s1.hasMatch = true
    · obtain ⟨hlt, M1, hM1⟩ := hprop hs1
      refine ⟨f1, some (NewMatchState true s1.remainingTokens
        (s.matchedTokens ++ s1.matchedTokens) s1.memory),
        by simp only [fullTextPass, Copy_present s M hmem, hm, hs1, if_true], ?_⟩
      intro s2 h2
      cases h2
      exact ⟨rfl, hlt, M1, hM1⟩
    · obtain ⟨f2, r, hr, hp2⟩ := fullTextPass_progress ms hwf.2 fuel f1 s M hmem hfuel
      exact ⟨f2, r, by simp [fullTextPass, Copy_present s M hmem, hm, hs1, hr], hp2⟩

/-- The loop of `oneOfMatcher.Match` returns a state; a matched one has fewer tokens and
present memory. -/
theorem oneOfLoop_progress : ∀ (ms : List Matcher), allSequencesNonEmpty ms = true →
    ∀ (fuel : Nat) (flags : OnceFlags) (s : matchState) (M : AttrValues),
    s.memory = some ⟨some M⟩ → s.remainingTokens.length < fuel →
    ∃ flags1 res, oneOfLoop ms fuel flags s = .ok (flags1, res) ∧
      (res.hasMatch = true →
        res.remainingTokens.length < s.remainingTokens.length ∧
          ∃ M1, res.memory = some ⟨some M1⟩)
  | [], _, _, flags, s, _, _, _ =>
    ⟨flags, NewMatchState false s.remainingTokens s.matchedTokens none,
      by simp only [oneOfLoop], fun h => by simp [NewMatchState] at h⟩
  | m :: ms, hwf, fuel, flags, s, M, hmem, hfuel => by
    simp only [allSequencesNonEmpty, Bool.and_eq_true] at hwf
    obtain ⟨f1, s1, hm, hprop⟩ := Match_progress m hwf.1 fuel flags s M hmem hfuel
    by_cases hs1 : s1.hasMatch = true
    · exact ⟨f1, s1, by simp [oneOfLoop, Copy_present s M hmem, hm, hs1], hprop⟩
    · obtain ⟨f2, res, hres, hp2⟩ := oneOfLoop_progress ms hwf.2 fuel f1 s M hmem hfuel
      exact ⟨f2, res, by simp [oneOfLoop, Copy_present s M hmem, hm, hs1, hres], hp2⟩

/-- The loop of `tryAllMatcher.Match` returns a state; a matched one has no more tokens
than the state the loop ran from, fewer when `hasAnyMatch` was unset, and present
memory. -/
theorem tryAllLoop_progress : ∀ (ms : List Matcher), allSequencesNonEmpty ms = true →
    ∀ (fuel : Nat) (flags : OnceFlags) (s : matchState) (b : Bool) (M : AttrValues),
    s.memory = some ⟨some M⟩ → s.remainingTokens.length < fuel →
    ∃ flags1 res, tryAllLoop ms fuel flags s b = .ok (flags1, res) ∧
      (res.hasMatch = true →
        res.remainingTokens.length ≤ s.remainingTokens.length ∧
          (b = false → res.remainingTokens.length < s.remainingTokens.length) ∧
          ∃ M1, res.memory = some ⟨some M1⟩)
  | [], _, _, flags, s, b, M, hmem, _ => by
    by_cases hb : b = true
    · exact ⟨flags, s, by simp [tryAllLoop, hb],
        fun _ => ⟨le_refl _, fun h => (by rw [hb] at h; cases h), M, hmem⟩⟩
    · exact ⟨flags, NewMatchState false s.remainingTokens [] s.memory,
        by simp [tryAllLoop, hb], fun h => by simp [NewMatchState] at h⟩
  | m :: ms, hwf, fuel, flags, s, b, M, hmem, hfuel => by
    simp only [allSequencesNonEmpty, Bool.and_eq_true] at hwf
    obtain ⟨f1, s1, hm, hprop⟩ := Match_progress m hwf.1 fuel flags s M hmem hfuel
    by_cases hs1 : s1.hasMatch = true
    · obtain ⟨hlt, M1, hM1⟩ := hprop hs1
      obtain ⟨f2, res, hres, hp2⟩ :=
        tryAllLoop_progress ms hwf.2 fuel f1 s1 true M1 hM1 (by omega)
      refine ⟨f2, res, by simp [tryAllLoop, Copy_present s M hmem, hm, hs1, hres], ?_⟩
      intro h
      obtain ⟨h1, _, h3⟩ := hp2 h
      exact ⟨by omega, fun _ => by omega, h3⟩
    · obtain ⟨f2, res, hres, hp2⟩ := tryAllLoop_progress ms hwf.2 fuel f1 s b M hmem hfuel
      exact ⟨f2, res, by simp [tryAllLoop, Copy_present s M hmem, hm, hs1, hres], hp2⟩

end


/-! ## The literal-word and word-set matchers -/

/-- C15: for every literal `w` and input state with remaining tokens `t`, the literal-word
matcher returns a state; it matches iff `t` is non-empty and its first token is `w`; on a
match the remaining tokens are `t[1:]` and the memory is the input's; otherwise the state
has `hasMatch = false` and remaining tokens `t`. -/
theorem allowedWordMatcher_contract (w : String) (fuel : Nat) (flags : OnceFlags)
    (input : matchState) :
    ∃ res, Match (NewAllowedWordMatcher w) fuel flags input = .ok (flags, res) ∧
      (res.hasMatch = true ↔
        input.remainingTokens ≠ [] ∧ input.remainingTokens.head? = some w) ∧
      (res.hasMatch = true →
        res.remainingTokens = input.remainingTokens.drop 1 ∧ res.memory = input.memory) ∧
      (res.hasMatch = false → res.remainingTokens = input.remainingTokens) := by
  refine ⟨allowedWordMatch w input, by simp only [NewAllowedWordMatcher, Match], ?_⟩
  unfold allowedWordMatch
  by_cases ht : input.remainingTokens.length = 0
  · have hnil : input.remainingTokens = [] := List.length_eq_zero.mp ht
    simp [ht, NewMatchState, hnil]
  · have hne : input.remainingTokens ≠ [] := fun h => ht (by simp [h])
    by_cases hw : input.remainingTokens.head? = some w
    · simp [ht, hw, NewMatchState, hne]
    · simp [ht, hw, NewMatchState]

/-- What the loop of `allowedWordsMatcher.Match` returns, entered at length `n`: failure
when no prefix of length `1..n` is in the set, and otherwise the state built from the
longest such prefix. -/
theorem allowedWordsLoop_spec (words : List String) (o : options) (input : matchState)
    (t : List String) (n : Nat) :
    ((∀ j, 1 ≤ j → j ≤ n → Join (t.take j) " " ∉ words) ∧
      allowedWordsLoop words o input t n = NewMatchState false t [] input.memory) ∨
    (∃ k, 1 ≤ k ∧ k ≤ n ∧ Join (t.take k) " " ∈ words ∧
      (∀ j, k < j → j ≤ n → Join (t.take j) " " ∉ words) ∧
      allowedWordsLoop words o input t n = NewMatchState true (t.drop k)
        (if o.keepMatchedTokens then [Join (t.take k) " "] else []) input.memory) := by
  induction n with
  | zero =>
    left
    exact ⟨fun j h1 h2 => by omega, rfl⟩
  | succ i ih =>
    by_cases hc : Join (t.take (i + 1)) " " ∈ words
    · right
      refine ⟨i + 1, by omega, le_refl _, hc, fun j h1 h2 => by omega, ?_⟩
      have hb : words.contains (Join (t.take (i + 1)) " ") = true := by simpa using hc
      simp only [allowedWordsLoop, hb, if_true]
    · have hstep : allowedWordsLoop words o input t (i + 1)
          = allowedWordsLoop words o input t i := by
        simp [allowedWordsLoop, hc]
      rcases ih with ⟨hnone, hres⟩ | ⟨k, hk1, hk2, hkey, hmax, hres⟩
      · left
        refine ⟨fun j h1 h2 => ?_, by rw [hstep, hres]⟩
        by_cases hj : j = i + 1
        · rw [hj]; exact hc
        · exact hnone j h1 (by omega)
      · right
        refine ⟨k, hk1, by omega, hkey, fun j h1 h2 => ?_, by rw [hstep, hres]⟩
        by_cases hj : j = i + 1
        · rw [hj]; exact hc
        · exact hmax j h1 (by omega)

/-- C16: on a state with remaining tokens `t ≠ []`, the matcher built by
`NewAllowedWordsMatcher W` returns a state; it matches iff for some `k` in `1..len t` the
first `k` tokens joined by single spaces are in `W`; and when it matches it does so at the
largest such `k` over all prefix lengths: the remaining tokens are `t[k:]` and the memory
is the input's. -/
theorem allowedWordsMatcher_longest_match (W : List String) (opts : List MatcherOption)
    (fuel : Nat) (flags : OnceFlags) (input : matchState)
    (htok : input.remainingTokens ≠ []) :
    ∃ res, Match (NewAllowedWordsMatcher W opts) fuel flags input = .ok (flags, res) ∧
      (res.hasMatch = true ↔
        ∃ k, 1 ≤ k ∧ k ≤ input.remainingTokens.length ∧
          Join (input.remainingTokens.take k) " " ∈ W) ∧
      (res.hasMatch = true →
        ∃ k, 1 ≤ k ∧ k ≤ input.remainingTokens.length ∧
          Join (input.remainingTokens.take k) " " ∈ W ∧
          (∀ j, k < j → j ≤ input.remainingTokens.length →
            Join (input.remainingTokens.take j) " " ∉ W) ∧
          res.remainingTokens = input.remainingTokens.drop k ∧
          res.memory = input.memory) := by
  have ht : input.remainingTokens.length ≠ 0 := by
    intro h; exact htok (List.length_eq_zero.mp h)
  have hlong : ∀ j, j ≤ input.remainingTokens.length →
      Join (input.remainingTokens.take j) " " ∈ W →
      j ≤ min (maxKeyLengthOf W) input.remainingTokens.length := by
    intro j hj hmem
    have h1 := length_le_countKeyTokens_Join (input.remainingTokens.take j)
    have h2 := countKeyTokens_le_maxKeyLengthOf W _ hmem
    rw [List.length_take, Nat.min_eq_left hj] at h1
    exact Nat.le_min.mpr ⟨by omega, hj⟩
  refine ⟨allowedWordsMatch W (maxKeyLengthOf W) (applyOptions opts) input,
    by simp only [NewAllowedWordsMatcher, Match], ?_⟩
  unfold allowedWordsMatch
  simp only [ht, if_false]
  rcases allowedWordsLoop_spec W (applyOptions opts) input input.remainingTokens
      (min (maxKeyLengthOf W) input.remainingTokens.length) with
    ⟨hnone, hres⟩ | ⟨k, hk1, hk2, hkey, hmax, hres⟩
  · rw [hres]
    refine ⟨?_, ?_⟩
    · constructor
      · intro h; simp [NewMatchState] at h
      · rintro ⟨k, hk1, hk2, hkey⟩
        exact absurd hkey (hnone k hk1 (hlong k hk2 hkey))
    · intro h; simp [NewMatchState] at h
  · rw [hres]
    have hk3 : k ≤ input.remainingTokens.length := le_trans hk2 (Nat.min_le_right _ _)
    refine ⟨?_, ?_⟩
    · constructor
      · intro _; exact ⟨k, hk1, hk3, hkey⟩
      · intro _; rfl
    · intro _
      refine ⟨k, hk1, hk3, hkey, ?_, rfl, rfl⟩
      intro j h1 h2 hmem
      exact hmax j h1 (hlong j h2 hmem) hmem

/-- C16 on the word set "goes brr", "matcher" of the tests with the tokens
goes, brr, awesome: the two-word phrase is consumed. -/
theorem allowedWordsMatcher_longest_match_witness :
    (NewInitialState ["goes", "brr", "awesome"]).remainingTokens ≠ [] ∧
    observe [] (Match (NewAllowedWordsMatcher ["goes brr", "matcher", "goes"] []) 0
        (fun _ => false) (NewInitialState ["goes", "brr", "awesome"]))
      = some (true, ["awesome"], [], some []) ∧
    (∃ res, Match (NewAllowedWordsMatcher ["goes brr", "matcher", "goes"] []) 0
        (fun _ => false) (NewInitialState ["goes", "brr", "awesome"])
        = .ok (fun _ => false, res) ∧ res.hasMatch = true) :=
  ⟨by decide, rfl,
    (allowedWordsMatcher_longest_match ["goes brr", "matcher", "goes"] [] 0 (fun _ => false)
      (NewInitialState ["goes", "brr", "awesome"]) (by decide)).elim
      (fun res h => ⟨res, h.1, h.2.1.mpr ⟨2, by decide, by decide, by decide⟩⟩)⟩

/-! ## The once matcher -/

/-- The outer loop of `fullTextMatcher.Match` leaves unchanged every flag that its inner
loop leaves unchanged. -/
theorem fullTextLoop_flags_frame
    (pass : OnceFlags → matchState → Except Fault (OnceFlags × Option matchState))
    (r : Nat)
    (hpass : ∀ f st f1 x, pass f st = .ok (f1, x) → f1 r = f r)
    (n : Nat) (flags flags1 : OnceFlags) (s res : matchState)
    (h : fullTextLoop pass n flags s = .ok (flags1, res)) :
    flags1 r = flags r := by
  induction n generalizing flags s with
  | zero => simp [fullTextLoop] at h
  | succ n ih =>
    cases hp : pass flags s with
    | error e => simp [fullTextLoop, hp] at h
    | ok p =>
      obtain ⟨f2, x⟩ := p
      have hf2 := hpass flags s f2 x hp
      cases x with
      | none =>
        simp [fullTextLoop, hp] at h
        rw [← h.1, hf2]
      | some s1 =>
        by_cases hlen : s1.remainingTokens.length = 0
        · simp [fullTextLoop, hp, hlen] at h
          rw [← h.1, hf2]
        · simp only [fullTextLoop, hp, hlen, if_false] at h
          rw [ih f2 s1 h, hf2]

mutual

/-- A call of `Match` changes the flag of no `onceMatcher` instance outside the tree. -/
theorem Match_flags_frame : ∀ (m : Matcher) (fuel : Nat) (flags flags1 : OnceFlags)
    (s res : matchState) (r : Nat),
    Match m fuel flags s = .ok (flags1, res) → r ∉ m.onceRefs → flags1 r = flags r
  | .allowedWordMatcher _, _, _, _, _, _, _, h, _ => by
    simp only [Match, Except.ok.injEq, Prod.mk.injEq] at h
    rw [← h.1]
  | .allowedWordsMatcher _ _ _, _, _, _, _, _, _, h, _ => by
    simp only [Match, Except.ok.injEq, Prod.mk.injEq] at h
    rw [← h.1]
  | .dictMatcher d a o mk, _, _, _, s, _, _, h, _ => by
    simp only [Match] at h
    cases hd : dictMatch d a o mk s with
    | error e => simp [hd] at h
    | ok x =>
      simp only [hd, Except.ok.injEq, Prod.mk.injEq] at h
      rw [← h.1]
  | .anyOrderDictMatcher d a mk o, _, _, _, s, _, _, h, _ => by
    simp only [Match] at h
    cases hd : anyOrderDictMatch d a mk o s with
    | error e => simp [hd] at h
    | ok x =>
      simp only [hd, Except.ok.injEq, Prod.mk.injEq] at h
      rw [← h.1]
  | .sequenceMatcher words o, fuel, flags, flags1, s, res, r, h, hr => by
    simp only [Matcher.onceRefs] at hr
    by_cases ht : s.remainingTokens.length = 0
    · simp only [Match, ht, if_true, Except.ok.injEq, Prod.mk.injEq] at h
      rw [← h.1]
    · simp only [Match, ht, if_false] at h
      exact sequenceLoop_flags_frame words fuel o s.remainingTokens flags flags1 s res [] r h hr
  | .fullTextMatcher nodes, fuel, flags, flags1, s, res, r, h, hr => by
    simp only [Matcher.onceRefs] at hr
    simp only [Match] at h
    exact fullTextLoop_flags_frame _ r
      (fun f st f1 x hx => fullTextPass_flags_frame nodes fuel f f1 st x r hx hr)
      fuel flags flags1 s res h
  | .oneOfMatcher words, fuel, flags, flags1, s, res, r, h, hr => by
    simp only [Matcher.onceRefs] at hr
    simp only [Match] at h
    exact oneOfLoop_flags_frame words fuel flags flags1 s res r h hr
  | .onceMatcher ref matcher, fuel, flags, flags1, s, res, r, h, hr => by
    simp only [Matcher.onceRefs, List.mem_cons, not_or] at hr
    by_cases hf : flags ref = true
    · simp only [Match, hf, if_true, Except.ok.injEq, Prod.mk.injEq] at h
      rw [← h.1]
    · cases hcopy : Copy s with
      | error e => simp [Match, hf, hcopy] at h
      | ok copy =>
        cases hm : Match matcher fuel flags copy with
        | error e => simp [Match, hf, hcopy, hm] at h
        | ok p =>
          obtain ⟨f2, x⟩ := p
          have hf2 := Match_flags_frame matcher fuel flags f2 copy x r hm hr.2
          by_cases hx : x.hasMatch = true
          · simp [Match, hf, hcopy, hm, hx] at h
            rw [← h.1]
            simp [hr.1, hf2]
          · simp [Match, hf, hcopy, hm, hx] at h
            rw [← h.1, hf2]
  | .tryAllMatcher nodes, fuel, flags, flags1, s, res, r, h, hr => by
    simp only [Matcher.onceRefs] at hr
    simp only [Match] at h
    exact tryAllLoop_flags_frame nodes fuel flags flags1 s res false r h hr

/-- The loop of `sequenceMatcher.Match` changes no flag outside its matchers. -/
theorem sequenceLoop_flags_frame : ∀ (ms : List Matcher) (fuel : Nat) (o : options)
    (tokens : List String) (flags flags1 : OnceFlags) (s res : matchState)
    (acc : List String) (r : Nat),
    sequenceLoop ms fuel o tokens flags s acc = .ok (flags1, res) → r ∉ allOnceRefs ms →
    flags1 r = flags r
  | [], _, _, _, _, _, s, _, acc, _, h, _ => by
    by_cases hacc : acc.length > 0
    · simp only [sequenceLoop, hacc, if_true, Except.ok.injEq, Prod.mk.injEq] at h
      rw [← h.1]
    · simp only [sequenceLoop, hacc, if_false, Except.ok.injEq, Prod.mk.injEq] at h
      rw [← h.1]
  | m :: ms, fuel, o, tokens, flags, flags1, s, res, acc, r, h, hr => by
    simp only [allOnceRefs, List.mem_append, not_or] at hr
    cases hcopy : Copy s with
    | error e => simp [sequenceLoop, hcopy] at h
    | ok copy =>
      cases hm : Match m fuel flags copy with
      | error e => simp [sequenceLoop, hcopy, hm] at h
      | ok p =>
        obtain ⟨f2, x⟩ := p
        have hf2 := Match_flags_frame m fuel flags f2 copy x r hm hr.1
        simp only [sequenceLoop, hcopy, hm] at h
        by_cases hx : x.hasMatch = true
        · by_cases hk : o.keepMatchedTokens = true
          · simp only [hx, hk, Bool.not_true, Bool.false_eq_true, if_false] at h
            rw [sequenceLoop_flags_frame ms fuel o tokens f2 flags1 x res _ r h hr.2, hf2]
          · simp only [Bool.not_eq_true] at hk
            simp only [hx, hk, Bool.not_true, Bool.not_false, Bool.false_eq_true, if_false,
              if_true] at h
            rw [sequenceLoop_flags_frame ms fuel o tokens f2 flags1 x res _ r h hr.2, hf2]
        · simp [hx] at h
          rw [← h.1, hf2]

/-- The inner loop of `fullTextMatcher.Match` changes no flag outside its nodes. -/
theorem fullTextPass_flags_frame : ∀ (ms : List Matcher) (fuel : Nat)
    (flags flags1 : OnceFlags) (s : matchState) (x : Option matchState) (r : Nat),
    fullTextPass ms fuel flags s = .ok (flags1, x) → r ∉ allOnceRefs ms →
    flags1 r = flags r
  | [], _, _, _, _, _, _, h, _ => by
    simp only [fullTextPass, Except.ok.injEq, Prod.mk.injEq] at h
    rw [← h.1]
  | m :: ms, fuel, flags, flags1, s, x, r, h, hr => by
    simp only [allOnceRefs, List.mem_append, not_or] at hr
    cases hcopy : Copy s with
    | error e => simp [fullTextPass, hcopy] at h
    | ok copy =>
      cases hm : Match m fuel flags copy with
      | error e => simp [fullTextPass, hcopy, hm] at h
      | ok p =>
        obtain ⟨f2, y⟩ := p
        have hf2 := Match_flags_frame m fuel flags f2 copy y r hm hr.1
        simp only [fullTextPass, hcopy, hm] at h
        by_cases hy : y.hasMatch = true
        · simp [hy] at h
          rw [← h.1, hf2]
        · simp only [hy, if_false] at h
          rw [fullTextPass_flags_frame ms fuel f2 flags1 s x r h hr.2, hf2]

/-- The loop of `oneOfMatcher.Match` changes no flag outside its matchers. -/
theorem oneOfLoop_flags_frame : ∀ (ms : List Matcher) (fuel : Nat)
    (flags flags1 : OnceFlags) (s res : matchState) (r : Nat),
    oneOfLoop ms fuel flags s = .ok (flags1, res) → r ∉ allOnceRefs ms →
    flags1 r = flags r
  | [], _, _, _, _, _, _, h, _ => by
    simp only [oneOfLoop, Except.ok.injEq, Prod.mk.injEq] at h
    rw [← h.1]
  | m :: ms, fuel, flags, flags1, s, res, r, h, hr => by
    simp only [allOnceRefs, List.mem_append, not_or] at hr
    cases hcopy : Copy s with
    | error e => simp [oneOfLoop, hcopy] at h
    | ok copy =>
      cases hm : Match m fuel flags copy with
      | error e => simp [oneOfLoop, hcopy, hm] at h
      | ok p =>
        obtain ⟨f2, y⟩ := p
        have hf2 := Match_flags_frame m fuel flags f2 copy y r hm hr.1
        simp only [oneOfLoop, hcopy, hm] at h
        by_cases hy : y.hasMatch = true
        · simp [hy] at h
          rw [← h.1, hf2]
        · simp only [hy, if_false] at h
          rw [oneOfLoop_flags_frame ms fuel f2 flags1 s res r h hr.2, hf2]

/-- The loop of `tryAllMatcher.Match` changes no flag outside its nodes. -/
theorem tryAllLoop_flags_frame : ∀ (ms : List Matcher) (fuel : Nat)
    (flags flags1 : OnceFlags) (s res : matchState) (b : Bool) (r : Nat),
    tryAllLoop ms fuel flags s b = .ok (flags1, res) → r ∉ allOnceRefs ms →
    flags1 r = flags r
  | [], _, _, _, _, _, b, _, h, _ => by
    by_cases hb : b = true
    · simp [tryAllLoop, hb] at h
      rw [← h.1]
    · simp [tryAllLoop, hb] at h
      rw [← h.1]
  | m :: ms, fuel, flags, flags1, s, res, b, r, h, hr => by
    simp only [allOnceRefs, List.mem_append, not_or] at hr
    cases hcopy : Copy s with
    | error e => simp [tryAllLoop, hcopy] at h
    | ok copy =>
      cases hm : Match m fuel flags copy with
      | error e => simp [tryAllLoop, hcopy, hm] at h
      | ok p =>
        obtain ⟨f2, y⟩ := p
        have hf2 := Match_flags_frame m fuel flags f2 copy y r hm hr.1
        simp only [tryAllLoop, hcopy, hm] at h
        by_cases hy : y.hasMatch = true
        · simp only [hy, if_true] at h
          rw [tryAllLoop_flags_frame ms fuel f2 flags1 y res true r h hr.2, hf2]
        · simp only [hy, if_false] at h
          rw [tryAllLoop_flags_frame ms fuel f2 flags1 s res b r h hr.2, hf2]

end

/-- C11: for a `onceMatcher` instance `ref` around the child `c`:
(1) when its flag is set, a call returns `hasMatch = false` with the remaining tokens of
the input and no memory and leaves the flags as they are, whatever `c` and the input are
(`c` is not invoked);
(2) when its flag is unset and `c` matches on the copy of the input, the call returns the
result of `c` and sets the flag, changing no other flag that `c` left;
(3) when its flag is unset and `c` fails on the copy of the input, the call returns
`hasMatch = false` with the remaining tokens of the input and no memory, and the flag is
still unset (the instance is not part of its own child). -/
theorem onceMatcher_single_use (ref : Nat) (c : Matcher) (fuel : Nat) (flags : OnceFlags)
    (s : matchState) :
    (flags ref = true →
      Match (.onceMatcher ref c) fuel flags s
        = .ok (flags, NewMatchState false s.remainingTokens s.matchedTokens none)) ∧
    (∀ copy flags1 res, flags ref = false → Copy s = .ok copy →
      Match c fuel flags copy = .ok (flags1, res) → res.hasMatch = true →
      ∃ flags2, Match (.onceMatcher ref c) fuel flags s = .ok (flags2, res) ∧
        flags2 ref = true ∧ ∀ r, r ≠ ref → flags2 r = flags1 r) ∧
    (∀ copy flags1 res, flags ref = false → Copy s = .ok copy →
      Match c fuel flags copy = .ok (flags1, res) → res.hasMatch = false →
      ref ∉ c.onceRefs →
      ∃ out, Match (.onceMatcher ref c) fuel flags s = .ok (flags1, out) ∧
        flags1 ref = false ∧ out.hasMatch = false ∧
        out.remainingTokens = s.remainingTokens ∧ out.memory = none) := by
  refine ⟨?_, ?_, ?_⟩
  · intro hf
    simp [Match, hf]
  · intro copy flags1 res hf hcopy hc hres
    refine ⟨fun r => if r = ref then true else flags1 r, ?_, by simp, ?_⟩
    · simp [Match, hf, hcopy, hc, hres]
    · intro r hr
      simp [hr]
  · intro copy flags1 res hf hcopy hc hres hnot
    refine ⟨NewMatchState false s.remainingTokens s.matchedTokens none, ?_, ?_, rfl, rfl, rfl⟩
    · simp [Match, hf, hcopy, hc, hres]
    · rw [Match_flags_frame c fuel flags flags1 copy res ref hc hnot, hf]

/-- C11 on the test `TestOnceMatcher_Match`: the wrapper around the word lorem matches the
tokens lorem, lorem once, leaving one token and setting its flag; called again on the
result, whose first token is still lorem, it returns `hasMatch = false`. -/
theorem onceMatcher_single_use_witness :
    Match (.onceMatcher 0 (.allowedWordMatcher "lorem")) 0
        (fun r => if r = 0 then true else (fun _ => false) r)
        (NewMatchState true ["lorem"] [] (NewMemoryState (some (fun _ => none))))
      = .ok (fun r => if r = 0 then true else (fun _ => false) r,
          NewMatchState false ["lorem"] [] none) ∧
    (∃ flags2, Match (.onceMatcher 0 (.allowedWordMatcher "lorem")) 0 (fun _ => false)
        (NewInitialState ["lorem", "lorem"])
        = .ok (flags2, NewMatchState true ["lorem"] [] (NewMemoryState (some (fun _ => none)))) ∧
      flags2 0 = true ∧ ∀ r, r ≠ 0 → flags2 r = (fun _ => false) r) ∧
    (∃ out, Match (.onceMatcher 0 (.allowedWordMatcher "lorem")) 0 (fun _ => false)
        (NewInitialState ["ipsum"]) = .ok (fun _ => false, out) ∧
      (fun _ => false : OnceFlags) 0 = false ∧ out.hasMatch = false ∧
      out.remainingTokens = ["ipsum"] ∧ out.memory = none) :=
  ⟨(onceMatcher_single_use 0 (.allowedWordMatcher "lorem") 0
      (fun r => if r = 0 then true else (fun _ => false) r)
      (NewMatchState true ["lorem"] [] (NewMemoryState (some (fun _ => none))))).1 rfl,
    (onceMatcher_single_use 0 (.allowedWordMatcher "lorem") 0 (fun _ => false)
      (NewInitialState ["lorem", "lorem"])).2.1
      (NewInitialState ["lorem", "lorem"]) (fun _ => false)
      (NewMatchState true ["lorem"] [] (NewMemoryState (some (fun _ => none))))
      rfl rfl rfl rfl,
    (onceMatcher_single_use 0 (.allowedWordMatcher "lorem") 0 (fun _ => false)
      (NewInitialState ["ipsum"])).2.2
      (NewInitialState ["ipsum"]) (fun _ => false) (NewMatchState false ["ipsum"] [] none)
      rfl rfl rfl rfl (by simp [Matcher.onceRefs])⟩

/-! ## The try-all matcher -/

/-- The fold of the specification stays faulted once it has faulted. -/
theorem foldl_tryAllStep_error (ms : List Matcher) (fuel : Nat) (e : Fault) :
    ms.foldl (tryAllStep fuel) (.error e) = .error e := by
  induction ms with
  | nil => rfl
  | cons m ms ih => simpa [List.foldl_cons, tryAllStep] using ih

/-- The loop of `tryAllMatcher.Match` computes the fold of the specification from the
current state and `hasAnyMatch`, and then returns the current state when a child matched
and a failure carrying its remaining tokens and memory otherwise. -/
theorem tryAllLoop_eq_fold (ms : List Matcher) (fuel : Nat) (flags : OnceFlags)
    (s : matchState) (b : Bool) :
    tryAllLoop ms fuel flags s b =
      match ms.foldl (tryAllStep fuel) (.ok (flags, s, b)) with
      | .error e => .error e
      | .ok (flags1, current, anyMatched) =>
        if anyMatched then .ok (flags1, current)
        else .ok (flags1, NewMatchState false current.remainingTokens [] current.memory) := by
  induction ms generalizing flags s b with
  | nil => simp [tryAllLoop]
  | cons m ms ih =>
    simp only [List.foldl_cons]
    cases hcopy : Copy s with
    | error e => simp [tryAllLoop, tryAllStep, hcopy, foldl_tryAllStep_error]
    | ok copy =>
      cases hm : Match m fuel flags copy with
      | error e => simp [tryAllLoop, tryAllStep, hcopy, hm, foldl_tryAllStep_error]
      | ok p =>
        obtain ⟨flags1, r⟩ := p
        by_cases hr : r.hasMatch = true
        · simp only [tryAllLoop, tryAllStep, hcopy, hm, hr, if_true]
          exact ih flags1 r true
        · simp only [tryAllLoop, tryAllStep, hcopy, hm, hr, if_false]
          exact ih flags1 s b

/-- In the fold of the specification the current state has `hasMatch = true` once a child
has matched. -/
theorem foldl_tryAllStep_matched (ms : List Matcher) (fuel : Nat)
    (flags flags1 : OnceFlags) (s current : matchState) (b anyMatched : Bool)
    (hb : b = true → s.hasMatch = true)
    (h : ms.foldl (tryAllStep fuel) (.ok (flags, s, b)) = .ok (flags1, current, anyMatched)) :
    (anyMatched = true → current.hasMatch = true) ∧
      (anyMatched = false → b = false ∧ current = s) := by
  induction ms generalizing flags s b with
  | nil =>
    simp only [List.foldl_nil, Except.ok.injEq, Prod.mk.injEq] at h
    obtain ⟨_, h2, h3⟩ := h
    subst h2 h3
    exact ⟨hb, fun h0 => ⟨h0, rfl⟩⟩
  | cons m ms ih =>
    simp only [List.foldl_cons] at h
    cases hcopy : Copy s with
    | error e => simp [tryAllStep, hcopy, foldl_tryAllStep_error] at h
    | ok copy =>
      cases hm : Match m fuel flags copy with
      | error e => simp [tryAllStep, hcopy, hm, foldl_tryAllStep_error] at h
      | ok p =>
        obtain ⟨f2, r⟩ := p
        by_cases hr : r.hasMatch = true
        · simp only [tryAllStep, hcopy, hm, hr, if_true] at h
          obtain ⟨h1, h2⟩ := ih f2 r true (fun _ => hr) h
          refine ⟨h1, fun h0 => ?_⟩
          have := (h2 h0).1
          cases this
        · simp only [tryAllStep, hcopy, hm, hr, if_false] at h
          exact ih f2 s b hb h

/-- C12: the Try-All matcher computes the left fold `tryAllFold` over its children
(starting with `current = input`, each child is matched on a copy of `current`, which is
replaced by the child's state exactly when the child matched): it faults when the fold
does, and otherwise returns, with the flags the fold ends in, a state whose `hasMatch`
tells whether a child matched and whose remaining tokens and memory are those of the final
`current`; that state is the final `current` itself when a child matched, and `current` is
still the input when none did. -/
theorem tryAllMatcher_left_fold (nodes : List Matcher) (fuel : Nat) (flags : OnceFlags)
    (s : matchState) :
    (∀ e, tryAllFold nodes fuel flags s = .error e →
      Match (.tryAllMatcher nodes) fuel flags s = .error e) ∧
    (∀ flags1 current anyMatched,
      tryAllFold nodes fuel flags s = .ok (flags1, current, anyMatched) →
      ∃ res, Match (.tryAllMatcher nodes) fuel flags s = .ok (flags1, res) ∧
        res.hasMatch = anyMatched ∧
        res.remainingTokens = current.remainingTokens ∧ res.memory = current.memory ∧
        (anyMatched = true → res = current) ∧ (anyMatched = false → current = s)) := by
  have hloop := tryAllLoop_eq_fold nodes fuel flags s false
  constructor
  · intro e he
    unfold tryAllFold at he
    simp only [Match, hloop, he]
  · intro flags1 current anyMatched hfold
    unfold tryAllFold at hfold
    obtain ⟨h1, h2⟩ := foldl_tryAllStep_matched nodes fuel flags flags1 s current false
      anyMatched (fun h => by cases h) hfold
    cases hany : anyMatched with
    | true =>
      refine ⟨current, by simp [Match, hloop, hfold, hany], h1 hany, rfl, rfl,
        fun _ => rfl, fun h => (by cases h)⟩
    | false =>
      refine ⟨NewMatchState false current.remainingTokens [] current.memory,
        by simp [Match, hloop, hfold, hany], rfl, rfl, rfl, fun h => (by cases h),
        fun _ => (h2 hany).2⟩

/-- C12 on the children of the test: the any-order dictionaries снять -> 1 for attribute 1
and посуточно -> 2 for attribute 2 over the tokens снять, квартиру, посуточно give the
memory 1 -> 1, 2 -> 2 and the remaining token квартиру. -/
theorem tryAllMatcher_left_fold_witness :
    observe [1, 2, 3]
      (Match (NewTryAllMatcher [NewAnyOrderDictMatcher [("снять", [1])] 1 [],
          NewAnyOrderDictMatcher [("посуточно", [2])] 2 []]) 0 (fun _ => false)
        (NewInitialState ["снять", "квартиру", "посуточно"]))
      = some (true, ["квартиру"], [], some [some [1], some [2], none]) ∧
    (∃ res, Match (.tryAllMatcher [NewAnyOrderDictMatcher [("снять", [1])] 1 [],
          NewAnyOrderDictMatcher [("посуточно", [2])] 2 []]) 0 (fun _ => false)
        (NewInitialState ["снять", "квартиру", "посуточно"]) = .ok (fun _ => false, res) ∧
      res.hasMatch = true ∧ res.remainingTokens = ["квартиру"] ∧
      res.memory = some ⟨some (fun j => if j = 2 then some [2] else
        if j = 1 then some [1] else none)⟩) :=
  ⟨rfl,
    ((tryAllMatcher_left_fold [NewAnyOrderDictMatcher [("снять", [1])] 1 [],
        NewAnyOrderDictMatcher [("посуточно", [2])] 2 []] 0 (fun _ => false)
      (NewInitialState ["снять", "квартиру", "посуточно"])).2 (fun _ => false)
      (NewMatchState true ["квартиру"] []
        (some ⟨some (fun j => if j = 2 then some [2] else
          if j = 1 then some [1] else none)⟩)) true rfl).elim
      (fun res h => ⟨res, h.1, h.2.1, h.2.2.1, h.2.2.2.1⟩)⟩

/-- The loop of `tryAllMatcher.Match` over nodes that all fail, with `hasAnyMatch` unset,
returns the failure that carries the memory of the state it ran from. -/
theorem tryAllLoop_all_fail (ms : List Matcher) (fuel : Nat) (flags flags1 : OnceFlags)
    (s copy : matchState) (hcopy : Copy s = .ok copy)
    (h : AllFail fuel copy ms flags flags1) :
    tryAllLoop ms fuel flags s false
      = .ok (flags1, NewMatchState false s.remainingTokens [] s.memory) := by
  induction h with
  | nil flags => simp [tryAllLoop]
  | cons m0 ms flags flags1 flags2 r0 hm0 hr0 _ ih =>
    simp [tryAllLoop, hcopy, hm0, hr0, ih]

/-- C13, as amended: when every child of a Try-All matcher returns `hasMatch = false` on
the copy of the input state `s`, the matcher returns `hasMatch = false`, the remaining
tokens of `s`, no matched tokens, and the memory of `s` itself, with every attribute value
it held (an empty memory only when the memory of `s` was empty). -/
theorem tryAllMatcher_failure_keeps_input_memory (nodes : List Matcher) (fuel : Nat)
    (flags flags1 : OnceFlags) (s copy : matchState) (hcopy : Copy s = .ok copy)
    (hfail : AllFail fuel copy nodes flags flags1) :
    ∃ res, Match (.tryAllMatcher nodes) fuel flags s = .ok (flags1, res) ∧
      res.hasMatch = false ∧ res.remainingTokens = s.remainingTokens ∧
      res.matchedTokens = [] ∧ res.memory = s.memory := by
  refine ⟨NewMatchState false s.remainingTokens [] s.memory, ?_, rfl, rfl, rfl, rfl⟩
  simp only [Match]
  exact tryAllLoop_all_fail nodes fuel flags flags1 s copy hcopy hfail

/-- C13 applied to the Try-All matcher over the words x and y on the token a with the
memory 100 -> 1000. -/
theorem tryAllMatcher_failure_keeps_input_memory_witness :
    Copy (NewMatchState false ["a"] []
        (NewMemoryState (some (fun k => if k = 100 then some [1000] else none))))
      = .ok (NewMatchState false ["a"] []
        (NewMemoryState (some (fun k => if k = 100 then some [1000] else none)))) ∧
    (∃ res, Match (.tryAllMatcher [.allowedWordMatcher "x", .allowedWordMatcher "y"]) 0
        (fun _ => false)
        (NewMatchState false ["a"] []
          (NewMemoryState (some (fun k => if k = 100 then some [1000] else none))))
        = .ok (fun _ => false, res) ∧
      res.hasMatch = false ∧ res.remainingTokens = ["a"] ∧ res.matchedTokens = [] ∧
      res.memory = NewMemoryState (some (fun k => if k = 100 then some [1000] else none))) :=
  ⟨rfl,
    tryAllMatcher_failure_keeps_input_memory
      [.allowedWordMatcher "x", .allowedWordMatcher "y"] 0 (fun _ => false) (fun _ => false)
      (NewMatchState false ["a"] []
        (NewMemoryState (some (fun k => if k = 100 then some [1000] else none))))
      (NewMatchState false ["a"] []
        (NewMemoryState (some (fun k => if k = 100 then some [1000] else none))))
      rfl
      (AllFail.cons _ _ _ (fun _ => false) _ (NewMatchState false ["a"] [] none) rfl rfl
        (AllFail.cons _ _ _ (fun _ => false) _ (NewMatchState false ["a"] [] none) rfl rfl
          (AllFail.nil _)))⟩

/-- C13 as stated fails: the Try-All matcher over the words x and y, on the token a with
the memory 100 -> 1000, has both children fail and returns `hasMatch = false` with a
memory that still holds 100 -> 1000; it is not empty. -/
theorem tryAllMatcher_failure_memory_counterexample :
    observe [] (Match (.allowedWordMatcher "x") 0 (fun _ => false)
        (NewMatchState false ["a"] []
          (NewMemoryState (some (fun k => if k = 100 then some [1000] else none)))))
      = some (false, ["a"], [], none) ∧
    observe [] (Match (.allowedWordMatcher "y") 0 (fun _ => false)
        (NewMatchState false ["a"] []
          (NewMemoryState (some (fun k => if k = 100 then some [1000] else none)))))
      = some (false, ["a"], [], none) ∧
    observe [100] (Match (.tryAllMatcher [.allowedWordMatcher "x", .allowedWordMatcher "y"]) 0
        (fun _ => false)
        (NewMatchState false ["a"] []
          (NewMemoryState (some (fun k => if k = 100 then some [1000] else none)))))
      = some (false, ["a"], [], some [some [1000]]) :=
  ⟨rfl, rfl, rfl⟩

/-! ## The remaining tokens of a failure -/

/-- A failure returned by `allowedWordMatcher.Match` carries the tokens of its input. -/
theorem allowedWordMatch_failed_tokens (w : String) (s : matchState)
    (hres : (allowedWordMatch w s).hasMatch = false) :
    (allowedWordMatch w s).remainingTokens = s.remainingTokens := by
  unfold allowedWordMatch at hres ⊢
  by_cases ht : s.remainingTokens.length = 0
  · simp [ht, NewMatchState]
  · by_cases hw : s.remainingTokens.head? = some w
    · simp [ht, hw, NewMatchState] at hres
    · simp [ht, hw, NewMatchState]

/-- A failure returned by the loop of `dictMatcher.Match` carries the tokens it ran on. -/
theorem dictLoop_failed_tokens (d : Dict) (a : AttributeID) (o : options) (t : List String)
    (mem : Option AttrValues) (n : Nat) (res : matchState)
    (h : dictLoop d a o t mem n = .ok res) (hres : res.hasMatch = false) :
    res.remainingTokens = t := by
  induction n with
  | zero =>
    simp only [dictLoop, Except.ok.injEq] at h
    rw [← h]; rfl
  | succ i ih =>
    cases hl : d.lookup (Join (t.take (i + 1)) " ") with
    | none =>
      simp only [dictLoop, hl] at h
      exact ih h
    | some vals =>
      cases ha : appendValues mem a vals with
      | error e => simp [dictLoop, hl, ha] at h
      | ok mem1 =>
        simp only [dictLoop, hl, ha, Except.ok.injEq] at h
        rw [← h] at hres
        simp [NewMatchState] at hres

/-- The inner loop of `anyOrderDictMatcher.Match` returns no failure state. -/
theorem anyOrderOffsets_matched (d : Dict) (a : AttributeID) (o : options)
    (t : List String) (mem : Option AttrValues) (L n off : Nat) (res : matchState)
    (h : anyOrderOffsets d a o t mem L n off = some (.ok res)) : res.hasMatch = true := by
  induction n generalizing off with
  | zero => simp [anyOrderOffsets] at h
  | succ i ih =>
    cases hl : d.lookup (Join ((t.drop off).take L) " ") with
    | none =>
      simp only [anyOrderOffsets, hl] at h
      exact ih (off + 1) h
    | some vals =>
      cases ha : appendValues mem a vals with
      | error e => simp [anyOrderOffsets, hl, ha] at h
      | ok mem1 =>
        simp only [anyOrderOffsets, hl, ha, Option.some.injEq, Except.ok.injEq] at h
        rw [← h]; rfl

/-- A failure returned by the loops of `anyOrderDictMatcher.Match` carries the tokens they
ran on. -/
theorem anyOrderLoop_failed_tokens (d : Dict) (a : AttributeID) (o : options)
    (t : List String) (mem : Option AttrValues) (n : Nat) (res : matchState)
    (h : anyOrderLoop d a o t mem n = .ok res) (hres : res.hasMatch = false) :
    res.remainingTokens = t := by
  induction n with
  | zero =>
    simp only [anyOrderLoop, Except.ok.injEq] at h
    rw [← h]; rfl
  | succ i ih =>
    cases ho : anyOrderOffsets d a o t mem (i + 1) (t.length + 1 - (i + 1)) 0 with
    | none =>
      simp only [anyOrderLoop, ho] at h
      exact ih h
    | some r =>
      simp only [anyOrderLoop, ho] at h
      rw [h] at ho
      have := anyOrderOffsets_matched d a o t mem (i + 1) _ 0 res ho
      rw [this] at hres
      cases hres

/-- A failure returned by the loop of `allowedWordsMatcher.Match` carries the tokens it ran
on. -/
theorem allowedWordsLoop_failed_tokens (words : List String) (o : options)
    (input : matchState) (t : List String) (n : Nat)
    (hres : (allowedWordsLoop words o input t n).hasMatch = false) :
    (allowedWordsLoop words o input t n).remainingTokens = t := by
  rcases allowedWordsLoop_spec words o input t n with ⟨_, h⟩ | ⟨k, _, _, _, _, h⟩
  · rw [h]; rfl
  · rw [h] at hres
    simp [NewMatchState] at hres

/-- A failure returned by the loop of `sequenceMatcher.Match` carries the tokens saved at
entry, or is the state the loop ran from, returned as it came. -/
theorem sequenceLoop_failed_tokens (ms : List Matcher) (fuel : Nat) (o : options)
    (tokens : List String) (flags flags1 : OnceFlags) (s res : matchState)
    (acc : List String)
    (h : sequenceLoop ms fuel o tokens flags s acc = .ok (flags1, res))
    (hres : res.hasMatch = false) :
    res.remainingTokens = tokens ∨
      (res.remainingTokens = s.remainingTokens ∧ s.hasMatch = false) := by
  induction ms generalizing flags s acc with
  | nil =>
    right
    by_cases hacc : acc.length > 0
    · simp only [sequenceLoop, hacc, if_true, Except.ok.injEq, Prod.mk.injEq] at h
      rw [← h.2] at hres ⊢
      exact ⟨rfl, hres⟩
    · simp only [sequenceLoop, hacc, if_false, Except.ok.injEq, Prod.mk.injEq] at h
      rw [← h.2] at hres ⊢
      exact ⟨rfl, hres⟩
  | cons m ms ih =>
    cases hcopy : Copy s with
    | error e => simp [sequenceLoop, hcopy] at h
    | ok copy =>
      cases hm : Match m fuel flags copy with
      | error e => simp [sequenceLoop, hcopy, hm] at h
      | ok p =>
        obtain ⟨f2, x⟩ := p
        simp only [sequenceLoop, hcopy, hm] at h
        by_cases hx : x.hasMatch = true
        · have hrec : ∃ acc1, sequenceLoop ms fuel o tokens f2 x acc1 = .ok (flags1, res) := by
            by_cases hk : o.keepMatchedTokens = true
            · simp only [hx, hk, Bool.not_true, Bool.false_eq_true, if_false] at h
              exact ⟨_, h⟩
            · simp only [Bool.not_eq_true] at hk
              simp only [hx, hk, Bool.not_true, Bool.not_false, Bool.false_eq_true, if_false,
                if_true] at h
              exact ⟨_, h⟩
          obtain ⟨acc1, h1⟩ := hrec
          rcases ih f2 x acc1 h1 with h2 | ⟨_, h3⟩
          · exact Or.inl h2
          · rw [hx] at h3; cases h3
        · simp [hx] at h
          left
          rw [← h.2]; rfl

/-- A failure returned by the loop of `oneOfMatcher.Match` carries the tokens of the state
it ran on. -/
theorem oneOfLoop_failed_tokens (ms : List Matcher) (fuel : Nat) (flags flags1 : OnceFlags)
    (s res : matchState) (h : oneOfLoop ms fuel flags s = .ok (flags1, res))
    (hres : res.hasMatch = false) : res.remainingTokens = s.remainingTokens := by
  induction ms generalizing flags with
  | nil =>
    simp only [oneOfLoop, Except.ok.injEq, Prod.mk.injEq] at h
    rw [← h.2]; rfl
  | cons m ms ih =>
    cases hcopy : Copy s with
    | error e => simp [oneOfLoop, hcopy] at h
    | ok copy =>
      cases hm : Match m fuel flags copy with
      | error e => simp [oneOfLoop, hcopy, hm] at h
      | ok p =>
        obtain ⟨f2, x⟩ := p
        simp only [oneOfLoop, hcopy, hm] at h
        by_cases hx : x.hasMatch = true
        · simp [hx] at h
          rw [← h.2, hx] at hres
          cases hres
        · simp only [hx, if_false] at h
          exact ih f2 h

/-- A failure returned by the loop of `tryAllMatcher.Match` carries the tokens of the state
it ran from, and then no node matched. -/
theorem tryAllLoop_failed_tokens (ms : List Matcher) (fuel : Nat) (flags flags1 : OnceFlags)
    (s res : matchState) (b : Bool) (hb : b = true → s.hasMatch = true)
    (h : tryAllLoop ms fuel flags s b = .ok (flags1, res)) (hres : res.hasMatch = false) :
    b = false ∧ res.remainingTokens = s.remainingTokens := by
  induction ms generalizing flags s b with
  | nil =>
    cases b with
    | true =>
      simp [tryAllLoop] at h
      rw [← h.2, hb rfl] at hres
      cases hres
    | false =>
      simp [tryAllLoop] at h
      rw [← h.2]
      exact ⟨rfl, rfl⟩
  | cons m ms ih =>
    cases hcopy : Copy s with
    | error e => simp [tryAllLoop, hcopy] at h
    | ok copy =>
      cases hm : Match m fuel flags copy with
      | error e => simp [tryAllLoop, hcopy, hm] at h
      | ok p =>
        obtain ⟨f2, x⟩ := p
        simp only [tryAllLoop, hcopy, hm] at h
        by_cases hx : x.hasMatch = true
        · simp only [hx, if_true] at h
          have := (ih f2 x true (fun _ => hx) h).1
          cases this
        · simp only [hx, if_false] at h
          exact ih f2 s b hb h

/-- The state the inner loop of `fullTextMatcher.Match` gives has `hasMatch = true`. -/
theorem fullTextPass_some_hasMatch (ms : List Matcher) (fuel : Nat)
    (flags flags1 : OnceFlags) (s s1 : matchState)
    (h : fullTextPass ms fuel flags s = .ok (flags1, some s1)) : s1.hasMatch = true := by
  induction ms generalizing flags with
  | nil => simp [fullTextPass] at h
  | cons m ms ih =>
    cases hcopy : Copy s with
    | error e => simp [fullTextPass, hcopy] at h
    | ok copy =>
      cases hm : Match m fuel flags copy with
      | error e => simp [fullTextPass, hcopy, hm] at h
      | ok q =>
        obtain ⟨f3, y⟩ := q
        simp only [fullTextPass, hcopy, hm] at h
        by_cases hy : y.hasMatch = true
        · simp [hy] at h
          rw [← h.2]; rfl
        · simp only [hy, if_false] at h
          exact ih f3 h

/-- A failure returned by the outer loop of `fullTextMatcher.Match` carries the tokens of
the state reached by the iterations that matched, at which the inner loop found no
match. -/
theorem fullTextLoop_failed_tokens (nodes : List Matcher) (fuel n : Nat)
    (flags flags1 : OnceFlags) (s res : matchState)
    (h : fullTextLoop (fun f st => fullTextPass nodes fuel f st) n flags s = .ok (flags1, res))
    (hres : res.hasMatch = false) :
    ∃ k flagsk sk, PassesTo nodes fuel k flags s flagsk sk ∧
      fullTextPass nodes fuel flagsk sk = .ok (flags1, none) ∧
      res.remainingTokens = sk.remainingTokens := by
  induction n generalizing flags s with
  | zero => simp [fullTextLoop] at h
  | succ n ih =>
    cases hp : fullTextPass nodes fuel flags s with
    | error e => simp [fullTextLoop, hp] at h
    | ok p =>
      obtain ⟨f2, x⟩ := p
      cases x with
      | none =>
        simp [fullTextLoop, hp] at h
        refine ⟨0, flags, s, PassesTo.refl flags s, ?_, ?_⟩
        · rw [hp, h.1]
        · rw [← h.2]; rfl
      | some s1 =>
        have hs1 : s1.hasMatch = true :=
          fullTextPass_some_hasMatch nodes fuel flags f2 s s1 hp
        by_cases hlen : s1.remainingTokens.length = 0
        · simp [fullTextLoop, hp, hlen] at h
          rw [← h.2, hs1] at hres
          cases hres
        · simp only [fullTextLoop, hp, hlen, if_false] at h
          obtain ⟨k, flagsk, sk, hpasses, hlast, hrem⟩ := ih f2 s1 h
          exact ⟨k + 1, flagsk, sk,
            PassesTo.step k flags f2 flagsk s s1 sk hp
              (fun h0 => hlen (by simp [h0])) hpasses, hlast, hrem⟩

/-- C14, as amended: when `Match` returns a state with `hasMatch = false`,
(1) for a matcher of any of the eight kinds other than full-text, the returned remaining
tokens are those of the input state;
(2) for a full-text matcher, they are those of the state its loop reached by the iterations
in which a child matched, at which no child matches any more; this is the input state only
when no iteration matched. -/
theorem failed_match_remaining_tokens (m : Matcher) (fuel : Nat) (flags flags1 : OnceFlags)
    (s res : matchState) (h : Match m fuel flags s = .ok (flags1, res))
    (hres : res.hasMatch = false) :
    (m.isFullText = false → res.remainingTokens = s.remainingTokens) ∧
    (∀ nodes, m = .fullTextMatcher nodes →
      ∃ k flagsk sk, PassesTo nodes fuel k flags s flagsk sk ∧
        fullTextPass nodes fuel flagsk sk = .ok (flags1, none) ∧
        res.remainingTokens = sk.remainingTokens) := by
  constructor
  · intro hkind
    cases m with
    | fullTextMatcher nodes => simp [Matcher.isFullText] at hkind
    | allowedWordMatcher w =>
      simp only [Match, Except.ok.injEq, Prod.mk.injEq] at h
      rw [← h.2] at hres ⊢
      exact allowedWordMatch_failed_tokens w s hres
    | allowedWordsMatcher words mk o =>
      simp only [Match, Except.ok.injEq, Prod.mk.injEq] at h
      rw [← h.2] at hres ⊢
      unfold allowedWordsMatch at hres ⊢
      by_cases ht : s.remainingTokens.length = 0
      · simp [ht, NewMatchState]
      · simp only [ht, if_false] at hres ⊢
        exact allowedWordsLoop_failed_tokens words o s s.remainingTokens _ hres
    | dictMatcher d a o mk =>
      simp only [Match] at h
      cases hd : dictMatch d a o mk s with
      | error e => simp [hd] at h
      | ok x =>
        simp only [hd, Except.ok.injEq, Prod.mk.injEq] at h
        rw [← h.2] at hres ⊢
        unfold dictMatch at hd
        by_cases ht : s.remainingTokens.length = 0
        · simp only [ht, if_true, Except.ok.injEq] at hd
          rw [← hd]; rfl
        · simp only [ht, if_false] at hd
          cases hg : GetStorage s.memory with
          | error e => simp [hg] at hd
          | ok mem =>
            simp only [hg] at hd
            exact dictLoop_failed_tokens d a o s.remainingTokens mem _ x hd hres
    | anyOrderDictMatcher d a mk o =>
      simp only [Match] at h
      cases hd : anyOrderDictMatch d a mk o s with
      | error e => simp [hd] at h
      | ok x =>
        simp only [hd, Except.ok.injEq, Prod.mk.injEq] at h
        rw [← h.2] at hres ⊢
        unfold anyOrderDictMatch at hd
        by_cases ht : s.remainingTokens.length = 0
        · simp only [ht, if_true, Except.ok.injEq] at hd
          rw [← hd]; rfl
        · simp only [ht, if_false] at hd
          cases hg : GetStorage s.memory with
          | error e => simp [hg] at hd
          | ok mem =>
            simp only [hg] at hd
            exact anyOrderLoop_failed_tokens d a o s.remainingTokens mem _ x hd hres
    | sequenceMatcher words o =>
      by_cases ht : s.remainingTokens.length = 0
      · simp only [Match, ht, if_true, Except.ok.injEq, Prod.mk.injEq] at h
        rw [← h.2]; rfl
      · simp only [Match, ht, if_false] at h
        rcases sequenceLoop_failed_tokens words fuel o s.remainingTokens flags flags1 s res []
          h hres with h1 | ⟨h1, _⟩
        · exact h1
        · exact h1
    | oneOfMatcher words =>
      simp only [Match] at h
      exact oneOfLoop_failed_tokens words fuel flags flags1 s res h hres
    | onceMatcher ref c =>
      by_cases hf : flags ref = true
      · simp only [Match, hf, if_true, Except.ok.injEq, Prod.mk.injEq] at h
        rw [← h.2]; rfl
      · cases hcopy : Copy s with
        | error e => simp [Match, hf, hcopy] at h
        | ok copy =>
          cases hm : Match c fuel flags copy with
          | error e => simp [Match, hf, hcopy, hm] at h
          | ok p =>
            obtain ⟨f2, x⟩ := p
            by_cases hx : x.hasMatch = true
            · simp [Match, hf, hcopy, hm, hx] at h
              rw [← h.2, hx] at hres
              cases hres
            · simp [Match, hf, hcopy, hm, hx] at h
              rw [← h.2]; rfl
    | tryAllMatcher nodes =>
      simp only [Match] at h
      exact (tryAllLoop_failed_tokens nodes fuel flags flags1 s res false
        (fun h0 => by cases h0) h hres).2
  · intro nodes hm
    subst hm
    simp only [Match] at h
    exact fullTextLoop_failed_tokens nodes fuel fuel flags flags1 s res h hres

/-- C14 applied to the sequence lorem, ipsum, dolor on the tokens lorem, dolor, negative
(it fails at its second child and returns the three input tokens) and to the full-text
matcher over the words lorem, ipsum, dolor on lorem, unknown, dolor (it fails after one
matching iteration). -/
theorem failed_match_remaining_tokens_witness :
    (Match (.sequenceMatcher [.allowedWordMatcher "lorem", .allowedWordMatcher "ipsum",
        .allowedWordMatcher "dolor"] {}) 0 (fun _ => false)
        (NewInitialState ["lorem", "dolor", "negative"])
      = .ok (fun _ => false, NewMatchState false ["lorem", "dolor", "negative"] [] none) ∧
      (NewMatchState false ["lorem", "dolor", "negative"] [] none).hasMatch = false ∧
      (NewMatchState false ["lorem", "dolor", "negative"] [] none).remainingTokens
        = (NewInitialState ["lorem", "dolor", "negative"]).remainingTokens) ∧
    (∃ k flagsk sk,
      PassesTo [.allowedWordMatcher "lorem", .allowedWordMatcher "ipsum",
        .allowedWordMatcher "dolor"] 5 k (fun _ => false)
        (NewInitialState ["lorem", "unknown", "dolor"]) flagsk sk ∧
      fullTextPass [.allowedWordMatcher "lorem", .allowedWordMatcher "ipsum",
        .allowedWordMatcher "dolor"] 5 flagsk sk = .ok (fun _ => false, none) ∧
      (NewMatchState false ["unknown", "dolor"] [] none).remainingTokens
        = sk.remainingTokens) :=
  ⟨⟨rfl, rfl,
      (failed_match_remaining_tokens
        (.sequenceMatcher [.allowedWordMatcher "lorem", .allowedWordMatcher "ipsum",
          .allowedWordMatcher "dolor"] {}) 0 (fun _ => false) (fun _ => false)
        (NewInitialState ["lorem", "dolor", "negative"])
        (NewMatchState false ["lorem", "dolor", "negative"] [] none) rfl rfl).1 rfl⟩,
    (failed_match_remaining_tokens
      (.fullTextMatcher [.allowedWordMatcher "lorem", .allowedWordMatcher "ipsum",
        .allowedWordMatcher "dolor"]) 5 (fun _ => false) (fun _ => false)
      (NewInitialState ["lorem", "unknown", "dolor"])
      (NewMatchState false ["unknown", "dolor"] [] none) rfl rfl).2 _ rfl⟩

/-- C14 as stated fails for the full-text matcher: over the words lorem, ipsum, dolor, on
the initial state of the tokens lorem, unknown, dolor, it returns `hasMatch = false` with
the remaining tokens unknown, dolor, which are not the three tokens of the input. -/
theorem fullTextMatcher_failure_tokens_counterexample :
    Match (.fullTextMatcher [.allowedWordMatcher "lorem", .allowedWordMatcher "ipsum",
        .allowedWordMatcher "dolor"]) 5 (fun _ => false)
        (NewInitialState ["lorem", "unknown", "dolor"])
      = .ok (fun _ => false, NewMatchState false ["unknown", "dolor"] [] none) ∧
    (NewMatchState false ["unknown", "dolor"] [] none).hasMatch = false ∧
    (NewMatchState false ["unknown", "dolor"] [] none).remainingTokens
      ≠ (NewInitialState ["lorem", "unknown", "dolor"]).remainingTokens ∧
    (NewInitialState ["lorem", "unknown", "dolor"]).memory
      = some ⟨some (fun _ => none)⟩ :=
  ⟨rfl, rfl, by decide, rfl⟩

/-! ## What a match keeps: memory is only appended to, tokens are only removed -/

theorem Extends_refl (M : AttrValues) : Extends M M :=
  fun _ l h => ⟨[], by simpa using h⟩

theorem Extends_trans (M M1 M2 : AttrValues) (h1 : Extends M M1) (h2 : Extends M1 M2) :
    Extends M M2 := by
  intro a l h
  obtain ⟨more1, hm1⟩ := h1 a l h
  obtain ⟨more2, hm2⟩ := h2 a _ hm1
  exact ⟨more1 ++ more2, by rw [hm2, List.append_assoc]⟩

/-- The map after `appendValues` extends the map before it. -/
theorem Extends_append (M : AttrValues) (a : AttributeID) (vals : List ValueID) :
    Extends M (fun j => if j = a then some ((M a).getD [] ++ vals) else M j) := by
  intro x l h
  by_cases hx : x = a
  · subst hx
    exact ⟨vals, by simp [h]⟩
  · exact ⟨[], by simp [hx, h]⟩

theorem Keeps_refl (b : Bool) (s : matchState) (M : AttrValues)
    (hmem : s.memory = some ⟨some M⟩) : Keeps b s s :=
  ⟨⟨M, M, hmem, hmem, Extends_refl M⟩, List.Sublist.refl _, fun _ => List.suffix_refl _⟩

theorem Keeps_trans (b1 b2 : Bool) (s s1 res : matchState) (h1 : Keeps b1 s s1)
    (h2 : Keeps b2 s1 res) : Keeps (b1 && b2) s res := by
  obtain ⟨⟨M, M1, hM, hM1, hext1⟩, hsub1, hsuf1⟩ := h1
  obtain ⟨⟨M1', M2, hM1', hM2, hext2⟩, hsub2, hsuf2⟩ := h2
  have heq : M1' = M1 := by
    rw [hM1] at hM1'
    simpa using hM1'.symm
  subst heq
  refine ⟨⟨M, M2, hM, hM2, Extends_trans M M1' M2 hext1 hext2⟩, hsub2.trans hsub1, ?_⟩
  intro hb
  simp only [Bool.and_eq_true] at hb
  exact (hsuf2 hb.2).trans (hsuf1 hb.1)

/-- The relation `Keeps` reads only the memory and the remaining tokens of the result. -/
theorem Keeps_congr (b : Bool) (s res res1 : matchState) (h : Keeps b s res)
    (hrem : res1.remainingTokens = res.remainingTokens) (hmem : res1.memory = res.memory) :
    Keeps b s res1 := by
  unfold Keeps at h ⊢
  rw [hrem, hmem]
  exact h

/-- A matched state of `allowedWordMatcher.Match` keeps its input. -/
theorem allowedWordMatch_keeps (word : String) (s : matchState) (M : AttrValues)
    (hmem : s.memory = some ⟨some M⟩) (h : (allowedWordMatch word s).hasMatch = true) :
    Keeps true s (allowedWordMatch word s) := by
  unfold allowedWordMatch at h ⊢
  by_cases ht : s.remainingTokens.length = 0
  · simp [ht, NewMatchState] at h
  · by_cases hw : s.remainingTokens.head? = some word
    · simp only [ht, hw, if_false, if_true, NewMatchState]
      exact ⟨⟨M, M, hmem, hmem, Extends_refl M⟩, List.drop_sublist _ _,
        fun _ => List.drop_suffix _ _⟩
    · simp [ht, hw, NewMatchState] at h

/-- A matched state of `allowedWordsMatcher.Match` keeps its input. -/
theorem allowedWordsMatch_keeps (words : List String) (mk : Nat) (o : options)
    (s : matchState) (M : AttrValues) (hmem : s.memory = some ⟨some M⟩)
    (h : (allowedWordsMatch words mk o s).hasMatch = true) :
    Keeps true s (allowedWordsMatch words mk o s) := by
  unfold allowedWordsMatch at h ⊢
  by_cases ht : s.remainingTokens.length = 0
  · simp [ht, NewMatchState] at h
  · simp only [ht, if_false] at h ⊢
    rcases allowedWordsLoop_spec words o s s.remainingTokens
        (min mk s.remainingTokens.length) with ⟨_, hres⟩ | ⟨k, _, _, _, _, hres⟩
    · rw [hres] at h
      simp [NewMatchState] at h
    · rw [hres]
      exact ⟨⟨M, M, hmem, hmem, Extends_refl M⟩, List.drop_sublist _ _,
        fun _ => List.drop_suffix _ _⟩

/-- A matched state of `dictMatcher.Match` keeps its input. -/
theorem dictMatch_keeps (d : Dict) (a : AttributeID) (o : options) (mk : Nat)
    (s res : matchState) (M : AttrValues) (hmem : s.memory = some ⟨some M⟩)
    (h : dictMatch d a o mk s = .ok res) (hres : res.hasMatch = true) :
    Keeps true s res := by
  unfold dictMatch at h
  by_cases ht : s.remainingTokens.length = 0
  · simp only [ht, if_true, Except.ok.injEq] at h
    rw [← h] at hres
    simp [NewMatchState] at hres
  · simp only [ht, if_false, hmem, GetStorage] at h
    rcases dictLoop_spec d a o s.remainingTokens M
        (if o.calculateNeedleLength then min mk s.remainingTokens.length
          else s.remainingTokens.length) with
      ⟨_, hl⟩ | ⟨k, vals, _, _, _, _, hl⟩
    · rw [hl] at h
      simp only [Except.ok.injEq] at h
      rw [← h] at hres
      simp [NewMatchState] at hres
    · rw [hl] at h
      simp only [Except.ok.injEq] at h
      rw [← h]
      exact ⟨⟨M, _, hmem, rfl, Extends_append M a vals⟩, List.drop_sublist _ _,
        fun _ => List.drop_suffix _ _⟩

/-- A matched state of `anyOrderDictMatcher.Match` keeps its input, with the remaining
tokens a sublist of the input's. -/
theorem anyOrderDictMatch_keeps (d : Dict) (a : AttributeID) (mk : Nat) (o : options)
    (s res : matchState) (M : AttrValues) (hmem : s.memory = some ⟨some M⟩)
    (h : anyOrderDictMatch d a mk o s = .ok res) (hres : res.hasMatch = true) :
    Keeps false s res := by
  unfold anyOrderDictMatch at h
  by_cases ht : s.remainingTokens.length = 0
  · simp only [ht, if_true, Except.ok.injEq] at h
    rw [← h] at hres
    simp [NewMatchState] at hres
  · simp only [ht, if_false, hmem, GetStorage] at h
    rcases anyOrderLoop_spec d a o s.remainingTokens M
        (min s.remainingTokens.length mk) (Nat.min_le_left _ _) with
      ⟨_, hl⟩ | ⟨L, p, vals, _, _, hp, _, _, _, hl⟩
    · rw [hl] at h
      simp only [Except.ok.injEq] at h
      rw [← h] at hres
      simp [NewMatchState] at hres
    · rw [hl] at h
      simp only [Except.ok.injEq] at h
      rw [← h]
      refine ⟨⟨M, _, hmem, rfl, Extends_append M a vals⟩, ?_, fun hb => by cases hb⟩
      show (calculateRemainingTokens s.remainingTokens p L).Sublist s.remainingTokens
      rw [calculateRemainingTokens_eq _ p L hp]
      have h1 : (s.remainingTokens.take p ++ s.remainingTokens.drop (p + L)).Sublist
          (s.remainingTokens.take p ++ s.remainingTokens.drop p) := by
        apply List.Sublist.append_left
        rw [← List.drop_drop]
        exact List.drop_sublist _ _
      rwa [List.take_append_drop] at h1

/-- With an inner loop whose matches keep the state they ran on, a matched state returned
by the outer loop of `fullTextMatcher.Match` keeps the state the loop started from. -/
theorem fullTextLoop_keeps
    (pass : OnceFlags → matchState → Except Fault (OnceFlags × Option matchState))
    (b : Bool)
    (hpass : ∀ f st M f1 s1, st.memory = some ⟨some M⟩ → pass f st = .ok (f1, some s1) →
      Keeps b st s1)
    (n : Nat) (flags flags1 : OnceFlags) (s res : matchState) (M : AttrValues)
    (hmem : s.memory = some ⟨some M⟩)
    (h : fullTextLoop pass n flags s = .ok (flags1, res)) (hres : res.hasMatch = true) :
    Keeps b s res := by
  induction n generalizing flags s M with
  | zero => simp [fullTextLoop] at h
  | succ n ih =>
    cases hp : pass flags s with
    | error e => simp [fullTextLoop, hp] at h
    | ok p =>
      obtain ⟨f2, x⟩ := p
      cases x with
      | none =>
        simp [fullTextLoop, hp] at h
        rw [← h.2] at hres
        simp [NewMatchState] at hres
      | some s1 =>
        have hk := hpass flags s M f2 s1 hmem hp
        by_cases hlen : s1.remainingTokens.length = 0
        · simp [fullTextLoop, hp, hlen] at h
          rw [← h.2]
          exact hk
        · simp only [fullTextLoop, hp, hlen, if_false] at h
          obtain ⟨⟨_, M1, _, hM1, _⟩, _, _⟩ := id hk
          have := Keeps_trans b b s s1 res hk (ih f2 s1 M1 hM1 h)
          simpa using this

mutual

/-- A matched state returned by `Match` on a state with present memory keeps that state:
its memory is present and extends the input's, its remaining tokens are a sublist of the
input's, and a suffix of them when the tree has no any-order dictionary matcher. -/
theorem Match_keeps : ∀ (m : Matcher) (fuel : Nat) (flags flags1 : OnceFlags)
    (s res : matchState) (M : AttrValues), s.memory = some ⟨some M⟩ →
    Match m fuel flags s = .ok (flags1, res) → res.hasMatch = true →
    Keeps m.noAnyOrder s res
  | .allowedWordMatcher word, _, _, _, s, res, M, hmem, h, hres => by
    simp only [Match, Except.ok.injEq, Prod.mk.injEq] at h
    rw [← h.2] at hres ⊢
    exact allowedWordMatch_keeps word s M hmem hres
  | .allowedWordsMatcher words mk o, _, _, _, s, res, M, hmem, h, hres => by
    simp only [Match, Except.ok.injEq, Prod.mk.injEq] at h
    rw [← h.2] at hres ⊢
    exact allowedWordsMatch_keeps words mk o s M hmem hres
  | .dictMatcher d a o mk, _, _, _, s, res, M, hmem, h, hres => by
    simp only [Match] at h
    cases hd : dictMatch d a o mk s with
    | error e => simp [hd] at h
    | ok x =>
      simp only [hd, Except.ok.injEq, Prod.mk.injEq] at h
      rw [← h.2] at hres ⊢
      exact dictMatch_keeps d a o mk s x M hmem hd hres
  | .anyOrderDictMatcher d a mk o, _, _, _, s, res, M, hmem, h, hres => by
    simp only [Match] at h
    cases hd : anyOrderDictMatch d a mk o s with
    | error e => simp [hd] at h
    | ok x =>
      simp only [hd, Except.ok.injEq, Prod.mk.injEq] at h
      rw [← h.2] at hres ⊢
      exact anyOrderDictMatch_keeps d a mk o s x M hmem hd hres
  | .sequenceMatcher words o, fuel, flags, flags1, s, res, M, hmem, h, hres => by
    simp only [Matcher.noAnyOrder]
    by_cases ht : s.remainingTokens.length = 0
    · simp only [Match, ht, if_true, Except.ok.injEq, Prod.mk.injEq] at h
      rw [← h.2] at hres
      simp [NewMatchState] at hres
    · simp only [Match, ht, if_false] at h
      exact sequenceLoop_keeps words fuel o s.remainingTokens flags flags1 s res [] M hmem h hres
  | .fullTextMatcher nodes, fuel, flags, flags1, s, res, M, hmem, h, hres => by
    simp only [Matcher.noAnyOrder]
    simp only [Match] at h
    exact fullTextLoop_keeps _ _
      (fun f st M1 f1 s1 hM1 hp => fullTextPass_keeps nodes fuel f f1 st s1 M1 hM1 hp)
      fuel flags flags1 s res M hmem h hres
  | .oneOfMatcher words, fuel, flags, flags1, s, res, M, hmem, h, hres => by
    simp only [Matcher.noAnyOrder]
    simp only [Match] at h
    exact oneOfLoop_keeps words fuel flags flags1 s res M hmem h hres
  | .onceMatcher ref c, fuel, flags, flags1, s, res, M, hmem, h, hres => by
    simp only [Matcher.noAnyOrder]
    by_cases hf : flags ref = true
    · simp only [Match, hf, if_true, Except.ok.injEq, Prod.mk.injEq] at h
      rw [← h.2] at hres
      simp [NewMatchState] at hres
    · cases hm : Match c fuel flags s with
      | error e => simp [Match, hf, Copy_present s M hmem, hm] at h
      | ok p =>
        obtain ⟨f2, x⟩ := p
        by_cases hx : x.hasMatch = true
        · simp [Match, hf, Copy_present s M hmem, hm, hx] at h
          rw [← h.2]
          exact Match_keeps c fuel flags f2 s x M hmem hm hx
        · simp [Match, hf, Copy_present s M hmem, hm, hx] at h
          rw [← h.2] at hres
          simp [NewMatchState] at hres
  | .tryAllMatcher nodes, fuel, flags, flags1, s, res, M, hmem, h, hres => by
    simp only [Matcher.noAnyOrder]
    simp only [Match] at h
    exact tryAllLoop_keeps nodes fuel flags flags1 s res false M hmem h hres

/-- A matched state returned by the loop of `sequenceMatcher.Match` keeps the state the
loop ran from. -/
theorem sequenceLoop_keeps : ∀ (ms : List Matcher) (fuel : Nat) (o : options)
    (tokens : List String) (flags flags1 : OnceFlags) (s res : matchState)
    (acc : List String) (M : AttrValues), s.memory = some ⟨some M⟩ →
    sequenceLoop ms fuel o tokens flags s acc = .ok (flags1, res) → res.hasMatch = true →
    Keeps (allNoAnyOrder ms) s res
  | [], _, _, _, _, _, s, res, acc, M, hmem, h, _ => by
    by_cases hacc : acc.length > 0
    · simp only [sequenceLoop, hacc, if_true, Except.ok.injEq, Prod.mk.injEq] at h
      rw [← h.2]
      exact Keeps_congr _ s s _ (Keeps_refl _ s M hmem) rfl rfl
    · simp only [sequenceLoop, hacc, if_false, Except.ok.injEq, Prod.mk.injEq] at h
      rw [← h.2]
      exact Keeps_refl _ s M hmem
  | m :: ms, fuel, o, tokens, flags, flags1, s, res, acc, M, hmem, h, hres => by
    simp only [allNoAnyOrder]
    cases hm : Match m fuel flags s with
    | error e => simp [sequenceLoop, Copy_present s M hmem, hm] at h
    | ok p =>
      obtain ⟨f2, x⟩ := p
      simp only [sequenceLoop, Copy_present s M hmem, hm] at h
      by_cases hx : x.hasMatch = true
      · have hk := Match_keeps m fuel flags f2 s x M hmem hm hx
        obtain ⟨⟨_, M1, _, hM1, _⟩, _, _⟩ := id hk
        by_cases hko : o.keepMatchedTokens = true
        · simp only [hx, hko, Bool.not_true, Bool.false_eq_true, if_false] at h
          exact Keeps_trans _ _ s x res hk
            (sequenceLoop_keeps ms fuel o tokens f2 flags1 x res _ M1 hM1 h hres)
        · simp only [Bool.not_eq_true] at hko
          simp only [hx, hko, Bool.not_true, Bool.not_false, Bool.false_eq_true, if_false,
            if_true] at h
          exact Keeps_trans _ _ s x res hk
            (sequenceLoop_keeps ms fuel o tokens f2 flags1 x res _ M1 hM1 h hres)
      · simp [hx] at h
        rw [← h.2] at hres
        simp [NewMatchState] at hres

/-- The state the inner loop of `fullTextMatcher.Match` gives keeps the state the loop ran
on. -/
theorem fullTextPass_keeps : ∀ (ms : List Matcher) (fuel : Nat) (flags flags1 : OnceFlags)
    (s s1 : matchState) (M : AttrValues), s.memory = some ⟨some M⟩ →
    fullTextPass ms fuel flags s = .ok (flags1, some s1) →
    Keeps (allNoAnyOrder ms) s s1
  | [], _, _, _, _, _, _, _, h => by simp [fullTextPass] at h
  | m :: ms, fuel, flags, flags1, s, s1, M, hmem, h => by
    simp only [allNoAnyOrder]
    cases hm : Match m fuel flags s with
    | error e => simp [fullTextPass, Copy_present s M hmem, hm] at h
    | ok p =>
      obtain ⟨f2, x⟩ := p
      simp only [fullTextPass, Copy_present s M hmem, hm] at h
      by_cases hx : x.hasMatch = true
      · simp [hx] at h
        have hk := Match_keeps m fuel flags f2 s x M hmem hm hx
        have hk1 : Keeps m.noAnyOrder s s1 := by
          rw [← h.2]
          exact Keeps_congr _ s x _ hk rfl rfl
        have := Keeps_trans _ (allNoAnyOrder ms) s s1 s1 hk1
          (Keeps_refl _ s1 _ hk1.1.choose_spec.choose_spec.2.1)
        exact this
      · simp only [hx, if_false] at h
        have hk := fullTextPass_keeps ms fuel f2 flags1 s s1 M hmem h
        have := Keeps_trans m.noAnyOrder _ s s s1 (Keeps_refl _ s M hmem) hk
        exact this

/-- A matched state returned by the loop of `oneOfMatcher.Match` keeps the state the loop
ran on. -/
theorem oneOfLoop_keeps : ∀ (ms : List Matcher) (fuel : Nat) (flags flags1 : OnceFlags)
    (s res : matchState) (M : AttrValues), s.memory = some ⟨some M⟩ →
    oneOfLoop ms fuel flags s = .ok (flags1, res) → res.hasMatch = true →
    Keeps (allNoAnyOrder ms) s res
  | [], _, _, _, s, res, _, _, h, hres => by
    simp only [oneOfLoop, Except.ok.injEq, Prod.mk.injEq] at h
    rw [← h.2] at hres
    simp [NewMatchState] at hres
  | m :: ms, fuel, flags, flags1, s, res, M, hmem, h, hres => by
    simp only [allNoAnyOrder]
    cases hm : Match m fuel flags s with
    | error e => simp [oneOfLoop, Copy_present s M hmem, hm] at h
    | ok p =>
      obtain ⟨f2, x⟩ := p
      simp only [oneOfLoop, Copy_present s M hmem, hm] at h
      by_cases hx : x.hasMatch = true
      · simp [hx] at h
        rw [← h.2]
        have hk := Match_keeps m fuel flags f2 s x M hmem hm hx
        exact Keeps_trans _ (allNoAnyOrder ms) s x x hk
          (Keeps_refl _ x _ hk.1.choose_spec.choose_spec.2.1)
      · simp only [hx, if_false] at h
        have hk := oneOfLoop_keeps ms fuel f2 flags1 s res M hmem h hres
        exact Keeps_trans m.noAnyOrder _ s s res (Keeps_refl _ s M hmem) hk

/-- A matched state returned by the loop of `tryAllMatcher.Match` keeps the state the loop
ran from. -/
theorem tryAllLoop_keeps : ∀ (ms : List Matcher) (fuel : Nat) (flags flags1 : OnceFlags)
    (s res : matchState) (b : Bool) (M : AttrValues), s.memory = some ⟨some M⟩ →
    tryAllLoop ms fuel flags s b = .ok (flags1, res) → res.hasMatch = true →
    Keeps (allNoAnyOrder ms) s res
  | [], _, _, _, s, res, b, M, hmem, h, hres => by
    cases b with
    | true =>
      simp [tryAllLoop] at h
      rw [← h.2]
      exact Keeps_refl _ s M hmem
    | false =>
      simp [tryAllLoop] at h
      rw [← h.2] at hres
      simp [NewMatchState] at hres
  | m :: ms, fuel, flags, flags1, s, res, b, M, hmem, h, hres => by
    simp only [allNoAnyOrder]
    cases hm : Match m fuel flags s with
    | error e => simp [tryAllLoop, Copy_present s M hmem, hm] at h
    | ok p =>
      obtain ⟨f2, x⟩ := p
      simp only [tryAllLoop, Copy_present s M hmem, hm] at h
      by_cases hx : x.hasMatch = true
      · simp only [hx, if_true] at h
        have hk := Match_keeps m fuel flags f2 s x M hmem hm hx
        obtain ⟨⟨_, M1, _, hM1, _⟩, _, _⟩ := id hk
        exact Keeps_trans _ _ s x res hk
          (tryAllLoop_keeps ms fuel f2 flags1 x res true M1 hM1 h hres)
      · simp only [hx, if_false] at h
        have hk := tryAllLoop_keeps ms fuel f2 flags1 s res b M hmem h hres
        exact Keeps_trans m.noAnyOrder _ s s res (Keeps_refl _ s M hmem) hk

end

/-- On value lists, that is for a memory in which no two lists share a backing array: for
every matcher tree and every input state with present memory `M`, if `Match` returns a state
with `hasMatch = true`, its memory is present, `M1` say, and every attribute `a` of `M` is an
attribute of `M1` whose list is `M[a]` followed by further values.  With lists that share a
backing array this fails, as the section on appending to such a list shows. -/
theorem matched_memory_only_appended (m : Matcher) (fuel : Nat) (flags flags1 : OnceFlags)
    (s res : matchState) (M : AttrValues) (hmem : s.memory = some ⟨some M⟩)
    (h : Match m fuel flags s = .ok (flags1, res)) (hres : res.hasMatch = true) :
    ∃ M1, res.memory = some ⟨some M1⟩ ∧
      ∀ a l, M a = some l → ∃ more, M1 a = some (l ++ more) := by
  obtain ⟨⟨M0, M1, hM0, hM1, hext⟩, _, _⟩ := Match_keeps m fuel flags flags1 s res M hmem h hres
  have heq : M0 = M := by
    rw [hmem] at hM0
    simpa using hM0.symm
  subst heq
  exact ⟨M1, hM1, hext⟩

/-- Values only appended, on the full-text matcher over the dictionary lorem -> 1,
ipsum -> 2, dolor -> 3 for attribute 100500, on the tokens dolor, lorem, ipsum with the
memory 100500 -> 9, 7 -> 70, whose lists share no storage: the result holds
100500 -> 9, 3, 1, 2 and 7 -> 70. -/
theorem matched_memory_only_appended_witness :
    (NewMatchState false ["dolor", "lorem", "ipsum"] []
      (NewMemoryState (some (fun k =>
        if k = 100500 then some [9] else if k = 7 then some [70] else none)))).memory
      = some ⟨some (fun k =>
        if k = 100500 then some [9] else if k = 7 then some [70] else none)⟩ ∧
    observe [100500, 7, 8]
      (Match (.fullTextMatcher [.dictMatcher [("lorem", [1]), ("ipsum", [2]), ("dolor", [3])]
        100500 {} 0]) 5 (fun _ => false)
        (NewMatchState false ["dolor", "lorem", "ipsum"] []
          (NewMemoryState (some (fun k =>
            if k = 100500 then some [9] else if k = 7 then some [70] else none)))))
      = some (true, [], [], some [some [9, 3, 1, 2], some [70], none]) ∧
    (∃ flags1 res,
      Match (.fullTextMatcher [.dictMatcher [("lorem", [1]), ("ipsum", [2]), ("dolor", [3])]
        100500 {} 0]) 5 (fun _ => false)
        (NewMatchState false ["dolor", "lorem", "ipsum"] []
          (NewMemoryState (some (fun k =>
            if k = 100500 then some [9] else if k = 7 then some [70] else none))))
        = .ok (flags1, res) ∧ res.hasMatch = true ∧
      ∃ M1, res.memory = some ⟨some M1⟩ ∧
        ∀ a l, (if a = 100500 then some [9] else if a = 7 then some [70] else none) = some l →
          ∃ more, M1 a = some (l ++ more)) :=
  ⟨rfl, rfl, fun _ => false, _, rfl, rfl,
    matched_memory_only_appended
      (.fullTextMatcher [.dictMatcher [("lorem", [1]), ("ipsum", [2]), ("dolor", [3])]
        100500 {} 0]) 5 (fun _ => false) (fun _ => false)
      (NewMatchState false ["dolor", "lorem", "ipsum"] []
        (NewMemoryState (some (fun k =>
          if k = 100500 then some [9] else if k = 7 then some [70] else none))))
      _ _ rfl rfl rfl⟩

/-- C19: for every matcher tree and every input state with present memory and remaining
tokens `t`, if `Match` returns a state with `hasMatch = true`, its remaining tokens are an
order-preserving sublist of `t`, and a suffix of `t` when the tree contains no any-order
dictionary matcher. -/
theorem matched_remaining_tokens_sublist (m : Matcher) (fuel : Nat)
    (flags flags1 : OnceFlags) (s res : matchState) (M : AttrValues)
    (hmem : s.memory = some ⟨some M⟩)
    (h : Match m fuel flags s = .ok (flags1, res)) (hres : res.hasMatch = true) :
    res.remainingTokens.Sublist s.remainingTokens ∧
      (m.noAnyOrder = true → res.remainingTokens <:+ s.remainingTokens) :=
  (Match_keeps m fuel flags flags1 s res M hmem h hres).2

/-- C19 on the any-order dictionary of the tests (the remaining tokens снять, у, моря are
a sublist, not a suffix, of the input) and on the sequence lorem, ipsum over the tokens
lorem, ipsum, dolor (the remaining token dolor is a suffix). -/
theorem matched_remaining_tokens_sublist_witness :
    (observe [1]
        (Match (.anyOrderDictMatcher [("2 или 3 комнатная", [2, 3])] 1 4 {}) 0 (fun _ => false)
          (NewInitialState ["снять", "2", "или", "3", "комнатная", "у", "моря"]))
        = some (true, ["снять", "у", "моря"], [], some [some [2, 3]]) ∧
      (["снять", "у", "моря"] : List String).Sublist
        ["снять", "2", "или", "3", "комнатная", "у", "моря"]) ∧
    ((Matcher.sequenceMatcher [.allowedWordMatcher "lorem", .allowedWordMatcher "ipsum"]
        {}).noAnyOrder = true ∧
      ["dolor"] <:+ (NewInitialState ["lorem", "ipsum", "dolor"]).remainingTokens) :=
  ⟨⟨rfl,
      (matched_remaining_tokens_sublist
        (.anyOrderDictMatcher [("2 или 3 комнатная", [2, 3])] 1 4 {}) 0 (fun _ => false)
        (fun _ => false)
        (NewInitialState ["снять", "2", "или", "3", "комнатная", "у", "моря"])
        (NewMatchState true ["снять", "у", "моря"] []
          (some ⟨some (fun j => if j = 1 then some [2, 3] else none)⟩))
        (fun _ => none) rfl rfl rfl).1⟩,
    ⟨rfl,
      (matched_remaining_tokens_sublist
        (.sequenceMatcher [.allowedWordMatcher "lorem", .allowedWordMatcher "ipsum"] {})
        0 (fun _ => false) (fun _ => false) (NewInitialState ["lorem", "ipsum", "dolor"])
        (NewMatchState true ["dolor"] [] (NewMemoryState (some (fun _ => none))))
        (fun _ => none) rfl rfl rfl).2 rfl⟩⟩

/-! ## The matched tokens of a sequence -/

/-- With `KeepMatchedTokens`, the loop of `sequenceMatcher.Match` over children that all
match returns the tokens collected so far followed by the matched tokens of the children
still to run. -/
theorem sequenceLoop_keep_tokens (ms : List Matcher) (fuel : Nat) (o : options)
    (hkeep : o.keepMatchedTokens = true) (tokens : List String)
    (flags flagsn : OnceFlags) (s sn : matchState) (toks acc : List String)
    (h : AllMatchTokens fuel ms flags s flagsn sn toks)
    (hinv : acc = [] → ms = [] → s.matchedTokens = []) :
    ∃ res, sequenceLoop ms fuel o tokens flags s acc = .ok (flagsn, res) ∧
      res.matchedTokens = acc ++ toks := by
  induction h generalizing acc with
  | nil flags s =>
    by_cases hacc : acc.length > 0
    · exact ⟨NewMatchState s.hasMatch s.remainingTokens acc s.memory,
        by simp only [sequenceLoop, hacc, if_true], by simp [NewMatchState]⟩
    · have hnil : acc = [] := by
        cases acc with
        | nil => rfl
        | cons x xs => simp at hacc
      exact ⟨s, by simp only [sequenceLoop, hacc, if_false], by simp [hnil, hinv hnil rfl]⟩
  | cons m ms flags flags1 flagsn s copy s1 sn toks hcopy hm hs1 _ ih =>
    obtain ⟨res, hres, htoks⟩ := ih (acc ++ s1.matchedTokens) (fun h0 _ => by
      simp only [List.append_eq_nil] at h0
      exact h0.2)
    refine ⟨res, ?_, by rw [htoks, List.append_assoc]⟩
    simp [sequenceLoop, hcopy, hm, hs1, hkeep, hres]

/-- With `KeepMatchedTokens`, a sequence with at least one child, all of whose children
match, returns as matched tokens the concatenation, in child order, of the matched tokens
returned by each child. -/
theorem sequenceMatcher_keep_concatenates (ms : List Matcher) (hne : ms ≠ []) (o : options)
    (hkeep : o.keepMatchedTokens = true) (fuel : Nat) (flags flagsn : OnceFlags)
    (s sn : matchState) (toks : List String) (htok : s.remainingTokens ≠ [])
    (h : AllMatchTokens fuel ms flags s flagsn sn toks) :
    ∃ res, Match (.sequenceMatcher ms o) fuel flags s = .ok (flagsn, res) ∧
      res.matchedTokens = toks := by
  have ht : s.remainingTokens.length ≠ 0 := by
    intro h0; exact htok (List.length_eq_zero.mp h0)
  obtain ⟨res, hres, htoks⟩ := sequenceLoop_keep_tokens ms fuel o hkeep s.remainingTokens
    flags flagsn s sn toks [] h (fun _ h0 => absurd h0 hne)
  exact ⟨res, by simp [Match, ht, hres], by simpa using htoks⟩

/-- C20 fails on the code: the sequence built without `KeepMatchedTokens` over the
dictionaries this -> 3 and is -> 4, both built with `KeepMatchedTokens`, matches the tokens
this, is and returns the matched tokens of its last child, is; they are neither absent nor
the concatenation this, is, which the same sequence built with `KeepMatchedTokens`
returns. -/
theorem sequenceMatcher_without_keep_returns_last_child_tokens :
    observe [] (Match (NewSequenceMatcher
        [NewDictMatcher [("this", [3])] 1 [KeepMatchedTokens],
          NewDictMatcher [("is", [4])] 2 [KeepMatchedTokens]] []) 0 (fun _ => false)
        (NewInitialState ["this", "is"]))
      = some (true, [], ["is"], some []) ∧
    observe [] (Match (NewSequenceMatcher
        [NewDictMatcher [("this", [3])] 1 [KeepMatchedTokens],
          NewDictMatcher [("is", [4])] 2 [KeepMatchedTokens]] [KeepMatchedTokens]) 0
        (fun _ => false) (NewInitialState ["this", "is"]))
      = some (true, [], ["this", "is"], some []) ∧
    (applyOptions []).keepMatchedTokens = false :=
  ⟨rfl, rfl, rfl⟩

/-! ## What `Copy` shares -/

/-- The map made by `Copy` holds, at every key, the slice that the copied map holds: the
same attributes with the same lists, each list in the same backing array. -/
theorem copyStorage_same_slices (h : Heap) (mapAddr : Nat) (k : AttributeID)
    (hlt : mapAddr < h.maps.length) :
    (h.copyStorage mapAddr).1.lookup (h.copyStorage mapAddr).2 k = h.lookup mapAddr k ∧
      (h.copyStorage mapAddr).1.lookup mapAddr k = h.lookup mapAddr k ∧
      (h.copyStorage mapAddr).1.arrays = h.arrays ∧
      (h.copyStorage mapAddr).2 ≠ mapAddr := by
  refine ⟨?_, ?_, rfl, ?_⟩
  · simp [Heap.copyStorage, Heap.lookup, List.getD_eq_getElem?_getD]
  · simp [Heap.copyStorage, Heap.lookup, List.getD_eq_getElem?_getD,
      List.getElem?_append_left hlt]
  · simp only [Heap.copyStorage]
    omega

/-- C17 fails on the code: the state `s` holds, at attribute 1, a list of one value with
capacity two (`make([]ValueID, 1, 2)`), in the map at address 0.  `Copy(s)` makes the map
at address 1, whose list at attribute 1 is a slice of the same array.  After a dictionary
matcher appends 7 at attribute 1 of `s`, the list of `s` reads 0, 7; after a dictionary
matcher appends 9 at attribute 1 of the copy, the list of `s` reads 0, 9: an append to the
memory of the copy has changed a value list reachable from `s`. -/
theorem copy_shares_value_lists :
    (Heap.copyStorage ⟨[[0, 0]], [[(1, ⟨0, 0, 1, 2⟩)]]⟩ 0).2 = 1 ∧
    ((Heap.copyStorage ⟨[[0, 0]], [[(1, ⟨0, 0, 1, 2⟩)]]⟩ 0).1.appendStorage 0 1 [7]).read 0 1
      = some [0, 7] ∧
    ((Heap.copyStorage ⟨[[0, 0]], [[(1, ⟨0, 0, 1, 2⟩)]]⟩ 0).1.appendStorage 0 1 [7]).read 1 1
      = some [0] ∧
    (((Heap.copyStorage ⟨[[0, 0]], [[(1, ⟨0, 0, 1, 2⟩)]]⟩ 0).1.appendStorage 0 1
        [7]).appendStorage 1 1 [9]).read 0 1
      = some [0, 9] ∧
    (((Heap.copyStorage ⟨[[0, 0]], [[(1, ⟨0, 0, 1, 2⟩)]]⟩ 0).1.appendStorage 0 1
        [7]).appendStorage 1 1 [9]).read 1 1
      = some [0, 9] := by
  decide

/-! ## Empty remaining tokens -/

mutual

/-- On a state with present memory and no remaining tokens, with at least one iteration of
the loops allowed, `Match` returns a state with `hasMatch = false`. -/
theorem Match_empty_fails : ∀ (m : Matcher) (fuel : Nat) (flags : OnceFlags)
    (s : matchState) (M : AttrValues), s.memory = some ⟨some M⟩ → s.remainingTokens = [] →
    0 < fuel → ∃ flags1 res, Match m fuel flags s = .ok (flags1, res) ∧ res.hasMatch = false
  | .allowedWordMatcher word, _, flags, s, _, _, ht, _ =>
    ⟨flags, allowedWordMatch word s, by simp only [Match],
      by simp [allowedWordMatch, ht, NewMatchState]⟩
  | .allowedWordsMatcher words mk o, _, flags, s, _, _, ht, _ =>
    ⟨flags, allowedWordsMatch words mk o s, by simp only [Match],
      by simp [allowedWordsMatch, ht, NewMatchState]⟩
  | .dictMatcher d a o mk, _, flags, s, _, _, ht, _ =>
    ⟨flags, NewMatchState false s.remainingTokens [] none,
      by simp [Match, dictMatch, ht], rfl⟩
  | .anyOrderDictMatcher d a mk o, _, flags, s, _, _, ht, _ =>
    ⟨flags, NewMatchState false s.remainingTokens [] none,
      by simp [Match, anyOrderDictMatch, ht], rfl⟩
  | .sequenceMatcher words o, _, flags, s, _, _, ht, _ =>
    ⟨flags, NewMatchState false s.remainingTokens [] none, by simp [Match, ht], rfl⟩
  | .fullTextMatcher nodes, fuel, flags, s, M, hmem, ht, hfuel => by
    obtain ⟨n, rfl⟩ : ∃ n, fuel = n + 1 := ⟨fuel - 1, by omega⟩
    obtain ⟨f1, hp⟩ := fullTextPass_empty_fails nodes (n + 1) flags s M hmem ht hfuel
    exact ⟨f1, NewMatchState false s.remainingTokens [] none,
      by simp only [Match, fullTextLoop, hp], rfl⟩
  | .oneOfMatcher words, fuel, flags, s, M, hmem, ht, hfuel => by
    simp only [Match]
    exact oneOfLoop_empty_fails words fuel flags s M hmem ht hfuel
  | .onceMatcher ref c, fuel, flags, s, M, hmem, ht, hfuel => by
    by_cases hf : flags ref = true
    · exact ⟨flags, NewMatchState false s.remainingTokens s.matchedTokens none,
        by simp only [Match, hf, if_true], rfl⟩
    · obtain ⟨f1, res, hres, hr⟩ := Match_empty_fails c fuel flags s M hmem ht hfuel
      exact ⟨f1, NewMatchState false s.remainingTokens s.matchedTokens none,
        by simp [Match, hf, Copy_present s M hmem, hres, hr], rfl⟩
  | .tryAllMatcher nodes, fuel, flags, s, M, hmem, ht, hfuel => by
    simp only [Match]
    exact tryAllLoop_empty_fails nodes fuel flags s M hmem ht hfuel

/-- On a state with present memory and no remaining tokens no node of the inner loop of
`fullTextMatcher.Match` matches. -/
theorem fullTextPass_empty_fails : ∀ (ms : List Matcher) (fuel : Nat) (flags : OnceFlags)
    (s : matchState) (M : AttrValues), s.memory = some ⟨some M⟩ → s.remainingTokens = [] →
    0 < fuel → ∃ flags1, fullTextPass ms fuel flags s = .ok (flags1, none)
  | [], _, flags, _, _, _, _, _ => ⟨flags, by simp only [fullTextPass]⟩
  | m :: ms, fuel, flags, s, M, hmem, ht, hfuel => by
    obtain ⟨f1, res, hres, hr⟩ := Match_empty_fails m fuel flags s M hmem ht hfuel
    obtain ⟨f2, hp⟩ := fullTextPass_empty_fails ms fuel f1 s M hmem ht hfuel
    exact ⟨f2, by simp [fullTextPass, Copy_present s M hmem, hres, hr, hp]⟩

/-- On a state with present memory and no remaining tokens the loop of
`oneOfMatcher.Match` returns a state with `hasMatch = false`. -/
theorem oneOfLoop_empty_fails : ∀ (ms : List Matcher) (fuel : Nat) (flags : OnceFlags)
    (s : matchState) (M : AttrValues), s.memory = some ⟨some M⟩ → s.remainingTokens = [] →
    0 < fuel → ∃ flags1 res, oneOfLoop ms fuel flags s = .ok (flags1, res) ∧
      res.hasMatch = false
  | [], _, flags, s, _, _, _, _ =>
    ⟨flags, NewMatchState false s.remainingTokens s.matchedTokens none,
      by simp only [oneOfLoop], rfl⟩
  | m :: ms, fuel, flags, s, M, hmem, ht, hfuel => by
    obtain ⟨f1, res, hres, hr⟩ := Match_empty_fails m fuel flags s M hmem ht hfuel
    obtain ⟨f2, res2, hres2, hr2⟩ := oneOfLoop_empty_fails ms fuel f1 s M hmem ht hfuel
    exact ⟨f2, res2, by simp [oneOfLoop, Copy_present s M hmem, hres, hr, hres2], hr2⟩

/-- On a state with present memory and no remaining tokens the loop of
`tryAllMatcher.Match`, entered with `hasAnyMatch` unset, returns a state with
`hasMatch = false`. -/
theorem tryAllLoop_empty_fails : ∀ (ms : List Matcher) (fuel : Nat) (flags : OnceFlags)
    (s : matchState) (M : AttrValues), s.memory = some ⟨some M⟩ → s.remainingTokens = [] →
    0 < fuel → ∃ flags1 res, tryAllLoop ms fuel flags s false = .ok (flags1, res) ∧
      res.hasMatch = false
  | [], _, flags, s, _, _, _, _ =>
    ⟨flags, NewMatchState false s.remainingTokens [] s.memory,
      by simp [tryAllLoop], rfl⟩
  | m :: ms, fuel, flags, s, M, hmem, ht, hfuel => by
    obtain ⟨f1, res, hres, hr⟩ := Match_empty_fails m fuel flags s M hmem ht hfuel
    obtain ⟨f2, res2, hres2, hr2⟩ := tryAllLoop_empty_fails ms fuel f1 s M hmem ht hfuel
    exact ⟨f2, res2, by simp [tryAllLoop, Copy_present s M hmem, hres, hr, hres2], hr2⟩

end

/-- C24: for every matcher tree, every state of the Once flags and every input state with
present memory whose remaining tokens are empty, `Match` returns a state, and that state
has `hasMatch = false`.  The bound on the loop iterations allows at least one iteration. -/
theorem empty_tokens_never_match (m : Matcher) (fuel : Nat) (flags : OnceFlags)
    (s : matchState) (M : AttrValues) (hmem : s.memory = some ⟨some M⟩)
    (ht : s.remainingTokens = []) (hfuel : 0 < fuel) :
    ∃ flags1 res, Match m fuel flags s = .ok (flags1, res) ∧ res.hasMatch = false :=
  Match_empty_fails m fuel flags s M hmem ht hfuel

/-- C24 on a tree with all nine matcher kinds, with the flag of one of its two Once
instances set, on the initial state over no tokens. -/
theorem empty_tokens_never_match_witness :
    (NewInitialState []).memory = some ⟨some (fun _ => none)⟩ ∧
    (NewInitialState []).remainingTokens = [] ∧ 0 < 1 ∧
    ∃ flags1 res,
      Match (.fullTextMatcher [
          .onceMatcher 0 (.allowedWordMatcher "a"),
          .onceMatcher 1 (.oneOfMatcher [.allowedWordsMatcher ["b c"] 2 {},
            .dictMatcher [("d", [1])] 7 {} 0]),
          .tryAllMatcher [.anyOrderDictMatcher [("e", [2])] 8 1 {},
            .sequenceMatcher [] {}]])
        1 (fun r => r = 1) (NewInitialState []) = .ok (flags1, res) ∧
      res.hasMatch = false :=
  ⟨rfl, rfl, by decide,
    empty_tokens_never_match _ 1 (fun r => r = 1) (NewInitialState []) (fun _ => none)
      rfl rfl (by decide)⟩

/-! ## Memory is never absent where it is read -/

/-- With an inner loop that, on present memory, stops short only at the bound on the
iterations and gives states with present memory, the outer loop of `fullTextMatcher.Match`
on present memory stops short only at the bound. -/
theorem fullTextLoop_fault
    (pass : OnceFlags → matchState → Except Fault (OnceFlags × Option matchState))
    (hpass : ∀ f st M e, st.memory = some ⟨some M⟩ → pass f st = .error e →
      e = Fault.outOfFuel)
    (hkeep : ∀ f st M f1 s1, st.memory = some ⟨some M⟩ → pass f st = .ok (f1, some s1) →
      ∃ M1, s1.memory = some ⟨some M1⟩)
    (n : Nat) (flags : OnceFlags) (s : matchState) (M : AttrValues)
    (hmem : s.memory = some ⟨some M⟩) (e : Fault)
    (h : fullTextLoop pass n flags s = .error e) : e = Fault.outOfFuel := by
  induction n generalizing flags s M with
  | zero =>
    simp only [fullTextLoop, Except.error.injEq] at h
    exact h.symm
  | succ n ih =>
    cases hp : pass flags s with
    | error e1 =>
      simp only [fullTextLoop, hp, Except.error.injEq] at h
      rw [← h]
      exact hpass flags s M e1 hmem hp
    | ok p =>
      obtain ⟨f2, x⟩ := p
      cases x with
      | none => simp [fullTextLoop, hp] at h
      | some s1 =>
        obtain ⟨M1, hM1⟩ := hkeep flags s M f2 s1 hmem hp
        by_cases hlen : s1.remainingTokens.length = 0
        · simp [fullTextLoop, hp, hlen] at h
        · simp only [fullTextLoop, hp, hlen, if_false] at h
          exact ih f2 s1 M1 hM1 h

mutual

/-- On a state with present memory `Match` stops short of returning a state only at the
bound on the loop iterations: no `GetStorage` is called on a `nil` memory and no entry of a
`nil` map is assigned. -/
theorem Match_fault : ∀ (m : Matcher) (fuel : Nat) (flags : OnceFlags) (s : matchState)
    (M : AttrValues) (e : Fault), s.memory = some ⟨some M⟩ →
    Match m fuel flags s = .error e → e = Fault.outOfFuel
  | .allowedWordMatcher word, _, _, _, _, _, _, h => by simp [Match] at h
  | .allowedWordsMatcher words mk o, _, _, _, _, _, _, h => by simp [Match] at h
  | .dictMatcher d a o mk, _, _, s, M, _, hmem, h => by
    obtain ⟨res, hres, _⟩ := dictMatch_progress d a o mk s M hmem
    simp [Match, hres] at h
  | .anyOrderDictMatcher d a mk o, _, _, s, M, _, hmem, h => by
    obtain ⟨res, hres, _⟩ := anyOrderDictMatch_progress d a mk o s M hmem
    simp [Match, hres] at h
  | .sequenceMatcher words o, fuel, flags, s, M, e, hmem, h => by
    by_cases ht : s.remainingTokens.length = 0
    · simp [Match, ht] at h
    · simp only [Match, ht, if_false] at h
      exact sequenceLoop_fault words fuel o s.remainingTokens flags s [] M e hmem h
  | .fullTextMatcher nodes, fuel, flags, s, M, e, hmem, h => by
    simp only [Match] at h
    exact fullTextLoop_fault _
      (fun f st M1 e1 hM1 hp => fullTextPass_fault nodes fuel f st M1 e1 hM1 hp)
      (fun f st M1 f1 s1 hM1 hp => by
        obtain ⟨⟨_, M2, _, hM2, _⟩, _, _⟩ := fullTextPass_keeps nodes fuel f f1 st s1 M1 hM1 hp
        exact ⟨M2, hM2⟩)
      fuel flags s M hmem e h
  | .oneOfMatcher words, fuel, flags, s, M, e, hmem, h => by
    simp only [Match] at h
    exact oneOfLoop_fault words fuel flags s M e hmem h
  | .onceMatcher ref c, fuel, flags, s, M, e, hmem, h => by
    by_cases hf : flags ref = true
    · simp [Match, hf] at h
    · cases hm : Match c fuel flags s with
      | error e1 =>
        simp [Match, hf, Copy_present s M hmem, hm] at h
        rw [← h]
        exact Match_fault c fuel flags s M e1 hmem hm
      | ok p =>
        obtain ⟨f2, x⟩ := p
        by_cases hx : x.hasMatch = true
        · simp [Match, hf, Copy_present s M hmem, hm, hx] at h
        · simp [Match, hf, Copy_present s M hmem, hm, hx] at h
  | .tryAllMatcher nodes, fuel, flags, s, M, e, hmem, h => by
    simp only [Match] at h
    exact tryAllLoop_fault nodes fuel flags s false M e hmem h

/-- On a state with present memory the loop of `sequenceMatcher.Match` stops short only at
the bound on the loop iterations. -/
theorem sequenceLoop_fault : ∀ (ms : List Matcher) (fuel : Nat) (o : options)
    (tokens : List String) (flags : OnceFlags) (s : matchState) (acc : List String)
    (M : AttrValues) (e : Fault), s.memory = some ⟨some M⟩ →
    sequenceLoop ms fuel o tokens flags s acc = .error e → e = Fault.outOfFuel
  | [], _, _, _, _, _, acc, _, _, _, h => by
    by_cases hacc : acc.length > 0
    · simp [sequenceLoop, hacc] at h
    · simp [sequenceLoop, hacc] at h
  | m :: ms, fuel, o, tokens, flags, s, acc, M, e, hmem, h => by
    cases hm : Match m fuel flags s with
    | error e1 =>
      simp [sequenceLoop, Copy_present s M hmem, hm] at h
      rw [← h]
      exact Match_fault m fuel flags s M e1 hmem hm
    | ok p =>
      obtain ⟨f2, x⟩ := p
      simp only [sequenceLoop, Copy_present s M hmem, hm] at h
      by_cases hx : x.hasMatch = true
      · obtain ⟨⟨_, M1, _, hM1, _⟩, _, _⟩ := Match_keeps m fuel flags f2 s x M hmem hm hx
        by_cases hko : o.keepMatchedTokens = true
        · simp only [hx, hko, Bool.not_true, Bool.false_eq_true, if_false] at h
          exact sequenceLoop_fault ms fuel o tokens f2 x _ M1 e hM1 h
        · simp only [Bool.not_eq_true] at hko
          simp only [hx, hko, Bool.not_true, Bool.not_false, Bool.false_eq_true, if_false,
            if_true] at h
          exact sequenceLoop_fault ms fuel o tokens f2 x _ M1 e hM1 h
      · simp [hx] at h

/-- On a state with present memory the inner loop of `fullTextMatcher.Match` stops short
only at the bound on the loop iterations. -/
theorem fullTextPass_fault : ∀ (ms : List Matcher) (fuel : Nat) (flags : OnceFlags)
    (s : matchState) (M : AttrValues) (e : Fault), s.memory = some ⟨some M⟩ →
    fullTextPass ms fuel flags s = .error e → e = Fault.outOfFuel
  | [], _, _, _, _, _, _, h => by simp [fullTextPass] at h
  | m :: ms, fuel, flags, s, M, e, hmem, h => by
    cases hm : Match m fuel flags s with
    | error e1 =>
      simp [fullTextPass, Copy_present s M hmem, hm] at h
      rw [← h]
      exact Match_fault m fuel flags s M e1 hmem hm
    | ok p =>
      obtain ⟨f2, x⟩ := p
      simp only [fullTextPass, Copy_present s M hmem, hm] at h
      by_cases hx : x.hasMatch = true
      · simp [hx] at h
      · simp only [hx, if_false] at h
        exact fullTextPass_fault ms fuel f2 s M e hmem h

/-- On a state with present memory the loop of `oneOfMatcher.Match` stops short only at the
bound on the loop iterations. -/
theorem oneOfLoop_fault : ∀ (ms : List Matcher) (fuel : Nat) (flags : OnceFlags)
    (s : matchState) (M : AttrValues) (e : Fault), s.memory = some ⟨some M⟩ →
    oneOfLoop ms fuel flags s = .error e → e = Fault.outOfFuel
  | [], _, _, _, _, _, _, h => by simp [oneOfLoop] at h
  | m :: ms, fuel, flags, s, M, e, hmem, h => by
    cases hm : Match m fuel flags s with
    | error e1 =>
      simp [oneOfLoop, Copy_present s M hmem, hm] at h
      rw [← h]
      exact Match_fault m fuel flags s M e1 hmem hm
    | ok p =>
      obtain ⟨f2, x⟩ := p
      simp only [oneOfLoop, Copy_present s M hmem, hm] at h
      by_cases hx : x.hasMatch = true
      · simp [hx] at h
      · simp only [hx, if_false] at h
        exact oneOfLoop_fault ms fuel f2 s M e hmem h

/-- On a state with present memory the loop of `tryAllMatcher.Match` stops short only at
the bound on the loop iterations. -/
theorem tryAllLoop_fault : ∀ (ms : List Matcher) (fuel : Nat) (flags : OnceFlags)
    (s : matchState) (b : Bool) (M : AttrValues) (e : Fault), s.memory = some ⟨some M⟩ →
    tryAllLoop ms fuel flags s b = .error e → e = Fault.outOfFuel
  | [], _, _, _, b, _, _, _, h => by
    cases b with
    | true => simp [tryAllLoop] at h
    | false => simp [tryAllLoop] at h
  | m :: ms, fuel, flags, s, b, M, e, hmem, h => by
    cases hm : Match m fuel flags s with
    | error e1 =>
      simp [tryAllLoop, Copy_present s M hmem, hm] at h
      rw [← h]
      exact Match_fault m fuel flags s M e1 hmem hm
    | ok p =>
      obtain ⟨f2, x⟩ := p
      simp only [tryAllLoop, Copy_present s M hmem, hm] at h
      by_cases hx : x.hasMatch = true
      · simp only [hx, if_true] at h
        obtain ⟨⟨_, M1, _, hM1, _⟩, _, _⟩ := Match_keeps m fuel flags f2 s x M hmem hm hx
        exact tryAllLoop_fault ms fuel f2 x true M1 e hM1 h
      · simp only [hx, if_false] at h
        exact tryAllLoop_fault ms fuel f2 s b M e hmem h

end

/-- With an inner loop that on present memory reads only states with present memory and
gives states with present memory, the outer loop of `fullTextMatcher.Match` on present
memory reads only states with present memory. -/
theorem fullTextLoopReads_present
    (pass : OnceFlags → matchState → Except Fault (OnceFlags × Option matchState))
    (passReads : OnceFlags → matchState → List matchState)
    (hreads : ∀ f st M, st.memory = some ⟨some M⟩ →
      ∀ x ∈ passReads f st, ∃ M1, x.memory = some ⟨some M1⟩)
    (hkeep : ∀ f st M f1 s1, st.memory = some ⟨some M⟩ → pass f st = .ok (f1, some s1) →
      ∃ M1, s1.memory = some ⟨some M1⟩)
    (n : Nat) (flags : OnceFlags) (s : matchState) (M : AttrValues)
    (hmem : s.memory = some ⟨some M⟩) (x : matchState)
    (hx : x ∈ fullTextLoopReads pass passReads n flags s) :
    ∃ M1, x.memory = some ⟨some M1⟩ := by
  induction n generalizing flags s M with
  | zero => simp [fullTextLoopReads] at hx
  | succ n ih =>
    simp only [fullTextLoopReads, List.mem_append] at hx
    rcases hx with hx | hx
    · exact hreads flags s M hmem x hx
    · cases hp : pass flags s with
      | error e => simp [hp] at hx
      | ok p =>
        obtain ⟨f2, r⟩ := p
        cases r with
        | none => simp [hp] at hx
        | some s1 =>
          obtain ⟨M1, hM1⟩ := hkeep flags s M f2 s1 hmem hp
          by_cases hlen : s1.remainingTokens.length = 0
          · simp [hp, hlen] at hx
          · simp only [hp, hlen, if_false] at hx
            exact ih f2 s1 M1 hM1 hx

mutual

/-- On a state with present memory every state read during `Match` has present memory. -/
theorem MatchReads_present : ∀ (m : Matcher) (fuel : Nat) (flags : OnceFlags)
    (s : matchState) (M : AttrValues), s.memory = some ⟨some M⟩ →
    ∀ x ∈ MatchReads m fuel flags s, ∃ M1, x.memory = some ⟨some M1⟩
  | .allowedWordMatcher word, _, _, _, _, _, x, hx => by simp [MatchReads] at hx
  | .allowedWordsMatcher words mk o, _, _, _, _, _, x, hx => by simp [MatchReads] at hx
  | .dictMatcher d a o mk, _, _, s, M, hmem, x, hx => by
    by_cases ht : s.remainingTokens.length = 0
    · simp [MatchReads, ht] at hx
    · simp only [MatchReads, ht, if_false, List.mem_singleton] at hx
      exact ⟨M, by rw [hx, hmem]⟩
  | .anyOrderDictMatcher d a mk o, _, _, s, M, hmem, x, hx => by
    by_cases ht : s.remainingTokens.length = 0
    · simp [MatchReads, ht] at hx
    · simp only [MatchReads, ht, if_false, List.mem_singleton] at hx
      exact ⟨M, by rw [hx, hmem]⟩
  | .sequenceMatcher words o, fuel, flags, s, M, hmem, x, hx => by
    by_cases ht : s.remainingTokens.length = 0
    · simp [MatchReads, ht] at hx
    · simp only [MatchReads, ht, if_false] at hx
      exact sequenceLoopReads_present words fuel flags s M hmem x hx
  | .fullTextMatcher nodes, fuel, flags, s, M, hmem, x, hx => by
    simp only [MatchReads] at hx
    exact fullTextLoopReads_present _ _
      (fun f st M1 hM1 y hy => fullTextPassReads_present nodes fuel f st M1 hM1 y hy)
      (fun f st M1 f1 s1 hM1 hp => by
        obtain ⟨⟨_, M2, _, hM2, _⟩, _, _⟩ := fullTextPass_keeps nodes fuel f f1 st s1 M1 hM1 hp
        exact ⟨M2, hM2⟩)
      fuel flags s M hmem x hx
  | .oneOfMatcher words, fuel, flags, s, M, hmem, x, hx => by
    simp only [MatchReads] at hx
    exact oneOfLoopReads_present words fuel flags s M hmem x hx
  | .onceMatcher ref c, fuel, flags, s, M, hmem, x, hx => by
    by_cases hf : flags ref = true
    · simp [MatchReads, hf] at hx
    · simp only [MatchReads, hf, Bool.false_eq_true, if_false, Copy_present s M hmem,
        List.mem_cons] at hx
      rcases hx with hx | hx
      · exact ⟨M, by rw [hx, hmem]⟩
      · exact MatchReads_present c fuel flags s M hmem x hx
  | .tryAllMatcher nodes, fuel, flags, s, M, hmem, x, hx => by
    simp only [MatchReads] at hx
    exact tryAllLoopReads_present nodes fuel flags s M hmem x hx

/-- On a state with present memory the loop of `sequenceMatcher.Match` reads only states
with present memory. -/
theorem sequenceLoopReads_present : ∀ (ms : List Matcher) (fuel : Nat) (flags : OnceFlags)
    (s : matchState) (M : AttrValues), s.memory = some ⟨some M⟩ →
    ∀ x ∈ sequenceLoopReads ms fuel flags s, ∃ M1, x.memory = some ⟨some M1⟩
  | [], _, _, _, _, _, x, hx => by simp [sequenceLoopReads] at hx
  | m :: ms, fuel, flags, s, M, hmem, x, hx => by
    simp only [sequenceLoopReads, Copy_present s M hmem, List.mem_cons, List.mem_append] at hx
    rcases hx with hx | hx | hx
    · exact ⟨M, by rw [hx, hmem]⟩
    · exact MatchReads_present m fuel flags s M hmem x hx
    · cases hm : Match m fuel flags s with
      | error e => simp [hm] at hx
      | ok p =>
        obtain ⟨f2, r⟩ := p
        by_cases hr : r.hasMatch = true
        · simp only [hm, hr, Bool.not_true, Bool.false_eq_true, if_false] at hx
          obtain ⟨⟨_, M1, _, hM1, _⟩, _, _⟩ := Match_keeps m fuel flags f2 s r M hmem hm hr
          exact sequenceLoopReads_present ms fuel f2 r M1 hM1 x hx
        · simp [hm, hr] at hx

/-- On a state with present memory the inner loop of `fullTextMatcher.Match` reads only
states with present memory. -/
theorem fullTextPassReads_present : ∀ (ms : List Matcher) (fuel : Nat) (flags : OnceFlags)
    (s : matchState) (M : AttrValues), s.memory = some ⟨some M⟩ →
    ∀ x ∈ fullTextPassReads ms fuel flags s, ∃ M1, x.memory = some ⟨some M1⟩
  | [], _, _, _, _, _, x, hx => by simp [fullTextPassReads] at hx
  | m :: ms, fuel, flags, s, M, hmem, x, hx => by
    simp only [fullTextPassReads, Copy_present s M hmem, List.mem_cons, List.mem_append] at hx
    rcases hx with hx | hx | hx
    · exact ⟨M, by rw [hx, hmem]⟩
    · exact MatchReads_present m fuel flags s M hmem x hx
    · cases hm : Match m fuel flags s with
      | error e => simp [hm] at hx
      | ok p =>
        obtain ⟨f2, r⟩ := p
        by_cases hr : r.hasMatch = true
        · simp [hm, hr] at hx
        · simp only [hm, hr, if_false] at hx
          exact fullTextPassReads_present ms fuel f2 s M hmem x hx

/-- On a state with present memory the loop of `oneOfMatcher.Match` reads only states with
present memory. -/
theorem oneOfLoopReads_present : ∀ (ms : List Matcher) (fuel : Nat) (flags : OnceFlags)
    (s : matchState) (M : AttrValues), s.memory = some ⟨some M⟩ →
    ∀ x ∈ oneOfLoopReads ms fuel flags s, ∃ M1, x.memory = some ⟨some M1⟩
  | [], _, _, _, _, _, x, hx => by simp [oneOfLoopReads] at hx
  | m :: ms, fuel, flags, s, M, hmem, x, hx => by
    simp only [oneOfLoopReads, Copy_present s M hmem, List.mem_cons, List.mem_append] at hx
    rcases hx with hx | hx | hx
    · exact ⟨M, by rw [hx, hmem]⟩
    · exact MatchReads_present m fuel flags s M hmem x hx
    · cases hm : Match m fuel flags s with
      | error e => simp [hm] at hx
      | ok p =>
        obtain ⟨f2, r⟩ := p
        by_cases hr : r.hasMatch = true
        · simp [hm, hr] at hx
        · simp only [hm, hr, if_false] at hx
          exact oneOfLoopReads_present ms fuel f2 s M hmem x hx

/-- On a state with present memory the loop of `tryAllMatcher.Match` reads only states with
present memory. -/
theorem tryAllLoopReads_present : ∀ (ms : List Matcher) (fuel : Nat) (flags : OnceFlags)
    (s : matchState) (M : AttrValues), s.memory = some ⟨some M⟩ →
    ∀ x ∈ tryAllLoopReads ms fuel flags s, ∃ M1, x.memory = some ⟨some M1⟩
  | [], _, _, _, _, _, x, hx => by simp [tryAllLoopReads] at hx
  | m :: ms, fuel, flags, s, M, hmem, x, hx => by
    simp only [tryAllLoopReads, Copy_present s M hmem, List.mem_cons, List.mem_append] at hx
    rcases hx with hx | hx | hx
    · exact ⟨M, by rw [hx, hmem]⟩
    · exact MatchReads_present m fuel flags s M hmem x hx
    · cases hm : Match m fuel flags s with
      | error e => simp [hm] at hx
      | ok p =>
        obtain ⟨f2, r⟩ := p
        by_cases hr : r.hasMatch = true
        · simp only [hm, hr, if_true] at hx
          obtain ⟨⟨_, M1, _, hM1, _⟩, _, _⟩ := Match_keeps m fuel flags f2 s r M hmem hm hr
          exact tryAllLoopReads_present ms fuel f2 r M1 hM1 x hx
        · simp only [hm, hr, if_false] at hx
          exact tryAllLoopReads_present ms fuel f2 s M hmem x hx

end

/-- C25: for every matcher tree and every input state with present memory, a state
returned by `Match` with `hasMatch = true` has present memory; every state passed to `Copy`
or read through `GetStorage` during the call has present memory; and the call never stops
at a read of a `nil` memory or a write to a `nil` map (it stops short of returning only at
the bound on the loop iterations).  The initial state of `NewInitialState` is such an
input. -/
theorem memory_present_where_read (m : Matcher) (fuel : Nat) (flags : OnceFlags)
    (s : matchState) (M : AttrValues) (hmem : s.memory = some ⟨some M⟩) :
    (∀ flags1 res, Match m fuel flags s = .ok (flags1, res) → res.hasMatch = true →
      ∃ M1, res.memory = some ⟨some M1⟩) ∧
    (∀ x ∈ MatchReads m fuel flags s, ∃ M1, x.memory = some ⟨some M1⟩) ∧
    (∀ e, Match m fuel flags s = .error e → e = Fault.outOfFuel) := by
  refine ⟨fun flags1 res h hres => ?_, MatchReads_present m fuel flags s M hmem,
    fun e h => Match_fault m fuel flags s M e hmem h⟩
  obtain ⟨⟨_, M1, _, hM1, _⟩, _, _⟩ := Match_keeps m fuel flags flags1 s res M hmem h hres
  exact ⟨M1, hM1⟩

/-- C25 on the full-text matcher over the sequence of the dictionary this -> 3 and the word
is, and the dictionary lorem -> 1, ipsum -> 2, started from the initial state over this, is,
lorem: the states read have the remaining tokens listed, and all have present memory. -/
theorem memory_present_where_read_witness :
    (NewInitialState ["this", "is", "lorem"]).memory = some ⟨some (fun _ => none)⟩ ∧
    (MatchReads (.fullTextMatcher [
        .sequenceMatcher [.dictMatcher [("this", [3])] 7 {} 0, .allowedWordMatcher "is"] {},
        .dictMatcher [("lorem", [1]), ("ipsum", [2])] 100500 {} 0])
      5 (fun _ => false) (NewInitialState ["this", "is", "lorem"])).map
        (fun x => x.remainingTokens)
      = [["this", "is", "lorem"], ["this", "is", "lorem"], ["this", "is", "lorem"],
          ["is", "lorem"],
          ["lorem"], ["lorem"], ["lorem"], ["lorem"], ["lorem"]] ∧
    ((∀ flags1 res,
        Match (.fullTextMatcher [
            .sequenceMatcher [.dictMatcher [("this", [3])] 7 {} 0, .allowedWordMatcher "is"] {},
            .dictMatcher [("lorem", [1]), ("ipsum", [2])] 100500 {} 0])
          5 (fun _ => false) (NewInitialState ["this", "is", "lorem"]) = .ok (flags1, res) →
        res.hasMatch = true → ∃ M1, res.memory = some ⟨some M1⟩) ∧
      (∀ x ∈ MatchReads (.fullTextMatcher [
            .sequenceMatcher [.dictMatcher [("this", [3])] 7 {} 0, .allowedWordMatcher "is"] {},
            .dictMatcher [("lorem", [1]), ("ipsum", [2])] 100500 {} 0])
          5 (fun _ => false) (NewInitialState ["this", "is", "lorem"]),
        ∃ M1, x.memory = some ⟨some M1⟩) ∧
      (∀ e,
        Match (.fullTextMatcher [
            .sequenceMatcher [.dictMatcher [("this", [3])] 7 {} 0, .allowedWordMatcher "is"] {},
            .dictMatcher [("lorem", [1]), ("ipsum", [2])] 100500 {} 0])
          5 (fun _ => false) (NewInitialState ["this", "is", "lorem"]) = .error e →
        e = Fault.outOfFuel)) :=
  ⟨rfl, rfl,
    memory_present_where_read _ 5 (fun _ => false) (NewInitialState ["this", "is", "lorem"])
      (fun _ => none) rfl⟩

/-! ## The steps of the full-text matcher -/

/-- The inner loop of `fullTextMatcher.Match` applies the first node that matches, whatever
nodes come after it. -/
theorem fullTextPass_first_match (pre : List Matcher) (m : Matcher) (post : List Matcher)
    (fuel : Nat) (flags flags1 flags2 : OnceFlags) (s copy r : matchState)
    (hcopy : Copy s = .ok copy) (hpre : AllFail fuel copy pre flags flags1)
    (hm : Match m fuel flags1 copy = .ok (flags2, r)) (hr : r.hasMatch = true) :
    fullTextPass (pre ++ m :: post) fuel flags s = .ok (flags2, some (applyStep s r)) := by
  induction hpre with
  | nil flags => simp [fullTextPass, hcopy, hm, hr, applyStep]
  | cons m0 ms flags flags1 flags2 r0 hm0 hr0 _ ih =>
    simp [fullTextPass, hcopy, hm0, hr0, ih hm]

/-- A state given by the inner loop of `fullTextMatcher.Match` comes from the first node
that matches. -/
theorem fullTextPass_inv (ms : List Matcher) (fuel : Nat) (flags flags1 : OnceFlags)
    (s s1 : matchState) (h : fullTextPass ms fuel flags s = .ok (flags1, some s1)) :
    ∃ r, FirstMatch fuel ms flags s flags1 r ∧ s1 = applyStep s r := by
  induction ms generalizing flags with
  | nil => simp [fullTextPass] at h
  | cons m ms ih =>
    cases hcopy : Copy s with
    | error e => simp [fullTextPass, hcopy] at h
    | ok copy =>
      cases hm : Match m fuel flags copy with
      | error e => simp [fullTextPass, hcopy, hm] at h
      | ok p =>
        obtain ⟨f2, x⟩ := p
        simp only [fullTextPass, hcopy, hm] at h
        by_cases hx : x.hasMatch = true
        · simp only [hx, if_true, Except.ok.injEq, Prod.mk.injEq, Option.some.injEq] at h
          obtain ⟨hf, hs1⟩ := h
          subst hf
          exact ⟨x, ⟨[], m, ms, copy, flags, rfl, hcopy, AllFail.nil flags, hm, hx⟩,
            hs1.symm⟩
        · simp only [hx, if_false] at h
          obtain ⟨r, ⟨pre, m1, post, copy1, flagsm, hnodes, hcopy1, hpre, hm1, hr⟩, hs1⟩ :=
            ih f2 h
          have hc : copy1 = copy := by
            rw [hcopy] at hcopy1
            simpa using hcopy1.symm
          subst hc
          refine ⟨r, ⟨m :: pre, m1, post, copy1, flagsm, by rw [hnodes]; rfl, hcopy,
            AllFail.cons m pre flags f2 flagsm x hm (by simpa using hx) hpre, hm1, hr⟩, hs1⟩

/-- A matched state returned by the outer loop of `fullTextMatcher.Match` comes from a run
of applied steps, and its matched tokens are those of the state the loop started from
followed by the matched tokens of the steps. -/
theorem fullTextLoop_applied_steps (nodes : List Matcher) (fuel n : Nat)
    (flags flags1 : OnceFlags) (s res : matchState)
    (h : fullTextLoop (fun f st => fullTextPass nodes fuel f st) n flags s = .ok (flags1, res))
    (hres : res.hasMatch = true) :
    ∃ toks, AppliedSteps fuel nodes flags s flags1 res toks ∧
      res.matchedTokens = s.matchedTokens ++ toks := by
  induction n generalizing flags s with
  | zero => simp [fullTextLoop] at h
  | succ n ih =>
    cases hp : fullTextPass nodes fuel flags s with
    | error e => simp [fullTextLoop, hp] at h
    | ok p =>
      obtain ⟨f2, x⟩ := p
      cases x with
      | none =>
        simp [fullTextLoop, hp] at h
        rw [← h.2] at hres
        simp [NewMatchState] at hres
      | some s1 =>
        obtain ⟨r, hfirst, hs1⟩ := fullTextPass_inv nodes fuel flags f2 s s1 hp
        subst hs1
        by_cases hlen : (applyStep s r).remainingTokens.length = 0
        · simp only [fullTextLoop, hp, hlen, if_true, Except.ok.injEq, Prod.mk.injEq] at h
          obtain ⟨hf, hr⟩ := h
          subst hf
          subst hr
          exact ⟨r.matchedTokens,
            AppliedSteps.last flags f2 s r hfirst (List.length_eq_zero.mp hlen), rfl⟩
        · simp only [fullTextLoop, hp, hlen, if_false] at h
          obtain ⟨toks, hsteps, htoks⟩ := ih f2 (applyStep s r) h
          refine ⟨r.matchedTokens ++ toks,
            AppliedSteps.step flags f2 flags1 s r res toks hfirst
              (fun h0 => hlen (by simp [applyStep, NewMatchState, h0])) hsteps, ?_⟩
          rw [htoks]
          simp [applyStep, NewMatchState]

/-- C22: (1) a pass of the full-text matcher over `nodes` on the state `s` gives a new state
exactly when some node matches a copy of `s`, and the new state is then made from the result
`r` of the first such node in list order: the remaining tokens and memory of `r`, and the
matched tokens of `s` followed by those of `r`; (2) when the full-text matcher returns
`hasMatch = true`, the result comes from a run of such steps, and its matched tokens are the
matched tokens of the input state followed by the matched tokens of each applied step, in
the order of the steps. -/
theorem fullTextMatcher_applies_first_match (nodes : List Matcher) (fuel : Nat)
    (flags : OnceFlags) (s : matchState) :
    (∀ flags1 s1, fullTextPass nodes fuel flags s = .ok (flags1, some s1) ↔
      ∃ r, FirstMatch fuel nodes flags s flags1 r ∧ s1 = applyStep s r) ∧
    (∀ flags1 res, Match (.fullTextMatcher nodes) fuel flags s = .ok (flags1, res) →
      res.hasMatch = true →
      ∃ toks, AppliedSteps fuel nodes flags s flags1 res toks ∧
        res.matchedTokens = s.matchedTokens ++ toks) := by
  refine ⟨fun flags1 s1 => ⟨fullTextPass_inv nodes fuel flags flags1 s s1, ?_⟩,
    fun flags1 res h hres => ?_⟩
  · rintro ⟨r, ⟨pre, m, post, copy, flagsm, hnodes, hcopy, hpre, hm, hr⟩, hs1⟩
    rw [hnodes, hs1]
    exact fullTextPass_first_match pre m post fuel flags flagsm flags1 s copy r hcopy hpre hm hr
  · simp only [Match] at h
    exact fullTextLoop_applied_steps nodes fuel fuel flags flags1 s res h hres

/-- C22 on the tree of the tests: the full-text matcher over the sequence (keeping tokens)
of the dictionary this -> 3 (keeping tokens) and the word is, the dictionary lorem -> 1,
ipsum -> 2 (keeping tokens) and the word set of dolor dalar (keeping tokens), on the tokens
this, is, lorem, dolor, dalar, returns the matched tokens this, lorem, dolor dalar. -/
theorem fullTextMatcher_applies_first_match_witness :
    observe [111555, 100500]
      (Match (NewFullTextMatcher [
          NewSequenceMatcher [NewDictMatcher [("this", [3])] 111555 [KeepMatchedTokens],
            NewAllowedWordMatcher "is"] [KeepMatchedTokens],
          NewDictMatcher [("lorem", [1]), ("ipsum", [2])] 100500 [KeepMatchedTokens],
          NewAllowedWordsMatcher ["dolor dalar"] [KeepMatchedTokens]] [])
        6 (fun _ => false) (NewInitialState ["this", "is", "lorem", "dolor", "dalar"]))
      = some (true, [], ["this", "lorem", "dolor dalar"], some [some [3], some [1]]) ∧
    ∃ flags1 res,
      Match (.fullTextMatcher [
          NewSequenceMatcher [NewDictMatcher [("this", [3])] 111555 [KeepMatchedTokens],
            NewAllowedWordMatcher "is"] [KeepMatchedTokens],
          NewDictMatcher [("lorem", [1]), ("ipsum", [2])] 100500 [KeepMatchedTokens],
          NewAllowedWordsMatcher ["dolor dalar"] [KeepMatchedTokens]])
        6 (fun _ => false) (NewInitialState ["this", "is", "lorem", "dolor", "dalar"])
        = .ok (flags1, res) ∧ res.hasMatch = true ∧
      res.matchedTokens = ["this", "lorem", "dolor dalar"] ∧
      ∃ toks, AppliedSteps 6 [
          NewSequenceMatcher [NewDictMatcher [("this", [3])] 111555 [KeepMatchedTokens],
            NewAllowedWordMatcher "is"] [KeepMatchedTokens],
          NewDictMatcher [("lorem", [1]), ("ipsum", [2])] 100500 [KeepMatchedTokens],
          NewAllowedWordsMatcher ["dolor dalar"] [KeepMatchedTokens]]
          (fun _ => false) (NewInitialState ["this", "is", "lorem", "dolor", "dalar"])
          flags1 res toks ∧
        res.matchedTokens
          = (NewInitialState ["this", "is", "lorem", "dolor", "dalar"]).matchedTokens ++ toks :=
  ⟨rfl, fun _ => false, _, rfl, rfl, rfl,
    (fullTextMatcher_applies_first_match _ 6 (fun _ => false)
      (NewInitialState ["this", "is", "lorem", "dolor", "dalar"])).2 (fun _ => false) _
      rfl rfl⟩

/-! ## The full-text matcher over one dictionary of single words -/

/-- With keys that contain no space, the loop of `dictMatcher.Match` over all the remaining
tokens matches exactly when the first token is a key, and then consumes that token. -/
theorem dictLoop_single_word (d : Dict) (a : AttributeID) (o : options)
    (hkeys : ∀ key ∈ d.map Prod.fst, ' ' ∉ key.data) (x : String) (rest : List String)
    (M : AttrValues) :
    dictLoop d a o (x :: rest) (some M) (rest.length + 1) =
      match d.lookup x with
      | some vals =>
        .ok (NewMatchState true rest (if o.keepMatchedTokens then [x] else [])
          (NewMemoryState (some (fun j => if j = a then some ((M a).getD [] ++ vals) else M j))))
      | none => .ok (NewMatchState false (x :: rest) [] none) := by
  have hone : Join ((x :: rest).take 1) " " = x := by simp [Join]
  rcases dictLoop_spec d a o (x :: rest) M (rest.length + 1) with
    ⟨hnone, hres⟩ | ⟨k, vals, hk1, hk2, hkey, _, hres⟩
  · have h1 := hnone 1 (le_refl _) (by omega)
    rw [hone] at h1
    rw [hres, h1]
  · have hk : k = 1 := by
      by_contra hne
      have hmemk := lookup_mem_keys d _ vals hkey
      have hcount := Join_count_spaces ((x :: rest).take k)
      rw [List.length_take, List.length_cons, Nat.min_eq_left hk2] at hcount
      have hpos : 0 < (Join ((x :: rest).take k) " ").data.count ' ' := by omega
      exact hkeys _ hmemk (List.count_pos_iff.mp hpos)
    subst hk
    rw [hone] at hkey
    rw [hres, hkey]
    simp

/-- The inner loop of the full-text matcher over one dictionary whose keys contain no
space: it applies the dictionary to the first token when that token is a key, and gives no
state otherwise. -/
theorem fullTextPass_single_dict (d : Dict) (a : AttributeID) (opts : List MatcherOption)
    (hkeys : ∀ key ∈ d.map Prod.fst, ' ' ∉ key.data) (fuel : Nat) (flags : OnceFlags)
    (s : matchState) (x : String) (rest : List String) (M : AttrValues)
    (hs : s.remainingTokens = x :: rest) (hmem : s.memory = some ⟨some M⟩) :
    fullTextPass [NewDictMatcher d a opts] fuel flags s =
      match d.lookup x with
      | some vals =>
        .ok (flags, some (NewMatchState true rest
          (s.matchedTokens ++ (if (applyOptions opts).keepMatchedTokens then [x] else []))
          (NewMemoryState (some (fun j =>
            if j = a then some ((M a).getD [] ++ vals) else M j)))))
      | none => .ok (flags, none) := by
  have hloop := dictLoop_single_word d a (applyOptions opts) hkeys x rest M
  simp only [fullTextPass, Copy_present s M hmem, Match_NewDictMatcher, hs, hmem, GetStorage,
    List.length_cons, Nat.add_one_ne_zero, if_false, hloop]
  cases hl : d.lookup x with
  | some vals => simp [NewMatchState]
  | none => simp [NewMatchState]

/-- The outer loop of the full-text matcher over one dictionary whose keys contain no
space, on a state with present memory `M` and the remaining tokens `x :: rest`: it returns
within `len(tokens)` iterations, matches exactly when every token is a key, and then the
memory is `M` with the values of the tokens appended, in token order, to the attribute of
the dictionary. -/
theorem fullTextLoop_single_dict (d : Dict) (a : AttributeID) (opts : List MatcherOption)
    (hkeys : ∀ key ∈ d.map Prod.fst, ' ' ∉ key.data) (fuel : Nat) (flags : OnceFlags) :
    ∀ (rest : List String) (x : String) (n : Nat) (s : matchState) (M : AttrValues),
    rest.length + 1 ≤ n → s.remainingTokens = x :: rest → s.memory = some ⟨some M⟩ →
    ∃ res, fullTextLoop (fun f st => fullTextPass [NewDictMatcher d a opts] fuel f st)
        n flags s = .ok (flags, res) ∧
      (res.hasMatch = true ↔ ∀ ti ∈ x :: rest, ∃ vals, d.lookup ti = some vals) ∧
      (res.hasMatch = true → res.memory = some ⟨some (fun j =>
        if j = a then
          some ((M a).getD [] ++ (x :: rest).flatMap (fun ti => (d.lookup ti).getD []))
        else M j)⟩) := by
  intro rest
  induction rest with
  | nil =>
    intro x n s M hn hs hmem
    obtain ⟨n, rfl⟩ : ∃ k, n = k + 1 := ⟨n - 1, by simp at hn; omega⟩
    have hp := fullTextPass_single_dict d a opts hkeys fuel flags s x [] M hs hmem
    cases hl : d.lookup x with
    | none =>
      rw [hl] at hp
      refine ⟨NewMatchState false s.remainingTokens [] none,
        by simp only [fullTextLoop, hp], ?_, fun h => by simp [NewMatchState] at h⟩
      simp [NewMatchState, hl]
    | some vals =>
      rw [hl] at hp
      refine ⟨NewMatchState true []
          (s.matchedTokens ++ (if (applyOptions opts).keepMatchedTokens then [x] else []))
          (NewMemoryState (some (fun j =>
            if j = a then some ((M a).getD [] ++ vals) else M j))),
        by simp [fullTextLoop, hp, NewMatchState], ?_, fun _ => ?_⟩
      · simp [NewMatchState, hl]
      · simp [NewMatchState, NewMemoryState, hl]
  | cons y rest ih =>
    intro x n s M hn hs hmem
    obtain ⟨n, rfl⟩ : ∃ k, n = k + 1 := ⟨n - 1, by simp at hn; omega⟩
    have hp := fullTextPass_single_dict d a opts hkeys fuel flags s x (y :: rest) M hs hmem
    cases hl : d.lookup x with
    | none =>
      rw [hl] at hp
      refine ⟨NewMatchState false s.remainingTokens [] none,
        by simp only [fullTextLoop, hp], ?_, fun h => by simp [NewMatchState] at h⟩
      simp [NewMatchState, hl]
    | some vals =>
      rw [hl] at hp
      obtain ⟨res, hres, hiff, hmemres⟩ := ih y n
        (NewMatchState true (y :: rest)
          (s.matchedTokens ++ (if (applyOptions opts).keepMatchedTokens then [x] else []))
          (NewMemoryState (some (fun j =>
            if j = a then some ((M a).getD [] ++ vals) else M j))))
        (fun j => if j = a then some ((M a).getD [] ++ vals) else M j)
        (by simp at hn ⊢; omega) rfl rfl
      refine ⟨res, ?_, ?_, fun h => ?_⟩
      · simp only [fullTextLoop, hp]
        simpa [NewMatchState] using hres
      · rw [hiff]
        constructor
        · intro h ti hti
          rcases List.mem_cons.mp hti with rfl | hti
          · exact ⟨vals, hl⟩
          · exact h ti hti
        · intro h ti hti
          exact h ti (List.mem_cons_of_mem _ hti)
      · rw [hmemres h]
        simp only [Option.some.injEq, memoryState.mk.injEq]
        funext j
        by_cases hj : j = a
        · simp [hj, hl, List.flatMap_cons, List.append_assoc]
        · simp [hj]

/-- C23: for every dictionary `d` whose keys contain no space, every attribute `a` and every
non-empty token list `t`, the full-text matcher with the single child `NewDictMatcher d a`
(with any options), run on `NewInitialState t` with a bound of at least `len(t)` loop
iterations, returns a state; that state has `hasMatch = true` exactly when every token of
`t` is a key of `d`, and then its memory is the map with the one attribute `a`, whose list
is `d[t1] ++ d[t2] ++ ... ++ d[tn]`. -/
theorem fullTextMatcher_single_dict_collects (d : Dict) (a : AttributeID)
    (opts : List MatcherOption) (t : List String) (fuel : Nat) (flags : OnceFlags)
    (hkeys : ∀ key ∈ d.map Prod.fst, ' ' ∉ key.data) (ht : t ≠ [])
    (hfuel : t.length ≤ fuel) :
    ∃ res, Match (NewFullTextMatcher [NewDictMatcher d a opts] []) fuel flags
        (NewInitialState t) = .ok (flags, res) ∧
      (res.hasMatch = true ↔ ∀ ti ∈ t, ∃ vals, d.lookup ti = some vals) ∧
      (res.hasMatch = true → res.memory = some ⟨some (fun j =>
        if j = a then some (t.flatMap (fun ti => (d.lookup ti).getD [])) else none)⟩) := by
  cases t with
  | nil => exact absurd rfl ht
  | cons x rest =>
    obtain ⟨res, hres, hiff, hmemres⟩ := fullTextLoop_single_dict d a opts hkeys fuel flags
      rest x fuel (NewInitialState (x :: rest)) (fun _ => none)
      (by simpa using hfuel) rfl rfl
    refine ⟨res, ?_, hiff, fun h => ?_⟩
    · simp only [NewFullTextMatcher, Match]
      exact hres
    · rw [hmemres h]
      simp

/-- C23 on the dictionary lorem -> 1, ipsum -> 2, dolor -> 3 for attribute 100500 and the
tokens dolor, lorem, ipsum of the tests: every token is a key, and the memory returned is
100500 -> 3, 1, 2. -/
theorem fullTextMatcher_single_dict_collects_witness :
    (∀ key ∈ ([("lorem", [1]), ("ipsum", [2]), ("dolor", [3])] : Dict).map Prod.fst,
      ' ' ∉ key.data) ∧
    (["dolor", "lorem", "ipsum"] : List String) ≠ [] ∧
    (["dolor", "lorem", "ipsum"] : List String).length ≤ 3 ∧
    observe [100500, 7]
      (Match (NewFullTextMatcher
          [NewDictMatcher [("lorem", [1]), ("ipsum", [2]), ("dolor", [3])] 100500 []] [])
        3 (fun _ => false) (NewInitialState ["dolor", "lorem", "ipsum"]))
      = some (true, [], [], some [some [3, 1, 2], none]) ∧
    ∃ res,
      Match (NewFullTextMatcher
          [NewDictMatcher [("lorem", [1]), ("ipsum", [2]), ("dolor", [3])] 100500 []] [])
        3 (fun _ => false) (NewInitialState ["dolor", "lorem", "ipsum"])
        = .ok (fun _ => false, res) ∧
      (res.hasMatch = true ↔ ∀ ti ∈ ["dolor", "lorem", "ipsum"],
        ∃ vals, List.lookup ti [("lorem", [1]), ("ipsum", [2]), ("dolor", [3])] = some vals) ∧
      (res.hasMatch = true → res.memory = some ⟨some (fun j =>
        if j = 100500 then
          some (["dolor", "lorem", "ipsum"].flatMap (fun ti =>
            (List.lookup ti [("lorem", [1]), ("ipsum", [2]), ("dolor", [3])]).getD []))
        else none)⟩) :=
  ⟨by decide, by decide, by decide, rfl,
    fullTextMatcher_single_dict_collects [("lorem", [1]), ("ipsum", [2]), ("dolor", [3])]
      100500 [] ["dolor", "lorem", "ipsum"] 3 (fun _ => false) (by decide) (by decide)
      (by decide)⟩

/-! ## A shared once instance across alternatives -/

/-- Evaluation of `onceMatcher.Match` over a literal word on a state with present memory. -/
theorem Match_once_word (ref : Nat) (w : String) (fuel : Nat) (flags : OnceFlags)
    (s : matchState) (M : AttrValues) (hmem : s.memory = some ⟨some M⟩) :
    Match (.onceMatcher ref (.allowedWordMatcher w)) fuel flags s =
      if flags ref = true then
        .ok (flags, NewMatchState false s.remainingTokens s.matchedTokens none)
      else if s.remainingTokens.head? = some w then
        .ok (fun r => if r = ref then true else flags r,
          NewMatchState true (s.remainingTokens.drop 1) [] s.memory)
      else .ok (flags, NewMatchState false s.remainingTokens s.matchedTokens none) := by
  by_cases hf : flags ref = true
  · simp [Match, hf]
  · by_cases hw : s.remainingTokens.head? = some w
    · have hlen : s.remainingTokens.length ≠ 0 := by
        intro h0
        rw [List.length_eq_zero.mp h0] at hw
        simp at hw
      simp [Match, hf, Copy_present s M hmem, allowedWordMatch, hw, hlen, NewMatchState]
    · by_cases hlen : s.remainingTokens.length = 0
      · simp [Match, hf, Copy_present s M hmem, allowedWordMatch, hw, hlen, NewMatchState]
      · simp [Match, hf, Copy_present s M hmem, allowedWordMatch, hw, hlen, NewMatchState]

/-- The full-text matcher over `Once(word A)` and `Once(word B)`, both unused, on the tokens
`A`, `C` with `B ≠ C`: the first pass uses up `Once(word A)`, the second pass finds no node
that matches `C`, and the matcher fails with the flag of `Once(word A)` left set. -/
theorem fullText_once_pair_fails (A B C : String) (ra rb : Nat) (n : Nat)
    (flags : OnceFlags) (hBC : B ≠ C) (hab : ra ≠ rb) (hfa : flags ra = false)
    (hfb : flags rb = false) :
    Match (.fullTextMatcher [.onceMatcher ra (.allowedWordMatcher A),
        .onceMatcher rb (.allowedWordMatcher B)]) (n + 2) flags (NewInitialState [A, C])
      = .ok (fun r => if r = ra then true else flags r,
          NewMatchState false [C] [] none) := by
  have hba : rb ≠ ra := fun h => hab h.symm
  have hCB : C ≠ B := fun h => hBC h.symm
  have e1 : Match (.onceMatcher ra (.allowedWordMatcher A)) (n + 2) flags
      (NewInitialState [A, C])
      = .ok (fun r => if r = ra then true else flags r,
          NewMatchState true [C] [] (NewMemoryState (some (fun _ => none)))) := by
    rw [Match_once_word ra A (n + 2) flags _ (fun _ => none) rfl]
    simp [hfa, NewInitialState, NewMatchState]
  have p1 : fullTextPass [.onceMatcher ra (.allowedWordMatcher A),
        .onceMatcher rb (.allowedWordMatcher B)] (n + 2) flags (NewInitialState [A, C])
      = .ok (fun r => if r = ra then true else flags r,
          some (NewMatchState true [C] [] (NewMemoryState (some (fun _ => none))))) := by
    simp only [fullTextPass, Copy_present (NewInitialState [A, C]) (fun _ => none) rfl, e1]
    rfl
  have e2 : Match (.onceMatcher ra (.allowedWordMatcher A)) (n + 2)
      (fun r => if r = ra then true else flags r)
      (NewMatchState true [C] [] (NewMemoryState (some (fun _ => none))))
      = .ok (fun r => if r = ra then true else flags r, NewMatchState false [C] [] none) := by
    rw [Match_once_word ra A (n + 2) _ _ (fun _ => none) rfl]
    simp [NewMatchState]
  have e3 : Match (.onceMatcher rb (.allowedWordMatcher B)) (n + 2)
      (fun r => if r = ra then true else flags r)
      (NewMatchState true [C] [] (NewMemoryState (some (fun _ => none))))
      = .ok (fun r => if r = ra then true else flags r, NewMatchState false [C] [] none) := by
    rw [Match_once_word rb B (n + 2) _ _ (fun _ => none) rfl]
    simp [hba, hfb, hCB, NewMatchState]
  have p2 : fullTextPass [.onceMatcher ra (.allowedWordMatcher A),
        .onceMatcher rb (.allowedWordMatcher B)] (n + 2)
      (fun r => if r = ra then true else flags r)
      (NewMatchState true [C] [] (NewMemoryState (some (fun _ => none))))
      = .ok (fun r => if r = ra then true else flags r, none) := by
    simp only [fullTextPass,
      Copy_present (NewMatchState true [C] [] (NewMemoryState (some (fun _ => none))))
        (fun _ => none) rfl, e2, e3]
    rfl
  have hlen : ¬ (NewMatchState true [C] []
      (NewMemoryState (some (fun _ => none)))).remainingTokens.length = 0 := by
    simp [NewMatchState]
  simp only [Match, fullTextLoop, p1, p2, hlen, if_false]
  rfl

/-- The full-text matcher over `Once(word A)` and `Once(word C)` on the tokens `A`, `C`,
with `Once(word A)` already used and `Once(word C)` unused: it fails, and the flag of
`Once(word A)` stays set. -/
theorem fullText_once_used_fails (A C : String) (ra rc : Nat) (n : Nat) (flags : OnceFlags)
    (hac : ra ≠ rc) (hfa : flags ra = true) (hfc : flags rc = false) :
    ∃ flags1 res,
      Match (.fullTextMatcher [.onceMatcher ra (.allowedWordMatcher A),
        .onceMatcher rc (.allowedWordMatcher C)]) (n + 2) flags (NewInitialState [A, C])
        = .ok (flags1, res) ∧ res.hasMatch = false ∧ flags1 ra = true := by
  have e1 : Match (.onceMatcher ra (.allowedWordMatcher A)) (n + 2) flags
      (NewInitialState [A, C]) = .ok (flags, NewMatchState false [A, C] [] none) := by
    rw [Match_once_word ra A (n + 2) flags _ (fun _ => none) rfl]
    simp [hfa, NewInitialState, NewMatchState]
  by_cases hAC : A = C
  · subst hAC
    have e2 : Match (.onceMatcher rc (.allowedWordMatcher A)) (n + 2) flags
        (NewInitialState [A, A])
        = .ok (fun r => if r = rc then true else flags r,
            NewMatchState true [A] [] (NewMemoryState (some (fun _ => none)))) := by
      rw [Match_once_word rc A (n + 2) flags _ (fun _ => none) rfl]
      simp [hfc, NewInitialState, NewMatchState]
    have p1 : fullTextPass [.onceMatcher ra (.allowedWordMatcher A),
          .onceMatcher rc (.allowedWordMatcher A)] (n + 2) flags (NewInitialState [A, A])
        = .ok (fun r => if r = rc then true else flags r,
            some (NewMatchState true [A] [] (NewMemoryState (some (fun _ => none))))) := by
      simp only [fullTextPass, Copy_present (NewInitialState [A, A]) (fun _ => none) rfl,
        e1, e2]
      rfl
    have e3 : Match (.onceMatcher ra (.allowedWordMatcher A)) (n + 2)
        (fun r => if r = rc then true else flags r)
        (NewMatchState true [A] [] (NewMemoryState (some (fun _ => none))))
        = .ok (fun r => if r = rc then true else flags r,
            NewMatchState false [A] [] none) := by
      rw [Match_once_word ra A (n + 2) _ _ (fun _ => none) rfl]
      simp [hac, hfa, NewMatchState]
    have e4 : Match (.onceMatcher rc (.allowedWordMatcher A)) (n + 2)
        (fun r => if r = rc then true else flags r)
        (NewMatchState true [A] [] (NewMemoryState (some (fun _ => none))))
        = .ok (fun r => if r = rc then true else flags r,
            NewMatchState false [A] [] none) := by
      rw [Match_once_word rc A (n + 2) _ _ (fun _ => none) rfl]
      simp [NewMatchState]
    have p2 : fullTextPass [.onceMatcher ra (.allowedWordMatcher A),
          .onceMatcher rc (.allowedWordMatcher A)] (n + 2)
        (fun r => if r = rc then true else flags r)
        (NewMatchState true [A] [] (NewMemoryState (some (fun _ => none))))
        = .ok (fun r => if r = rc then true else flags r, none) := by
      simp only [fullTextPass,
        Copy_present (NewMatchState true [A] [] (NewMemoryState (some (fun _ => none))))
          (fun _ => none) rfl, e3, e4]
      rfl
    have hlen : ¬ (NewMatchState true [A] []
        (NewMemoryState (some (fun _ => none)))).remainingTokens.length = 0 := by
      simp [NewMatchState]
    refine ⟨fun r => if r = rc then true else flags r, NewMatchState false [A] [] none, ?_,
      rfl, by simp [hac, hfa]⟩
    simp only [Match, fullTextLoop, p1, p2, hlen, if_false]
    rfl
  · have e2 : Match (.onceMatcher rc (.allowedWordMatcher C)) (n + 2) flags
        (NewInitialState [A, C]) = .ok (flags, NewMatchState false [A, C] [] none) := by
      rw [Match_once_word rc C (n + 2) flags _ (fun _ => none) rfl]
      simp [hfc, hAC, NewInitialState, NewMatchState]
    have p1 : fullTextPass [.onceMatcher ra (.allowedWordMatcher A),
          .onceMatcher rc (.allowedWordMatcher C)] (n + 2) flags (NewInitialState [A, C])
        = .ok (flags, none) := by
      simp only [fullTextPass, Copy_present (NewInitialState [A, C]) (fun _ => none) rfl,
        e1, e2]
      rfl
    refine ⟨flags, NewMatchState false [A, C] [] none, ?_, rfl, hfa⟩
    simp only [Match, fullTextLoop, p1]
    rfl

/-- The full-text matcher over `Once(word A)` and `Once(word C)`, both unused, matches the
tokens `A`, `C`. -/
theorem fullText_once_pair_matches (A C : String) (ra rc : Nat) (n : Nat)
    (flags : OnceFlags) (hac : ra ≠ rc) (hfa : flags ra = false) (hfc : flags rc = false) :
    Match (.fullTextMatcher [.onceMatcher ra (.allowedWordMatcher A),
        .onceMatcher rc (.allowedWordMatcher C)]) (n + 2) flags (NewInitialState [A, C])
      = .ok (fun r => if r = rc then true else if r = ra then true else flags r,
          NewMatchState true [] [] (NewMemoryState (some (fun _ => none)))) := by
  have hca : rc ≠ ra := fun h => hac h.symm
  have e1 : Match (.onceMatcher ra (.allowedWordMatcher A)) (n + 2) flags
      (NewInitialState [A, C])
      = .ok (fun r => if r = ra then true else flags r,
          NewMatchState true [C] [] (NewMemoryState (some (fun _ => none)))) := by
    rw [Match_once_word ra A (n + 2) flags _ (fun _ => none) rfl]
    simp [hfa, NewInitialState, NewMatchState]
  have p1 : fullTextPass [.onceMatcher ra (.allowedWordMatcher A),
        .onceMatcher rc (.allowedWordMatcher C)] (n + 2) flags (NewInitialState [A, C])
      = .ok (fun r => if r = ra then true else flags r,
          some (NewMatchState true [C] [] (NewMemoryState (some (fun _ => none))))) := by
    simp only [fullTextPass, Copy_present (NewInitialState [A, C]) (fun _ => none) rfl, e1]
    rfl
  have e2 : Match (.onceMatcher ra (.allowedWordMatcher A)) (n + 2)
      (fun r => if r = ra then true else flags r)
      (NewMatchState true [C] [] (NewMemoryState (some (fun _ => none))))
      = .ok (fun r => if r = ra then true else flags r, NewMatchState false [C] [] none) := by
    rw [Match_once_word ra A (n + 2) _ _ (fun _ => none) rfl]
    simp [NewMatchState]
  have e3 : Match (.onceMatcher rc (.allowedWordMatcher C)) (n + 2)
      (fun r => if r = ra then true else flags r)
      (NewMatchState true [C] [] (NewMemoryState (some (fun _ => none))))
      = .ok (fun r => if r = rc then true else if r = ra then true else flags r,
          NewMatchState true [] [] (NewMemoryState (some (fun _ => none)))) := by
    rw [Match_once_word rc C (n + 2) _ _ (fun _ => none) rfl]
    simp [hca, hfc, NewMatchState]
  have p2 : fullTextPass [.onceMatcher ra (.allowedWordMatcher A),
        .onceMatcher rc (.allowedWordMatcher C)] (n + 2)
      (fun r => if r = ra then true else flags r)
      (NewMatchState true [C] [] (NewMemoryState (some (fun _ => none))))
      = .ok (fun r => if r = rc then true else if r = ra then true else flags r,
          some (NewMatchState true [] [] (NewMemoryState (some (fun _ => none))))) := by
    simp only [fullTextPass,
      Copy_present (NewMatchState true [C] [] (NewMemoryState (some (fun _ => none))))
        (fun _ => none) rfl, e2, e3]
    rfl
  have hlen : ¬ (NewMatchState true [C] []
      (NewMemoryState (some (fun _ => none)))).remainingTokens.length = 0 := by
    simp [NewMatchState]
  have hlen2 : (NewMatchState true [] []
      (NewMemoryState (some (fun _ => none)))).remainingTokens.length = 0 := rfl
  simp only [Match, fullTextLoop, p1, p2, hlen, hlen2, if_false, if_true]

/-- C21: for all words `A`, `B`, `C` with `B ≠ C` and distinct unused instances
`a = Once(word A)`, `b = Once(word B)`, `c = Once(word C)`, with at least two loop
iterations allowed, the tree `OneOf[FullText[a, b], FullText[a, c]]`, in which both
alternatives hold the instance `a`, returns `hasMatch = false` on the tokens `A`, `C`, and
the flag of `a`, set while the first alternative ran, is still set afterwards; the second
alternative `FullText[a, c]` run by itself from the unused instances matches the same
tokens. -/
theorem once_flag_survives_failed_alternative (A B C : String) (ra rb rc : Nat) (fuel : Nat)
    (flags : OnceFlags) (hBC : B ≠ C) (hab : ra ≠ rb) (hac : ra ≠ rc)
    (hfa : flags ra = false) (hfb : flags rb = false) (hfc : flags rc = false)
    (hfuel : 2 ≤ fuel) :
    (∃ flags1 res,
      Match (NewOneOfMatcher [
          NewFullTextMatcher [NewOnceMatcher ra (NewAllowedWordMatcher A),
            NewOnceMatcher rb (NewAllowedWordMatcher B)] [],
          NewFullTextMatcher [NewOnceMatcher ra (NewAllowedWordMatcher A),
            NewOnceMatcher rc (NewAllowedWordMatcher C)] []])
        fuel flags (NewInitialState [A, C]) = .ok (flags1, res) ∧
      res.hasMatch = false ∧ flags1 ra = true) ∧
    (∃ flags1 res,
      Match (NewFullTextMatcher [NewOnceMatcher ra (NewAllowedWordMatcher A),
          NewOnceMatcher rc (NewAllowedWordMatcher C)] [])
        fuel flags (NewInitialState [A, C]) = .ok (flags1, res) ∧ res.hasMatch = true) := by
  obtain ⟨n, rfl⟩ : ∃ n, fuel = n + 2 := ⟨fuel - 2, by omega⟩
  have hca : rc ≠ ra := fun h => hac h.symm
  have h1 := fullText_once_pair_fails A B C ra rb n flags hBC hab hfa hfb
  obtain ⟨f2, r2, h2, hr2, hf2⟩ := fullText_once_used_fails A C ra rc n
    (fun r => if r = ra then true else flags r) hac (by simp) (by simp [hca, hfc])
  simp only [NewOneOfMatcher, NewFullTextMatcher, NewOnceMatcher, NewAllowedWordMatcher]
  constructor
  · refine ⟨f2, NewMatchState false [A, C] [] none, ?_, rfl, hf2⟩
    have hunfold : ∀ ms, Match (.oneOfMatcher ms) (n + 2) flags (NewInitialState [A, C])
        = oneOfLoop ms (n + 2) flags (NewInitialState [A, C]) := fun ms => by
      simp only [Match]
    rw [hunfold]
    simp only [oneOfLoop, Copy_present (NewInitialState [A, C]) (fun _ => none) rfl, h1, h2]
    simp [hr2, NewMatchState, NewInitialState]
  · exact ⟨_, _, fullText_once_pair_matches A C ra rc n flags hac hfa hfc, rfl⟩

/-- C21 on the tree of the tests: the words A, B, C, the instances at the references 0, 1,
2, all unused, and the tokens A, C. -/
theorem once_flag_survives_failed_alternative_witness :
    "B" ≠ "C" ∧ (0 : Nat) ≠ 1 ∧ (0 : Nat) ≠ 2 ∧ 2 ≤ 2 ∧
    observe []
      (Match (NewOneOfMatcher [
          NewFullTextMatcher [NewOnceMatcher 0 (NewAllowedWordMatcher "A"),
            NewOnceMatcher 1 (NewAllowedWordMatcher "B")] [],
          NewFullTextMatcher [NewOnceMatcher 0 (NewAllowedWordMatcher "A"),
            NewOnceMatcher 2 (NewAllowedWordMatcher "C")] []])
        2 (fun _ => false) (NewInitialState ["A", "C"]))
      = some (false, ["A", "C"], [], none) ∧
    ((∃ flags1 res,
      Match (NewOneOfMatcher [
          NewFullTextMatcher [NewOnceMatcher 0 (NewAllowedWordMatcher "A"),
            NewOnceMatcher 1 (NewAllowedWordMatcher "B")] [],
          NewFullTextMatcher [NewOnceMatcher 0 (NewAllowedWordMatcher "A"),
            NewOnceMatcher 2 (NewAllowedWordMatcher "C")] []])
        2 (fun _ => false) (NewInitialState ["A", "C"]) = .ok (flags1, res) ∧
      res.hasMatch = false ∧ flags1 0 = true) ∧
    (∃ flags1 res,
      Match (NewFullTextMatcher [NewOnceMatcher 0 (NewAllowedWordMatcher "A"),
          NewOnceMatcher 2 (NewAllowedWordMatcher "C")] [])
        2 (fun _ => false) (NewInitialState ["A", "C"]) = .ok (flags1, res) ∧
      res.hasMatch = true)) :=
  ⟨by decide, by decide, by decide, by decide, rfl,
    once_flag_survives_failed_alternative "A" "B" "C" 0 1 2 2 (fun _ => false)
      (by decide) (by decide) (by decide) rfl rfl rfl (by decide)⟩

/-! ## Appending to a list that shares its backing array

The dictionary matchers write with `memory[k] = append(memory[k], valueIds...)`.  When the
list at `k` has spare capacity, `append` writes into its backing array, and a list of
another attribute that is a slice of the same array reads the written cell.  The store
below is the memory `AttrValues{1: arr[:1], 2: arr}` with `arr := []ValueID{0, 5}`: the map
at address 0 holds at attribute 1 the slice of length 1 and capacity 2, and at attribute 2
the slice of length 2, of the array at address 0. -/

/-- C2 fails on the code: on the memory `AttrValues{1: arr[:1], 2: arr}` with
`arr := []ValueID{0, 5}`, which maps attribute 1 to the list 0 and attribute 2 to the list
0, 5, the dictionary matcher x -> 7 for attribute 1 matches the token x and appends 7 to
the list at attribute 1 of the map it was given.  The returned memory maps attribute 1 to
0, 7, and attribute 2 to 0, 7 as well: the other attribute is not kept as it was. -/
theorem dictMatcher_append_overwrites_shared_list :
    (Heap.mk [[0, 5]] [[(1, ⟨0, 0, 1, 2⟩), (2, ⟨0, 0, 2, 2⟩)]]).read 0 1 = some [0] ∧
    (Heap.mk [[0, 5]] [[(1, ⟨0, 0, 1, 2⟩), (2, ⟨0, 0, 2, 2⟩)]]).read 0 2 = some [0, 5] ∧
    ((Heap.mk [[0, 5]] [[(1, ⟨0, 0, 1, 2⟩), (2, ⟨0, 0, 2, 2⟩)]]).appendStorage 0 1 [7]).read
      0 1 = some [0, 7] ∧
    ((Heap.mk [[0, 5]] [[(1, ⟨0, 0, 1, 2⟩), (2, ⟨0, 0, 2, 2⟩)]]).appendStorage 0 1 [7]).read
      0 2 = some [0, 7] ∧
    ((Heap.mk [[0, 5]] [[(1, ⟨0, 0, 1, 2⟩), (2, ⟨0, 0, 2, 2⟩)]]).appendStorage 0 1 [7]).read
      0 2 ≠ (Heap.mk [[0, 5]] [[(1, ⟨0, 0, 1, 2⟩), (2, ⟨0, 0, 2, 2⟩)]]).read 0 2 := by
  decide

/-- C18 fails on the code: on the same memory, the full-text matcher over the dictionary
matcher x -> 7 for attribute 1 matches the token x.  It runs the dictionary matcher on
`Copy(state)`, whose map, at address 1, holds the same two slices; the dictionary matcher
appends 7 at attribute 1 of that map, and the full-text matcher returns the memory of the
map at address 1.  The input memory mapped attribute 2 to 0, 5; the returned memory maps
it to 0, 7, of which 0, 5 is no prefix: a value was replaced, not appended.  The list at
attribute 2 of the input state reads 0, 7 as well. -/
theorem matched_memory_overwrites_shared_list :
    (Heap.mk [[0, 5]] [[(1, ⟨0, 0, 1, 2⟩), (2, ⟨0, 0, 2, 2⟩)]]).read 0 2 = some [0, 5] ∧
    ((Heap.mk [[0, 5]] [[(1, ⟨0, 0, 1, 2⟩), (2, ⟨0, 0, 2, 2⟩)]]).copyStorage 0).2 = 1 ∧
    (((Heap.mk [[0, 5]] [[(1, ⟨0, 0, 1, 2⟩), (2, ⟨0, 0, 2, 2⟩)]]).copyStorage
      0).1.appendStorage 1 1 [7]).read 1 1 = some [0, 7] ∧
    (((Heap.mk [[0, 5]] [[(1, ⟨0, 0, 1, 2⟩), (2, ⟨0, 0, 2, 2⟩)]]).copyStorage
      0).1.appendStorage 1 1 [7]).read 1 2 = some [0, 7] ∧
    ¬ ([0, 5] <+: [0, 7]) ∧
    (((Heap.mk [[0, 5]] [[(1, ⟨0, 0, 1, 2⟩), (2, ⟨0, 0, 2, 2⟩)]]).copyStorage
      0).1.appendStorage 1 1 [7]).read 0 2 = some [0, 7] := by
  decide

end CFG
